import Mathlib

/- Shallow embedding of the py3langid training code (src/py3langid/train/):
   scanner.py (the Aho-Corasick Scanner), index.py (CorpusIndexer) and
   common.py (read_features / write_features / MapPool).

   Conventions of the embedding:
   * The train modules are Python-2-era code kept in the repository; they are
     read with their evident runtime semantics: the class attribute
     `Scanner.alphabet = map(chr, range(1<<8))` is the sequence of the 256 byte
     values, dictionaries iterate in insertion order, `itertools.imap` is the
     lazy in-order map.
   * Bytes are `Nat` (with explicit `< 256` bounds where the code relies on
     them); byte strings are `List Nat`.
   * Python dicts that the code only ever reads by key are embedded as
     functions into `Option`; dicts whose keys are iterated are embedded as
     association lists in insertion order.  The `defaultdict(set)` values of
     `output` and `coverage_index` are embedded as duplicate-free lists in
     insertion order: a deterministic refinement of the arbitrary set
     iteration order, which no claim observes.
   * The `while queue:` loops of Algorithms 3 and 4 and the fail-chain descent
     are embedded with an explicit fuel argument; `build` passes fuel
     `newstate + 1`, which is shown to be never exhausted (each state enters
     the queue at most once, and the fail chain strictly shortens).
   * Reads of dict keys that the Python code performs bare (raising `KeyError`
     if absent) are embedded as `Option.getD` with default `0`; the
     accompanying theorems prove the keys present wherever the code reads
     them, so the default is never produced on the executed paths.
-/

namespace PyLangid

/-! ## scanner.py : data representations -/

/-- The 256 byte values iterated by `Scanner.alphabet`. -/
def alphabetL : List Nat := List.range 256

/-- `goto` / `nextmove` dictionaries keyed by `(state, byte)`: association
lists with the newest binding first (exactly the dict lookup semantics; every
assignment the code performs is at a fresh key). -/
abbrev StateDict := List ((Nat × Nat) × Nat)

/-- Dict lookup `d.get(k)`. -/
def sdFind (g : StateDict) (k : Nat × Nat) : Option Nat :=
  (g.find? (fun e => decide (e.1 = k))).map (fun e => e.2)

/-- Dict assignment `d[k] = v`. -/
def dictUpd (g : StateDict) (k : Nat × Nat) (v : Nat) : StateDict :=
  (k, v) :: g

/-- `output = defaultdict(set)` from state to the set of keywords ending
there; the value of an absent key is the empty set. -/
abbrev OutMap := List (Nat × List (List Nat))

/-- `output[s]` (the read never inserts an observable entry: an absent key
reads as the empty set). -/
def outGet (out : OutMap) (s : Nat) : List (List Nat) :=
  ((out.find? (fun e => decide (e.1 = s))).map (fun e => e.2)).getD []

/-- `output[s].add(k)` (no-op when the keyword is already present). -/
def outAdd (out : OutMap) (s : Nat) (k : List Nat) : OutMap :=
  if k ∈ outGet out s then out else (s, outGet out s ++ [k]) :: out

/-- `output[s].update(other)`: append the missing elements. -/
def outUnion (out : OutMap) (s : Nat) (other : List (List Nat)) : OutMap :=
  (s, outGet out s ++ other.filter (fun k => decide (k ∉ outGet out s))) :: out

/-- `fail` dictionary from state to state. -/
abbrev FailDict := List (Nat × Nat)

/-- `fail.get(k)`. -/
def fdFind (f : FailDict) (k : Nat) : Option Nat :=
  (f.find? (fun e => decide (e.1 = k))).map (fun e => e.2)

/-- `fail[k] = v`. -/
def fdUpd (f : FailDict) (k v : Nat) : FailDict :=
  (k, v) :: f

/-! ## scanner.py : Algorithm 2 (goto construction) -/

/-- The walk loop of Algorithm 2
(`while (j < len(a)) and (state, a[j]) in goto`): follow existing goto edges as
far as possible, returning the state reached and the unconsumed suffix. -/
def gotoWalk (g : StateDict) : Nat → List Nat → Nat × List Nat
  | s, [] => (s, [])
  | s, c :: rest =>
    match sdFind g (s, c) with
    | some s2 => gotoWalk g s2 rest
    | none => (s, c :: rest)

/-- The extension loop of Algorithm 2 (`for p in range(j, len(a))`): one fresh
state per remaining byte; returns the new goto, the new `newstate` counter and
the final state. -/
def gotoExtend : StateDict → Nat → Nat → List Nat → StateDict × Nat × Nat
  | g, ns, s, [] => (g, ns, s)
  | g, ns, s, c :: rest => gotoExtend (dictUpd g (s, c) (ns + 1)) (ns + 1) (ns + 1) rest

/-- The trie state built by Algorithm 2: `goto`, `output` and the `newstate`
counter. -/
structure Trie where
  goto : StateDict
  output : OutMap
  newstate : Nat

/-- The body of Algorithm 2 for one keyword `a`. -/
def enterKeyword (t : Trie) (a : List Nat) : Trie :=
  let ws := gotoWalk t.goto 0 a
  let ge := gotoExtend t.goto t.newstate ws.1 ws.2
  { goto := ge.1, newstate := ge.2.1, output := outAdd t.output ge.2.2 a }

/-- Algorithm 2 over the whole keyword list. -/
def trieOf (keywords : List (List Nat)) : Trie :=
  keywords.foldl enterKeyword ⟨[], [], 0⟩

/-- Root completion: `if (0,a) not in goto: goto[(0,a)] = 0` for every byte. -/
def completeRoot (g : StateDict) : StateDict :=
  alphabetL.foldl (fun g2 a => if sdFind g2 (0, a) = none then dictUpd g2 (0, a) 0 else g2) g

/-! ## scanner.py : Algorithm 3 (failure function) -/

/-- `state = fail[r]; while (state, a) not in goto: state = fail[state]`,
started at `s = fail[r]`; returns the first state of the fail chain that has a
goto edge on `a`.  The fuel bounds the chain length. -/
def failDescend (g : StateDict) (fail : FailDict) : Nat → Nat → Nat → Nat
  | 0, s, _ => s
  | fuel + 1, s, a =>
    if sdFind g (s, a) = none then failDescend g fail fuel ((fdFind fail s).getD 0) a else s

/-- Mutable state of the Algorithm 3 BFS: the queue, `fail` and `output`. -/
structure Alg3St where
  queue : List Nat
  fail : FailDict
  output : OutMap

/-- One byte `a` of the inner `for a in self.alphabet` loop of Algorithm 3,
processing the popped state `r`. -/
def alg3Child (g : StateDict) (desc : Nat) (r : Nat) (st : Alg3St) (a : Nat) : Alg3St :=
  match sdFind g (r, a) with
  | none => st
  | some s =>
    let t := failDescend g st.fail desc ((fdFind st.fail r).getD 0) a
    let fs := (sdFind g (t, a)).getD 0
    { queue := st.queue ++ [s]
      fail := fdUpd st.fail s fs
      output :=
        if outGet st.output fs = [] then st.output
        else outUnion st.output s (outGet st.output fs) }

/-- The `while queue:` loop of Algorithm 3. -/
def alg3Loop (g : StateDict) (desc : Nat) : Nat → Alg3St → FailDict × OutMap
  | 0, st => (st.fail, st.output)
  | fuel + 1, st =>
    match st.queue with
    | [] => (st.fail, st.output)
    | r :: q => alg3Loop g desc fuel (alphabetL.foldl (alg3Child g desc r) ⟨q, st.fail, st.output⟩)

/-- The initial loop of Algorithm 3: enqueue the depth-1 states, `fail[s] = 0`.
(After root completion `goto[(0,a)]` is total, so the `none` branch is never
taken by `build`.) -/
def alg3InitStep (g : StateDict) (st : Alg3St) (a : Nat) : Alg3St :=
  match sdFind g (0, a) with
  | none => st
  | some s =>
    if s ≠ 0 then { st with queue := st.queue ++ [s], fail := fdUpd st.fail s 0 } else st

/-! ## scanner.py : Algorithm 4 (nextmove compilation) -/

/-- Mutable state of the Algorithm 4 BFS. -/
structure Alg4St where
  queue : List Nat
  nextmove : StateDict

/-- The initial loop of Algorithm 4: `nextmove[(0,a)] = goto[(0,a)]`, enqueue
the depth-1 states. -/
def alg4InitStep (g : StateDict) (st : Alg4St) (a : Nat) : Alg4St :=
  match sdFind g (0, a) with
  | none => st
  | some s =>
    { queue := if s ≠ 0 then st.queue ++ [s] else st.queue
      nextmove := dictUpd st.nextmove (0, a) s }

/-- One byte `a` of the inner loop of Algorithm 4 for the popped state `r`:
a real goto edge is copied (and the child enqueued); otherwise the row of
`fail[r]` is consulted. -/
def alg4Child (g : StateDict) (fail : FailDict) (r : Nat) (st : Alg4St) (a : Nat) : Alg4St :=
  match sdFind g (r, a) with
  | some s => { queue := st.queue ++ [s], nextmove := dictUpd st.nextmove (r, a) s }
  | none =>
    { st with
      nextmove :=
        dictUpd st.nextmove (r, a)
          ((sdFind st.nextmove ((fdFind fail r).getD 0, a)).getD 0) }

/-- The `while queue:` loop of Algorithm 4. -/
def alg4Loop (g : StateDict) (fail : FailDict) : Nat → Alg4St → StateDict
  | 0, st => st.nextmove
  | fuel + 1, st =>
    match st.queue with
    | [] => st.nextmove
    | r :: q => alg4Loop g fail fuel (alphabetL.foldl (alg4Child g fail r) ⟨q, st.nextmove⟩)

/-! ## scanner.py : nm_arr packing, build, search, pickling -/

/-- The values yielded by `nextstate_iter`: the nextmove table flattened row by
row over states `0 .. newstate` and the 256 bytes. -/
def nmValues (nextmove : StateDict) (newstate : Nat) : List Nat :=
  (List.range (newstate + 1)).flatMap
    (fun s => alphabetL.map (fun a => (sdFind nextmove (s, a)).getD 0))

/-- `array.array` of typecode H (16-bit unsigned) or L (the wider unsigned
type used after an `OverflowError`). -/
inductive NmArr where
  | arrH (vals : List Nat)
  | arrL (vals : List Nat)
deriving DecidableEq

/-- The underlying values of the packed array. -/
def NmArr.vals : NmArr → List Nat
  | .arrH v => v
  | .arrL v => v

/-- Indexing the packed array. -/
def NmArr.get (nm : NmArr) (i : Nat) : Nat := nm.vals.getD i 0

/-- `generate_nm_arr('H')` with the `except OverflowError` fallback to
`generate_nm_arr('L')`: typecode H succeeds exactly when every stored value
fits in 16 bits. -/
def mkNmArr (vals : List Nat) : NmArr :=
  if vals.all (fun v => decide (v < 65536)) then .arrH vals else .arrL vals

/-- The `Scanner` object: the fields assigned by `build` that later methods
read (`self.output` is the final dict of tuples, which coincides pointwise
with the propagated `output`). -/
structure Scanner where
  nextmove : StateDict
  output : OutMap
  nm_arr : NmArr

/-- `Scanner.build`. -/
def Scanner.build (keywords : List (List Nat)) : Scanner :=
  let t := trieOf keywords
  let g := completeRoot t.goto
  let st3 := alphabetL.foldl (alg3InitStep g) ⟨[], [], t.output⟩
  let fo := alg3Loop g (t.newstate + 1) (t.newstate + 1) st3
  let st4 := alphabetL.foldl (alg4InitStep g) ⟨[], []⟩
  let nm := alg4Loop g fo.1 (t.newstate + 1) st4
  { nextmove := nm, output := fo.2, nm_arr := mkNmArr (nmValues nm t.newstate) }

/-- The loop of `Scanner.search`: `state = self.nm_arr[(state << 8) + letter]`,
then yield every keyword of `self.output.get(state, [])`. -/
def Scanner.searchFrom (sc : Scanner) : Nat → List Nat → List (List Nat)
  | _, [] => []
  | s, c :: rest =>
    let s2 := sc.nm_arr.get ((s <<< 8) + c)
    outGet sc.output s2 ++ sc.searchFrom s2 rest

/-- `Scanner.search` over a byte string. -/
def Scanner.search (sc : Scanner) (bytes : List Nat) : List (List Nat) :=
  sc.searchFrom 0 bytes

/-- `Scanner.__getstate__`: the compiled `(nm_arr, output)`. -/
def Scanner.getstate (sc : Scanner) : NmArr × OutMap := (sc.nm_arr, sc.output)

/-- `Scanner.__setstate__`: restore `nm_arr` and `output` and rebuild the
`nextmove` dict from the flat array (the source divides the flat index by 256
for the state; the rebuilt dict is not read by `search`). -/
def Scanner.setstate (v : NmArr × OutMap) : Scanner :=
  { nm_arr := v.1
    output := v.2
    nextmove := (v.1.vals.enum.map (fun e => ((e.1 / 256, e.1 % 256), e.2))).reverse }

/-! ## index.py : CorpusIndexer -/

/-- The two Python exception kinds distinguished by `CorpusIndexer.index`:
`KeyError` (caught: the document is skipped) and `TypeError` (uncaught). -/
inductive PyErr where
  | keyError
  | typeError
deriving DecidableEq

/-- One regular file admitted by the `os.walk` / `random.random() <
self.proportion` loop, with the `domain` and `lang` directory components split
from its path. -/
structure WalkFile where
  domain : String
  lang : String
  docname : String
  path : String

/-- `defaultdict(Enumerator())` access: return the id of `k`, inserting it
with the next id (= the number of entries so far) when absent. -/
def ddGet (es : List (String × Nat)) (k : String) : Nat × List (String × Nat) :=
  match es.find? (fun e => decide (e.1 = k)) with
  | some e => (e.2, es)
  | none => (es.length, es ++ [(k, es.length)])

/-- The two shapes of `lang_index` (index.py lines 84-88): a
`defaultdict(Enumerator())`, or - for a pre-specified language list - the value
of the set comprehension on line 88, whose subscripting raises `TypeError`. -/
inductive LangIndexRep where
  | dd (entries : List (String × Nat))
  | presetSet (pairs : List (String × Nat))

/-- `self.lang_index[lang]`. -/
def langGet : LangIndexRep → String → Except PyErr (Nat × LangIndexRep)
  | .dd es, k => .ok ((ddGet es k).1, .dd (ddGet es k).2)
  | .presetSet _, _ => .error .typeError

/-- The two shapes of `domain_index` (index.py lines 90-94): a
`defaultdict(Enumerator())` or the pre-specified dict of line 94. -/
inductive DomainIndexRep where
  | dd (entries : List (String × Nat))
  | presetDict (entries : List (String × Nat))

/-- `self.domain_index[domain]`. -/
def domainGet : DomainIndexRep → String → Except PyErr (Nat × DomainIndexRep)
  | .dd es, k => .ok ((ddGet es k).1, .dd (ddGet es k).2)
  | .presetDict es, k =>
    match es.find? (fun e => decide (e.1 = k)) with
    | some e => .ok (e.2, .presetDict es)
    | none => .error .keyError

/-- `self.coverage_index[domain].add(lang)` on the insertion-ordered
association list embedding of `defaultdict(set)`. -/
def covAdd : List (String × List String) → String → String → List (String × List String)
  | [], d, l => [(d, [l])]
  | (d2, ls) :: rest, d, l =>
    if d2 = d then (d2, if l ∈ ls then ls else ls ++ [l]) :: rest
    else (d2, ls) :: covAdd rest d l

/-- The mutable state of a `CorpusIndexer`. -/
structure IxState where
  lang_index : LangIndexRep
  domain_index : DomainIndexRep
  coverage_index : List (String × List String)
  items : List (Nat × Nat × String × String)

/-- One file of the loop in `CorpusIndexer.index`: the `try` block looks up the
domain id and then the lang id, catching only `KeyError` (skip the document);
on success the coverage relation and the item are recorded. -/
def indexFile (st : IxState) (f : WalkFile) : Except PyErr IxState :=
  match domainGet st.domain_index f.domain with
  | .error .keyError => .ok st
  | .error e => .error e
  | .ok (did, dIdx) =>
    match langGet st.lang_index f.lang with
    | .error .keyError => .ok { st with domain_index := dIdx }
    | .error e => .error e
    | .ok (lid, lIdx) =>
      .ok { lang_index := lIdx
            domain_index := dIdx
            coverage_index := covAdd st.coverage_index f.domain f.lang
            items := st.items ++ [(did, lid, f.docname, f.path)] }

/-- `CorpusIndexer.index` over the admitted files in walk order. -/
def indexAll (st : IxState) : List WalkFile → Except PyErr IxState
  | [] => .ok st
  | f :: fs =>
    match indexFile st f with
    | .ok st2 => indexAll st2 fs
    | .error e => .error e

/-- One `lang_domain_count[lang] += 1`. -/
def bump (m : String → Nat) (l : String) : String → Nat :=
  fun x => if x = l then m l + 1 else m x

/-- `lang_domain_count`: fold `+= 1` over every language of every coverage
set. -/
def langDomainCount (cov : List (String × List String)) : String → Nat :=
  cov.foldl (fun m e => e.2.foldl bump m) (fun _ => 0)

/-- The languages appearing in the coverage index (the keys of
`lang_domain_count`). -/
def covLangs (cov : List (String × List String)) : List String :=
  cov.foldl (fun acc e => acc ++ e.2) []

/-- `reject_langs`: languages counted by `lang_domain_count` whose count is
below `min_domain` (membership list; only membership and emptiness are
observed downstream). -/
def rejectLangs (cov : List (String × List String)) (mind : Nat) : List String :=
  (covLangs cov).filter (fun l => decide (langDomainCount cov l < mind))

/-- `self.lang_index[l]` on the defaultdict entries for a language proven
present (the theorems show every rejected language is a key). -/
def langIdOfD (es : List (String × Nat)) (l : String) : Nat :=
  ((es.find? (fun e => decide (e.1 = l))).map (fun e => e.2)).getD es.length

/-- The renumbering loop of `prune_min_domain`: iterate `lang_index.items()` in
insertion order; every surviving language gets the next dense id from the fresh
`defaultdict(Enumerator())`, and `lm` maps its old id to the new one. -/
def renumber (es : List (String × Nat)) (rejectIds : List Nat) :
    List (String × Nat) × List (Nat × Nat) :=
  es.foldl
    (fun acc e =>
      if e.2 ∈ rejectIds then acc
      else (acc.1 ++ [(e.1, acc.1.length)], acc.2 ++ [(e.2, acc.1.length)]))
    ([], [])

/-- `lm[v]` with the `if l in lm` membership guard. -/
def lmGet (lm : List (Nat × Nat)) (v : Nat) : Option Nat :=
  (lm.find? (fun e => decide (e.1 = v))).map (fun e => e.2)

/-- `CorpusIndexer.prune_min_domain`.  (When `reject_langs` is nonempty the
language index is necessarily the defaultdict shape: a pre-specified set crashes
`index` before any coverage is recorded, so the `presetSet` branch is
unreachable and left as the identity.) -/
def pruneMinDomain (st : IxState) (mind : Nat) : IxState :=
  let rej := rejectLangs st.coverage_index mind
  if rej = [] then st
  else
    match st.lang_index with
    | .dd es =>
      let rejIds := rej.map (langIdOfD es)
      let rn := renumber es rejIds
      { st with
        lang_index := .dd rn.1
        items := st.items.filterMap (fun it =>
          match lmGet rn.2 it.2.1 with
          | some nl => some (it.1, nl, it.2.2.1, it.2.2.2)
          | none => none) }
    | .presetSet _ => st

/-- `lang_index` / `domain_index` initialization from the optional
pre-specified lists (index.py lines 84-94; note the set comprehension for
languages). -/
def initLangIndex : Option (List String) → LangIndexRep
  | none => .dd []
  | some ls => .presetSet (ls.enum.map (fun e => (e.2, e.1)))

/-- Pre-specified domains build a real dict. -/
def initDomainIndex : Option (List String) → DomainIndexRep
  | none => .dd []
  | some ds => .presetDict (ds.enum.map (fun e => (e.2, e.1)))

/-- The allow-list configuration of `CorpusIndexer.__init__`. -/
structure IxConfig where
  langs : Option (List String)
  domains : Option (List String)

/-- `CorpusIndexer.__init__` on the admitted files: build the empty indices,
run `index`, then `prune_min_domain`.  No emptiness check of any kind is
performed. -/
def corpusInit (files : List WalkFile) (cfg : IxConfig) (mind : Nat) :
    Except PyErr IxState :=
  let st0 : IxState :=
    { lang_index := initLangIndex cfg.langs
      domain_index := initDomainIndex cfg.domains
      coverage_index := []
      items := [] }
  match indexAll st0 files with
  | .ok st => .ok (pruneMinDomain st mind)
  | .error e => .error e

/-! ## common.py : MapPool -/

/-- The execution mode selected by the `MapPool` contextmanager. -/
inductive MapMode where
  | sequential
  | pooled (size : Nat)
deriving DecidableEq

/-- The branching of `MapPool`: default pool size is `mp.cpu_count() + 4`; a
pool is created only for more than one process, otherwise the in-process
`imap` is yielded. -/
def mapPoolMode (processes : Option Nat) (cpuCount : Nat) : MapMode :=
  let p := processes.getD (cpuCount + 4)
  if p > 1 then .pooled p else .sequential

/-- `itertools.imap` applied to a finite task list: the lazy sequential
in-order map. -/
def imapList (f : α → β) : List α → List β
  | [] => []
  | x :: xs => f x :: imapList f xs

/-! ## common.py : write_features / read_features -/

/-- Lowercase hexadecimal digit. -/
def hexDigit (n : Nat) : Char :=
  if n < 10 then Char.ofNat (48 + n) else Char.ofNat (87 + n)

/-- The value of an (lowercase or uppercase) hex digit character. -/
def hexVal (c : Char) : Option Nat :=
  if 48 ≤ c.toNat ∧ c.toNat ≤ 57 then some (c.toNat - 48)
  else if 97 ≤ c.toNat ∧ c.toNat ≤ 102 then some (c.toNat - 87)
  else if 65 ≤ c.toNat ∧ c.toNat ≤ 70 then some (c.toNat - 55)
  else none

/-- CPython `bytes.__repr__` escaping of one byte under quote character `q`:
the quote and the backslash are backslash-escaped, tab / newline / carriage
return use their letter escapes, other non-printable bytes use `\xHH`. -/
def reprByte (q : Char) (b : Nat) : List Char :=
  if b = q.toNat ∨ b = 92 then [Char.ofNat 92, Char.ofNat b]
  else if b = 9 then [Char.ofNat 92, Char.ofNat 116]
  else if b = 10 then [Char.ofNat 92, Char.ofNat 110]
  else if b = 13 then [Char.ofNat 92, Char.ofNat 114]
  else if b < 32 ∨ 127 ≤ b then
    [Char.ofNat 92, Char.ofNat 120, hexDigit (b / 16), hexDigit (b % 16)]
  else [Char.ofNat b]

/-- CPython quote selection: a single quote unless the bytes contain one and
contain no double quote. -/
def quoteFor (bs : List Nat) : Char :=
  if 39 ∈ bs ∧ 34 ∉ bs then Char.ofNat 34 else Char.ofNat 39

/-- `repr` of a bytes object: `b`, the quote, the escaped bytes, the quote. -/
def reprBytes (bs : List Nat) : List Char :=
  let q := quoteFor bs
  Char.ofNat 98 :: q :: (bs.flatMap (reprByte q) ++ [q])

/-- `write_features`: `print(repr(feat), file=f)` per feature - each repr on
its own newline-terminated line. -/
def write_features (feats : List (List Nat)) : List Char :=
  (feats.map (fun f => reprBytes f ++ [Char.ofNat 10])).flatten

/-- The escape codes accepted after a backslash by the bytes-literal grammar
(the subset `repr` emits, plus both quotes). -/
def escCode (e : Char) : Option Nat :=
  if e = Char.ofNat 92 then some 92
  else if e = Char.ofNat 39 then some 39
  else if e = Char.ofNat 34 then some 34
  else if e = Char.ofNat 116 then some 9
  else if e = Char.ofNat 110 then some 10
  else if e = Char.ofNat 114 then some 13
  else none

/-- Parsing the escaped body of a bytes literal up to the closing quote `q`
(the fragment of `eval` exercised by `read_features`); returns the decoded
bytes and the remaining characters. -/
def unescape (q : Char) (fuel : Nat) : List Char → Option (List Nat × List Char) :=
  match fuel with
  | 0 => fun _ => none
  | fuel + 1 => fun cs =>
    match cs with
    | [] => none
    | c :: rest =>
      if c = q then some ([], rest)
      else if c = Char.ofNat 92 then
        match rest with
        | [] => none
        | e :: rest2 =>
          if e = Char.ofNat 120 then
            match rest2 with
            | h1 :: h2 :: rest3 =>
              match hexVal h1, hexVal h2 with
              | some v1, some v2 =>
                (unescape q fuel rest3).map (fun r => ((16 * v1 + v2) :: r.1, r.2))
              | _, _ => none
            | _ => none
          else
            match escCode e with
            | some b => (unescape q fuel rest2).map (fun r => (b :: r.1, r.2))
            | none => none
      else if 32 ≤ c.toNat ∧ c.toNat < 127 then
        (unescape q fuel rest).map (fun r => (c.toNat :: r.1, r.2))
      else none

/-- `eval` of a complete bytes literal `b'...'` or `b"..."`. -/
def parseBytesLit (cs : List Char) : Option (List Nat) :=
  match cs with
  | b :: q :: rest =>
    if b = Char.ofNat 98 ∧ (q = Char.ofNat 39 ∨ q = Char.ofNat 34) then
      match unescape q (rest.length + 1) rest with
      | some (bs, []) => some bs
      | _ => none
    else none
  | _ => none

/-- Split at the first newline, keeping it with the left part (one step of
text-file line iteration). -/
def breakLine : List Char → List Char × List Char
  | [] => ([], [])
  | c :: rest =>
    if c = Char.ofNat 10 then ([c], rest)
    else
      let r := breakLine rest
      (c :: r.1, r.2)

/-- Python text-file iteration: the newline-terminated chunks, plus a final
chunk without newline when nonempty. -/
def pyLines : Nat → List Char → List (List Char)
  | 0, _ => []
  | _ + 1, [] => []
  | fuel + 1, c :: rest =>
    (breakLine (c :: rest)).1 :: pyLines fuel (breakLine (c :: rest)).2

/-- `eval` of one yielded line (`eval` tolerates the trailing newline). -/
def evalLine (cs : List Char) : Option (List Nat) :=
  parseBytesLit (if cs.getLast? = some (Char.ofNat 10) then cs.dropLast else cs)

/-- `read_features`: `map(eval, f)` over the lines of the file. -/
def read_features (cs : List Char) : Option (List (List Nat)) :=
  (pyLines (cs.length + 1) cs).mapM evalLine

/-! ## Specification-side definitions used by the claims -/

/-- The number of occurrences of `k` as a (possibly overlapping) substring of
`B`: the number of start positions whose remaining suffix begins with `k`. -/
def countSubstr (k B : List Nat) : Nat :=
  ((List.range (B.length + 1)).filter (fun i => decide (k <+: B.drop i))).length

/-- A keyword is contained in a trie when the walk of Algorithm 2 consumes it
entirely and it is recorded in the output of the state reached. -/
def containsKw (t : Trie) (k : List Nat) : Prop :=
  (gotoWalk t.goto 0 k).2 = [] ∧ k ∈ outGet t.output (gotoWalk t.goto 0 k).1

/-- Basic shape of the goto dictionary maintained by Algorithm 2: edges run
from a live state to a strictly larger live nonroot state. -/
def GotoBound (g : StateDict) (ns : Nat) : Prop :=
  ∀ k v, sdFind g k = some v → k.1 ≤ ns ∧ v ≤ ns ∧ 1 ≤ v ∧ k.1 < v

/-- `GotoBound` for the goto and counter of a trie. -/
def TrieBound (t : Trie) : Prop :=
  GotoBound t.goto t.newstate

/-- Specification of the surviving-entries half of the renumbering loop:
entries whose id is rejected are dropped, the others are re-keyed with
consecutive ids from `k`. -/
def renumberSpec (rejIds : List Nat) : List (String × Nat) → Nat → List (String × Nat)
  | [], _ => []
  | e :: es, k =>
    if e.2 ∈ rejIds then renumberSpec rejIds es k
    else (e.1, k) :: renumberSpec rejIds es (k + 1)

/-- Specification of the `lm` half of the renumbering loop: the map from each
surviving old id to its dense new id. -/
def lmSpec (rejIds : List Nat) : List (String × Nat) → Nat → List (Nat × Nat)
  | [], _ => []
  | e :: es, k =>
    if e.2 ∈ rejIds then lmSpec rejIds es k
    else (e.2, k) :: lmSpec rejIds es (k + 1)

/-- Invariants of the index phase on the defaultdict language path: the
entries carry their insertion positions as ids, keys are unique, every
indexed language is covered by some domain, and every covered language is
indexed. -/
def IndexInv (es : List (String × Nat)) (cov : List (String × List String)) : Prop :=
  (es.map (fun e => e.1)).Nodup ∧
  es.map (fun e => e.2) = List.range es.length ∧
  (∀ e ∈ es, ∃ dls ∈ cov, e.1 ∈ dls.2) ∧
  (∀ dls ∈ cov, ∀ l ∈ dls.2, ∃ v, (l, v) ∈ es)

/-- Duplicate removal keeping first occurrences. -/
def dedupKeepFirst : List (List Nat) → List (List Nat)
  | [] => []
  | k :: rest => k :: dedupKeepFirst (rest.filter (fun x => decide (x ≠ k)))
termination_by l => l.length
decreasing_by
  simp only [List.length_cons]
  exact Nat.lt_succ_of_le (List.length_filter_le _ _)

/-- Every live nonroot state of a trie is the target of some goto edge. -/
def ParentTotal (g : StateDict) (ns : Nat) : Prop :=
  ∀ s, 1 ≤ s → s ≤ ns → ∃ p a, sdFind g (p, a) = some s

/-- No state is the target of two different goto edges (the goto graph is a
tree rooted at 0). -/
def ParentUnique (g : StateDict) : Prop :=
  ∀ p a p2 a2 s, sdFind g (p, a) = some s → sdFind g (p2, a2) = some s →
    p = p2 ∧ a = a2

/-- Every goto edge is labelled with a byte value. -/
def GotoBytes (g : StateDict) : Prop :=
  ∀ k v, sdFind g k = some v → k.2 < 256

/-- Invariant of the Algorithm 4 BFS, relating the running state to the
(ghost) list `done` of already popped states.  `gt` is the uncompleted goto of
the trie and `ns` its last state. -/
structure A4Inv (gt : StateDict) (ns : Nat) (st : Alg4St) (done : List Nat) : Prop where
  dnodup : done.Nodup
  qnodup : st.queue.Nodup
  disj : ∀ x ∈ st.queue, x ∉ done
  qmem : ∀ x ∈ st.queue, 1 ≤ x ∧ x ≤ ns
  dmem : ∀ x ∈ done, 1 ≤ x ∧ x ≤ ns
  closure : ∀ p a s, sdFind gt (p, a) = some s → p ∈ done → s ∈ done ∨ s ∈ st.queue
  rootcov : ∀ a s, sdFind gt (0, a) = some s → s ∈ done ∨ s ∈ st.queue
  rows : ∀ r ∈ done, ∀ a, a < 256 → (sdFind st.nextmove (r, a)).isSome = true
  rootrow : ∀ a, a < 256 → (sdFind st.nextmove (0, a)).isSome = true
  vbound : ∀ k v, sdFind st.nextmove k = some v → v ≤ ns
  keyinv : ∀ k, (sdFind st.nextmove k).isSome = true → k.1 ∈ done ∨ k.1 = 0
  edgeval : ∀ p a s, sdFind gt (p, a) = some s → (p ∈ done ∨ p = 0) →
    sdFind st.nextmove (p, a) = some s
  origin : ∀ x, x ∈ st.queue ∨ x ∈ done → ∀ p a, sdFind gt (p, a) = some x →
    p ∈ done ∨ p = 0

/-- A word is consumed by the trie when the goto walk from the root eats it
entirely. -/
def consumedB (g : StateDict) (u : List Nat) : Bool :=
  decide ((gotoWalk g 0 u).2 = [])

/-- The state reached by walking a word from the root. -/
def stOf (g : StateDict) (u : List Nat) : Nat :=
  (gotoWalk g 0 u).1

/-- The longest suffix of `w` consumed by the trie (the classical
Aho-Corasick state semantics). -/
def lsufT (g : StateDict) (w : List Nat) : List Nat :=
  (w.tails.find? (fun t => consumedB g t)).getD []

/-- The longest proper consumed suffix of a nonempty word: the semantics of
the failure function. -/
def psufT (g : StateDict) (u : List Nat) : List Nat :=
  lsufT g (u.drop 1)

/-- Invariant of the Algorithm 3 BFS over the ghost lists of popped
(`doneW`) and queued (`qW`) words. -/
structure A3Inv (K : List (List Nat)) (gt : StateDict) (st : Alg3St)
    (doneW qW : List (List Nat)) : Prop where
  qrep : st.queue = qW.map (stOf gt)
  wnodup : (doneW ++ qW).Nodup
  origin : ∀ w, w ∈ doneW ∨ w ∈ qW → (w.dropLast ∈ doneW ∨ w.dropLast = [])
  dcons : ∀ w ∈ doneW, consumedB gt w = true ∧ w ≠ []
  qcons : ∀ w ∈ qW, consumedB gt w = true ∧ w ≠ []
  sorted : List.Pairwise (fun w1 w2 => w1.length ≤ w2.length) qW
  span : ∀ w1 ∈ qW, ∀ w2 ∈ qW, w1.length ≤ w2.length + 1
  shallow : ∀ w, consumedB gt w = true → w ≠ [] →
    (∀ w2 ∈ qW, w.length < w2.length) → w ∈ doneW
  closure : ∀ w, consumedB gt w = true → w ≠ [] →
    (w.dropLast ∈ doneW ∨ w.dropLast = []) → w ∈ doneW ∨ w ∈ qW
  fcorr : ∀ w, w ∈ doneW ∨ w ∈ qW →
    fdFind st.fail (stOf gt w) = some (stOf gt (psufT gt w))
  ocorr : ∀ w, w ∈ doneW ∨ w ∈ qW →
    (outGet st.output (stOf gt w)).Nodup ∧
    (∀ k, k ∈ outGet st.output (stOf gt w) ↔ (k ∈ K ∧ k <:+ w))
  ofresh : ∀ w, consumedB gt w = true → w ∉ doneW → w ∉ qW →
    outGet st.output (stOf gt w) = if w ∈ K then [w] else []

/-- The word-level ghost bookkeeping shared by the two BFS traversals
(Algorithms 3 and 4): the done and queued words are distinct consumed nonempty
words, enqueued in breadth-first (length) order, children following parents. -/
structure GhostW (gt : StateDict) (doneW qW : List (List Nat)) : Prop where
  wnodup : (doneW ++ qW).Nodup
  origin : ∀ w, w ∈ doneW ∨ w ∈ qW → (w.dropLast ∈ doneW ∨ w.dropLast = [])
  dcons : ∀ w ∈ doneW, consumedB gt w = true ∧ w ≠ []
  qcons : ∀ w ∈ qW, consumedB gt w = true ∧ w ≠ []
  sorted : List.Pairwise (fun w1 w2 => w1.length ≤ w2.length) qW
  span : ∀ w1 ∈ qW, ∀ w2 ∈ qW, w1.length ≤ w2.length + 1
  shallow : ∀ w, consumedB gt w = true → w ≠ [] →
    (∀ w2 ∈ qW, w.length < w2.length) → w ∈ doneW
  closure : ∀ w, consumedB gt w = true → w ≠ [] →
    (w.dropLast ∈ doneW ∨ w.dropLast = []) → w ∈ doneW ∨ w ∈ qW

/-- Invariant of the Algorithm 4 BFS relating the next-move entries to the
longest-consumed-suffix semantics. -/
structure A4CInv (gt : StateDict) (st : Alg4St) (doneW qW : List (List Nat)) : Prop where
  ghost : GhostW gt doneW qW
  qrep : st.queue = qW.map (stOf gt)
  rowdone : ∀ w ∈ doneW, ∀ a, a < 256 →
    sdFind st.nextmove (stOf gt w, a) = some (stOf gt (lsufT gt (w ++ [a])))
  rowroot : ∀ a, a < 256 →
    sdFind st.nextmove (0, a) = some (stOf gt (lsufT gt [a]))

/-! # Theorems -/

/-! ## C9 : MapPool scheduling -/

/-- C9: `MapPool` with `processes = 1` runs the tasks strictly sequentially in
the calling process - no worker pool is created and the in-process `imap`
applies the tasks in input order - and an unspecified `processes` defaults the
pool size to the CPU count plus 4. -/
theorem mapPool_sequential_and_default :
    (∀ cpuCount, mapPoolMode (some 1) cpuCount = MapMode.sequential) ∧
    (∀ cpuCount, mapPoolMode none cpuCount = MapMode.pooled (cpuCount + 4)) ∧
    (∀ {α β : Type} (f : α → β) (tasks : List α), imapList f tasks = tasks.map f) := by
  refine ⟨fun _ => rfl, fun cpuCount => ?_, fun f tasks => ?_⟩
  · unfold mapPoolMode
    simp only [Option.getD]
    rw [if_pos (by omega)]
  · induction tasks with
    | nil => rfl
    | cons x xs ih => simp [imapList, ih]

/-! ## C3 : Scanner pickling round-trip -/

/-- `search` reads only the `nm_arr` and `output` fields. -/
theorem searchFrom_congr (sc1 sc2 : Scanner) (h1 : sc1.nm_arr = sc2.nm_arr)
    (h2 : sc1.output = sc2.output) (s : Nat) (B : List Nat) :
    sc1.searchFrom s B = sc2.searchFrom s B := by
  induction B generalizing s with
  | nil => rfl
  | cons c rest ih => simp only [Scanner.searchFrom, h1, h2, ih]

/-- C3: for a feature set whose scanner has at most `2^16` states, restoring a
scanner from the `__getstate__` pair `(nm_arr, output)` via `__setstate__`
yields a scanner whose `search` produces exactly the same output sequence as
the original on every input byte string. -/
theorem scanner_pickle_roundtrip (K : List (List Nat))
    (_hstates : (trieOf K).newstate + 1 ≤ 65536) (B : List Nat) :
    (Scanner.setstate (Scanner.getstate (Scanner.build K))).search B
      = (Scanner.build K).search B := by
  generalize Scanner.build K = sc
  exact searchFrom_congr (Scanner.setstate sc.getstate) sc rfl rfl 0 B

/-- Witness for C3 at a concrete feature set and input. -/
theorem scanner_pickle_roundtrip_witness :
    (trieOf [[97]]).newstate + 1 ≤ 65536 ∧
    (Scanner.setstate (Scanner.getstate (Scanner.build [[97]]))).search [97, 98]
      = (Scanner.build [[97]]).search [97, 98] :=
  ⟨by decide, scanner_pickle_roundtrip [[97]] (by decide) [97, 98]⟩

/-! ## C5 : behaviour on an empty corpus -/

/-- C5 counterexample: on a corpus with no admitted documents the constructor
returns normally with an empty `items` list - it does not fail with an
`EmptyCorpus` error (none exists in the code). -/
theorem emptyCorpus_counterexample :
    ∃ st, corpusInit [] ⟨none, none⟩ 1 = .ok st ∧ st.items = [] :=
  ⟨_, rfl, rfl⟩

/-- C5 amended: for every allow-list configuration and every `min_domain`
threshold, constructing a `CorpusIndexer` over a corpus with no admitted
documents returns normally, yielding an indexer whose document list is empty;
no `EmptyCorpus` failure is raised (the source defines no such error). -/
theorem emptyCorpus_amended (cfg : IxConfig) (mind : Nat) :
    ∃ st, corpusInit [] cfg mind = .ok st ∧ st.items = [] :=
  ⟨_, rfl, rfl⟩

/-! ## C6 : allow-list handling -/

/-- C6: with a pre-specified language allow-list, indexing any file - here one
whose language lies outside the list - does not skip the document: the
`lang_index` built on index.py line 88 is a set, its subscripting raises an
uncaught `TypeError`, and construction crashes instead of continuing. -/
theorem langAllowList_typeError :
    corpusInit [⟨"d1", "de", "doc1", "p1"⟩] ⟨some ["en"], none⟩ 1
      = .error .typeError := by
  rfl

/-! ## C8 : feature file round-trip -/

/-- `Char.ofNat` inverts to the code point below 256. -/
theorem charToNat_ofNat (n : Nat) (h : n < 256) : (Char.ofNat n).toNat = n := by
  unfold Char.ofNat
  split
  · rfl
  · next hv => exact absurd (Or.inl (by omega)) hv

/-- `Char.ofNat` is injective below 256. -/
theorem charOfNat_inj (m n : Nat) (hm : m < 256) (hn : n < 256)
    (h : Char.ofNat m = Char.ofNat n) : m = n := by
  have := congrArg Char.toNat h
  rwa [charToNat_ofNat m hm, charToNat_ofNat n hn] at this

/-- Reading back a lowercase hex digit. -/
theorem hexVal_hexDigit : ∀ n < 16, hexVal (hexDigit n) = some n := by decide

/-- The quote character chosen by `repr` is one of the two quotes. -/
theorem quoteFor_cases (bs : List Nat) :
    quoteFor bs = Char.ofNat 39 ∨ quoteFor bs = Char.ofNat 34 := by
  unfold quoteFor
  split
  · exact Or.inr rfl
  · exact Or.inl rfl

/-- One byte of the escaped body parses back, consuming exactly its escape. -/
theorem unescape_reprByte (q : Char) (hq : q = Char.ofNat 39 ∨ q = Char.ofNat 34)
    (b : Nat) (hb : b < 256) (tail : List Char) (f : Nat) :
    unescape q (f + 1) (reprByte q b ++ tail)
      = (unescape q f tail).map (fun r => (b :: r.1, r.2)) := by
  have hqne92 : ¬ (Char.ofNat 92 = q) := by
    rcases hq with h | h <;> subst h <;> decide
  have hq256 : q.toNat < 256 := by
    rcases hq with h | h <;> subst h <;> decide
  unfold reprByte
  by_cases hA : b = q.toNat ∨ b = 92
  · rw [if_pos hA]
    have hne120 : ¬ (Char.ofNat b = Char.ofNat 120) := by
      intro h
      have hb120 := charOfNat_inj b 120 hb (by omega) h
      rcases hA with h2 | h2
      · rcases hq with h3 | h3 <;> subst h3 <;> simp_all
      · omega
    have hesc : escCode (Char.ofNat b) = some b := by
      rcases hA with h | h
      · subst h
        rcases hq with h | h <;> subst h <;> decide
      · subst h; decide
    simp only [List.cons_append, List.nil_append, unescape, if_neg hqne92, if_true]
    rw [if_neg hne120, hesc]
  · rw [if_neg hA]
    push_neg at hA
    by_cases hB : b = 9
    · subst hB
      rw [if_pos rfl]
      simp only [List.cons_append, List.nil_append, unescape, if_neg hqne92, if_true]
      rw [if_neg (show ¬ (Char.ofNat 116 = Char.ofNat 120) from by decide)]
      rw [show escCode (Char.ofNat 116) = some 9 from by decide]
    · rw [if_neg hB]
      by_cases hC : b = 10
      · subst hC
        rw [if_pos rfl]
        simp only [List.cons_append, List.nil_append, unescape, if_neg hqne92, if_true]
        rw [if_neg (show ¬ (Char.ofNat 110 = Char.ofNat 120) from by decide)]
        rw [show escCode (Char.ofNat 110) = some 10 from by decide]
      · rw [if_neg hC]
        by_cases hD : b = 13
        · subst hD
          rw [if_pos rfl]
          simp only [List.cons_append, List.nil_append, unescape, if_neg hqne92, if_true]
          rw [if_neg (show ¬ (Char.ofNat 114 = Char.ofNat 120) from by decide)]
          rw [show escCode (Char.ofNat 114) = some 13 from by decide]
        · rw [if_neg hD]
          by_cases hE : b < 32 ∨ 127 ≤ b
          · rw [if_pos hE]
            simp only [List.cons_append, List.nil_append, unescape, if_neg hqne92, if_true,
              hexVal_hexDigit (b / 16) (by omega), hexVal_hexDigit (b % 16) (by omega)]
            have hdm : 16 * (b / 16) + b % 16 = b := by omega
            rw [hdm]
          · rw [if_neg hE]
            push_neg at hE
            have hcneq : ¬ (Char.ofNat b = q) := by
              intro h
              exact hA.1 (by rw [← charToNat_ofNat b hb, h])
            have hcne92 : ¬ (Char.ofNat b = Char.ofNat 92) := by
              intro h
              exact hA.2 (charOfNat_inj b 92 hb (by omega) h)
            have htn : (Char.ofNat b).toNat = b := charToNat_ofNat b hb
            simp only [List.cons_append, unescape, if_neg hcneq, if_neg hcne92, htn]
            rw [if_pos ⟨hE.1, hE.2⟩, List.nil_append]

/-- Parsing the escaped body emitted by `repr` returns the original bytes and
leaves everything after the closing quote untouched. -/
theorem unescape_reprBody (q : Char) (hq : q = Char.ofNat 39 ∨ q = Char.ofNat 34)
    (bs : List Nat) (hbs : ∀ b ∈ bs, b < 256) :
    ∀ (rest : List Char) (fuel : Nat),
      bs.length < fuel →
      unescape q fuel (bs.flatMap (reprByte q) ++ q :: rest) = some (bs, rest) := by
  induction bs with
  | nil =>
    intro rest fuel hf
    obtain ⟨f, rfl⟩ : ∃ f, fuel = f + 1 := ⟨fuel - 1, by omega⟩
    simp [unescape]
  | cons b bs ih =>
    intro rest fuel hf
    obtain ⟨f, rfl⟩ : ∃ f, fuel = f + 1 := ⟨fuel - 1, by omega⟩
    have hb : b < 256 := hbs b (List.mem_cons_self b bs)
    have hbs2 : ∀ x ∈ bs, x < 256 := fun x hx => hbs x (List.mem_cons_of_mem b hx)
    rw [show (b :: bs).flatMap (reprByte q) ++ q :: rest
          = reprByte q b ++ (bs.flatMap (reprByte q) ++ q :: rest) from by
        simp [List.flatMap_cons, List.append_assoc]]
    rw [unescape_reprByte q hq b hb _ f]
    rw [ih hbs2 rest f (by simpa using Nat.lt_of_succ_lt_succ hf)]
    rfl

/-- Every escape is at least one character long. -/
theorem reprByte_length_pos (q : Char) (b : Nat) : 1 ≤ (reprByte q b).length := by
  unfold reprByte
  split
  · simp
  · split
    · simp
    · split
      · simp
      · split
        · simp
        · split <;> simp

/-- The escaped body is at least as long as the bytes it encodes. -/
theorem length_le_flatMap_reprByte (q : Char) (bs : List Nat) :
    bs.length ≤ (bs.flatMap (reprByte q)).length := by
  induction bs with
  | nil => simp
  | cons x xs ih =>
    simp only [List.flatMap_cons, List.length_append, List.length_cons]
    have hx := reprByte_length_pos q x
    omega

/-- `eval` undoes `repr` on a bytes object. -/
theorem parseBytesLit_reprBytes (bs : List Nat) (hbs : ∀ b ∈ bs, b < 256) :
    parseBytesLit (reprBytes bs) = some bs := by
  have hq := quoteFor_cases bs
  have hcond : Char.ofNat 98 = Char.ofNat 98 ∧
      (quoteFor bs = Char.ofNat 39 ∨ quoteFor bs = Char.ofNat 34) := ⟨rfl, hq⟩
  have hstep : parseBytesLit (reprBytes bs)
      = if Char.ofNat 98 = Char.ofNat 98 ∧
            (quoteFor bs = Char.ofNat 39 ∨ quoteFor bs = Char.ofNat 34) then
          match unescape (quoteFor bs)
              ((bs.flatMap (reprByte (quoteFor bs)) ++ [quoteFor bs]).length + 1)
              (bs.flatMap (reprByte (quoteFor bs)) ++ [quoteFor bs]) with
          | some (r, []) => some r
          | _ => none
        else none := rfl
  rw [hstep, if_pos hcond]
  have hbody := unescape_reprBody (quoteFor bs) hq bs hbs []
      ((bs.flatMap (reprByte (quoteFor bs)) ++ [quoteFor bs]).length + 1) (by
        have h1 := length_le_flatMap_reprByte (quoteFor bs) bs
        simp only [List.length_append]
        omega)
  rw [show bs.flatMap (reprByte (quoteFor bs)) ++ [quoteFor bs]
        = bs.flatMap (reprByte (quoteFor bs)) ++ quoteFor bs :: [] from rfl]
  rw [hbody]

/-- No character emitted by the byte escaper is a newline. -/
theorem reprByte_no_newline (q : Char) (hq : q = Char.ofNat 39 ∨ q = Char.ofNat 34)
    (b : Nat) (hb : b < 256) : Char.ofNat 10 ∉ reprByte q b := by
  have hten : ∀ m, m < 256 → m ≠ 10 → Char.ofNat 10 ≠ Char.ofNat m := by
    intro m hm hne h
    exact hne (charOfNat_inj 10 m (by omega) hm h).symm
  unfold reprByte
  by_cases hA : b = q.toNat ∨ b = 92
  · rw [if_pos hA]
    have hbq : b ≠ 10 := by
      rcases hA with h | h
      · subst h
        rcases hq with h2 | h2 <;> subst h2 <;> decide
      · omega
    simp only [List.mem_cons, List.not_mem_nil, or_false]
    push_neg
    exact ⟨hten 92 (by omega) (by omega), hten b hb hbq⟩
  · rw [if_neg hA]
    by_cases hB : b = 9
    · subst hB
      rw [if_pos rfl]
      decide
    · rw [if_neg hB]
      by_cases hC : b = 10
      · subst hC
        rw [if_pos rfl]
        decide
      · rw [if_neg hC]
        by_cases hD : b = 13
        · subst hD
          rw [if_pos rfl]
          decide
        · rw [if_neg hD]
          by_cases hE : b < 32 ∨ 127 ≤ b
          · rw [if_pos hE]
            have hdig : ∀ n, n < 16 → Char.ofNat 10 ≠ hexDigit n := by decide
            simp only [List.mem_cons, List.not_mem_nil, or_false]
            push_neg
            refine ⟨hten 92 (by omega) (by omega), hten 120 (by omega) (by omega),
              hdig (b / 16) (by omega), hdig (b % 16) (by omega)⟩
          · rw [if_neg hE]
            push_neg at hE
            simp only [List.mem_cons, List.not_mem_nil, or_false]
            exact hten b hb (by omega)

/-- No character of the whole `repr` line is a newline. -/
theorem reprBytes_no_newline (bs : List Nat) (hbs : ∀ b ∈ bs, b < 256) :
    Char.ofNat 10 ∉ reprBytes bs := by
  have hq := quoteFor_cases bs
  have hqne : Char.ofNat 10 ≠ quoteFor bs := by
    rcases hq with h | h <;> rw [h] <;> decide
  unfold reprBytes
  simp only [List.mem_cons, List.mem_append, List.mem_flatMap, List.not_mem_nil, or_false]
  push_neg
  refine ⟨by decide, hqne, fun b hb => reprByte_no_newline _ hq b (hbs b hb), hqne⟩

/-- `breakLine` splits exactly at the first newline. -/
theorem breakLine_split (l r : List Char) (hl : Char.ofNat 10 ∉ l) :
    breakLine (l ++ Char.ofNat 10 :: r) = (l ++ [Char.ofNat 10], r) := by
  induction l with
  | nil => simp [breakLine]
  | cons c cs ih =>
    have hc : ¬ (c = Char.ofNat 10) := fun h => hl (by simp [h])
    have hcs : Char.ofNat 10 ∉ cs := fun h => hl (List.mem_cons_of_mem c h)
    simp only [List.cons_append, breakLine, if_neg hc, List.append_eq, ih hcs]

/-- File iteration over the written feature file yields exactly the repr
lines, each with its trailing newline. -/
theorem pyLines_write (fs : List (List Nat)) (hfs : ∀ f ∈ fs, ∀ b ∈ f, b < 256) :
    ∀ fuel, (write_features fs).length < fuel →
      pyLines fuel (write_features fs)
        = fs.map (fun f => reprBytes f ++ [Char.ofNat 10]) := by
  induction fs with
  | nil =>
    intro fuel hf
    obtain ⟨f, rfl⟩ : ∃ f, fuel = f + 1 := ⟨fuel - 1, by omega⟩
    simp [write_features, pyLines]
  | cons x xs ih =>
    intro fuel hf
    obtain ⟨f, rfl⟩ : ∃ f, fuel = f + 1 := ⟨fuel - 1, by omega⟩
    have hx : ∀ b ∈ x, b < 256 := hfs x (List.mem_cons_self x xs)
    have hxs : ∀ g ∈ xs, ∀ b ∈ g, b < 256 := fun g hg => hfs g (List.mem_cons_of_mem x hg)
    have hflat : write_features (x :: xs)
        = reprBytes x ++ Char.ofNat 10 :: write_features xs := by
      simp [write_features, List.append_assoc]
    rw [hflat]
    have hbr := breakLine_split (reprBytes x) (write_features xs) (reprBytes_no_newline x hx)
    have hcons : ∃ c cs, reprBytes x ++ Char.ofNat 10 :: write_features xs = c :: cs := by
      unfold reprBytes
      exact ⟨_, _, rfl⟩
    obtain ⟨c, cs, hcc⟩ := hcons
    rw [hcc, pyLines, ← hcc, hbr]
    simp only [List.map_cons]
    refine congrArg _ (ih hxs f ?_)
    have hlen := congrArg List.length hflat
    simp only [List.length_append, List.length_cons] at hlen hf
    omega

/-- `eval` of one written line recovers the feature. -/
theorem evalLine_reprLine (f : List Nat) (hf : ∀ b ∈ f, b < 256) :
    evalLine (reprBytes f ++ [Char.ofNat 10]) = some f := by
  unfold evalLine
  rw [List.getLast?_append]
  simp only [List.getLast?_singleton, Option.or_some, if_true]
  rw [List.dropLast_concat]
  exact parseBytesLit_reprBytes f hf

/-- C8: writing any list of byte-string features with `write_features` and
reading the file back with `read_features` returns exactly the original
features, byte for byte and in order. -/
theorem features_file_roundtrip (fs : List (List Nat))
    (hfs : ∀ f ∈ fs, ∀ b ∈ f, b < 256) :
    read_features (write_features fs) = some fs := by
  unfold read_features
  rw [pyLines_write fs hfs ((write_features fs).length + 1) (by omega)]
  induction fs with
  | nil => rfl
  | cons x xs ih =>
    have hx : ∀ b ∈ x, b < 256 := hfs x (List.mem_cons_self x xs)
    have hxs : ∀ g ∈ xs, ∀ b ∈ g, b < 256 := fun g hg => hfs g (List.mem_cons_of_mem x hg)
    simp only [List.map_cons, List.mapM_cons, evalLine_reprLine x hx, ih hxs]
    rfl

/-- Witness for C8 at a concrete feature list exercising the escapes. -/
theorem features_file_roundtrip_witness :
    (∀ f ∈ [[97, 98], [0, 39, 92, 10, 255]], ∀ b ∈ f, b < 256) ∧
    read_features (write_features [[97, 98], [0, 39, 92, 10, 255]])
      = some [[97, 98], [0, 39, 92, 10, 255]] :=
  ⟨by decide, features_file_roundtrip [[97, 98], [0, 39, 92, 10, 255]] (by decide)⟩

/-! ## Dictionary helper lemmas -/

/-- Lookup after a dict assignment. -/
theorem sdFind_dictUpd (g : StateDict) (k k2 : Nat × Nat) (v : Nat) :
    sdFind (dictUpd g k v) k2 = if k2 = k then some v else sdFind g k2 := by
  unfold sdFind dictUpd
  by_cases h : k2 = k
  · subst h
    simp [List.find?_cons]
  · rw [if_neg h]
    have : (decide ((k, v).1 = k2)) = false := by
      simp only [decide_eq_false_iff_not]
      exact fun h2 => h h2.symm
    simp [List.find?_cons, this]

/-- Reading a freshly written output entry. -/
theorem outGet_cons_self (out : OutMap) (s : Nat) (l : List (List Nat)) :
    outGet ((s, l) :: out) s = l := by
  simp [outGet, List.find?_cons]

/-- Reading across an unrelated output entry. -/
theorem outGet_cons_ne (out : OutMap) (s s2 : Nat) (l : List (List Nat)) (h : s2 ≠ s) :
    outGet ((s2, l) :: out) s = outGet out s := by
  unfold outGet
  have : (decide ((s2, l).1 = s)) = false := by
    simp only [decide_eq_false_iff_not]
    exact h
  simp [List.find?_cons, this]

/-- `set.add` makes its element a member. -/
theorem mem_outGet_outAdd_self (out : OutMap) (s : Nat) (k : List Nat) :
    k ∈ outGet (outAdd out s k) s := by
  unfold outAdd
  by_cases h : k ∈ outGet out s
  · rwa [if_pos h]
  · rw [if_neg h, outGet_cons_self]
    simp

/-- `set.add` keeps every previous member of every entry. -/
theorem outGet_outAdd_mono (out : OutMap) (s s2 : Nat) (k x : List Nat)
    (h : x ∈ outGet out s) : x ∈ outGet (outAdd out s2 k) s := by
  unfold outAdd
  by_cases h2 : k ∈ outGet out s2
  · rwa [if_pos h2]
  · rw [if_neg h2]
    by_cases h3 : s = s2
    · subst h3
      rw [outGet_cons_self]
      exact List.mem_append_left _ h
    · rwa [outGet_cons_ne _ _ _ _ (fun h4 => h3 h4.symm)]

/-! ## Walk and extension lemmas for Algorithm 2 -/

/-- A walk splits its keyword into a fully consumed prefix and the rest. -/
theorem gotoWalk_decomp (g : StateDict) :
    ∀ (a : List Nat) (s : Nat), ∃ consumed, a = consumed ++ (gotoWalk g s a).2 ∧
      gotoWalk g s consumed = ((gotoWalk g s a).1, []) := by
  intro a
  induction a with
  | nil => exact fun s => ⟨[], rfl, rfl⟩
  | cons c rest ih =>
    intro s
    cases hg : sdFind g (s, c) with
    | none =>
      refine ⟨[], ?_, ?_⟩ <;> simp [gotoWalk, hg]
    | some s2 =>
      obtain ⟨con, hEq, hW⟩ := ih s2
      refine ⟨c :: con, ?_, ?_⟩
      · simpa [gotoWalk, hg] using hEq
      · simpa [gotoWalk, hg] using hW

/-- Where the walk stops, the goto edge is absent. -/
theorem gotoWalk_stop (g : StateDict) :
    ∀ (a : List Nat) (s c : Nat) (r : List Nat),
      (gotoWalk g s a).2 = c :: r → sdFind g ((gotoWalk g s a).1, c) = none := by
  intro a
  induction a with
  | nil => intro s c r h; cases h
  | cons c0 rest ih =>
    intro s c r h
    cases hg : sdFind g (s, c0) with
    | none =>
      simp only [gotoWalk, hg] at h ⊢
      cases h
      exact hg
    | some s2 =>
      simp only [gotoWalk, hg] at h ⊢
      exact ih s2 c r h

/-- A walk from a live state ends in a live state. -/
theorem gotoWalk_state_le (g : StateDict) (ns : Nat) (hg : GotoBound g ns) :
    ∀ (a : List Nat) (s : Nat), s ≤ ns → (gotoWalk g s a).1 ≤ ns := by
  intro a
  induction a with
  | nil => intro s hs; exact hs
  | cons c rest ih =>
    intro s hs
    cases hgc : sdFind g (s, c) with
    | none => simpa [gotoWalk, hgc] using hs
    | some s2 =>
      simp only [gotoWalk, hgc]
      exact ih s2 (hg (s, c) s2 hgc).2.1

/-- A fully consuming walk is stable under adding edges. -/
theorem gotoWalk_full_mono (g g2 : StateDict)
    (hpres : ∀ k v, sdFind g k = some v → sdFind g2 k = some v) :
    ∀ (a : List Nat) (s s2 : Nat), gotoWalk g s a = (s2, []) → gotoWalk g2 s a = (s2, []) := by
  intro a
  induction a with
  | nil =>
    intro s s2 h
    simpa [gotoWalk] using h
  | cons c rest ih =>
    intro s s2 h
    cases hgc : sdFind g (s, c) with
    | none => simp [gotoWalk, hgc] at h
    | some s3 =>
      simp only [gotoWalk, hgc] at h
      rw [gotoWalk, hpres _ _ hgc]
      exact ih s3 s2 h

/-- Walking a concatenation continues from the state reached by the fully
consumed first part. -/
theorem gotoWalk_append (g : StateDict) :
    ∀ (p q : List Nat) (s s2 : Nat), gotoWalk g s p = (s2, []) →
      gotoWalk g s (p ++ q) = gotoWalk g s2 q := by
  intro p
  induction p with
  | nil =>
    intro q s s2 h
    simp only [gotoWalk] at h
    cases h
    simp
  | cons c rest ih =>
    intro q s s2 h
    cases hgc : sdFind g (s, c) with
    | none => simp [gotoWalk, hgc] at h
    | some s3 =>
      simp only [gotoWalk, hgc] at h
      simp only [List.cons_append, gotoWalk, hgc]
      exact ih q s3 s2 h

/-- The extension counter advances by the number of remaining bytes. -/
theorem gotoExtend_newstate :
    ∀ (rest : List Nat) (g : StateDict) (ns s : Nat),
      (gotoExtend g ns s rest).2.1 = ns + rest.length := by
  intro rest
  induction rest with
  | nil => intro g ns s; simp [gotoExtend]
  | cons c rest ih =>
    intro g ns s
    rw [gotoExtend, ih]
    simp only [List.length_cons]
    omega

/-- Extension preserves every existing goto binding. -/
theorem gotoExtend_preserves :
    ∀ (rest : List Nat) (g : StateDict) (ns s : Nat), s ≤ ns →
      (∀ k v, sdFind g k = some v → k.1 ≤ ns) →
      (∀ c rest2, rest = c :: rest2 → sdFind g (s, c) = none) →
      ∀ k v, sdFind g k = some v → sdFind (gotoExtend g ns s rest).1 k = some v := by
  intro rest
  induction rest with
  | nil => intro g ns s _ _ _ k v h; exact h
  | cons c rest ih =>
    intro g ns s hs hb hfresh k v h
    rw [gotoExtend]
    have hkne : k ≠ (s, c) := by
      intro hk
      rw [hk, hfresh c rest rfl] at h
      cases h
    have h1 : sdFind (dictUpd g (s, c) (ns + 1)) k = some v := by
      rw [sdFind_dictUpd, if_neg hkne]
      exact h
    refine ih (dictUpd g (s, c) (ns + 1)) (ns + 1) (ns + 1) (Nat.le_refl _) ?_ ?_ k v h1
    · intro k2 v2 h2
      rw [sdFind_dictUpd] at h2
      by_cases hk2 : k2 = (s, c)
      · rw [hk2]
        exact Nat.le_succ_of_le hs
      · rw [if_neg hk2] at h2
        exact Nat.le_succ_of_le (hb k2 v2 h2)
    · intro c2 rest2 _
      rw [sdFind_dictUpd]
      rw [if_neg (by
        intro hk
        have := congrArg Prod.fst hk
        simp only at this
        omega)]
      cases h3 : sdFind g (ns + 1, c2) with
      | none => rfl
      | some v3 =>
        have := hb _ _ h3
        simp only at this
        omega

/-- Walking the remaining suffix through the extended goto reaches the final
state of the extension, consuming everything. -/
theorem gotoExtend_walk :
    ∀ (rest : List Nat) (g : StateDict) (ns s : Nat), s ≤ ns →
      (∀ k v, sdFind g k = some v → k.1 ≤ ns) →
      gotoWalk (gotoExtend g ns s rest).1 s rest = ((gotoExtend g ns s rest).2.2, []) := by
  intro rest
  induction rest with
  | nil => intro g ns s _ _; rfl
  | cons c rest ih =>
    intro g ns s hs hb
    rw [gotoExtend]
    have hb1 : ∀ k v, sdFind (dictUpd g (s, c) (ns + 1)) k = some v → k.1 ≤ ns + 1 := by
      intro k2 v2 h2
      rw [sdFind_dictUpd] at h2
      by_cases hk2 : k2 = (s, c)
      · rw [hk2]; exact Nat.le_succ_of_le hs
      · rw [if_neg hk2] at h2
        exact Nat.le_succ_of_le (hb k2 v2 h2)
    have hfresh1 : ∀ c2 rest2, rest = c2 :: rest2 →
        sdFind (dictUpd g (s, c) (ns + 1)) (ns + 1, c2) = none := by
      intro c2 rest2 _
      rw [sdFind_dictUpd]
      rw [if_neg (by
        intro hk
        have := congrArg Prod.fst hk
        simp only at this
        omega)]
      cases h3 : sdFind g (ns + 1, c2) with
      | none => rfl
      | some v3 =>
        have := hb _ _ h3
        simp only at this
        omega
    have hedge : sdFind (gotoExtend (dictUpd g (s, c) (ns + 1)) (ns + 1) (ns + 1) rest).1
        (s, c) = some (ns + 1) := by
      refine gotoExtend_preserves rest _ (ns + 1) (ns + 1) (Nat.le_refl _) hb1 hfresh1
        (s, c) (ns + 1) ?_
      rw [sdFind_dictUpd, if_pos rfl]
    rw [gotoWalk, hedge]
    exact ih (dictUpd g (s, c) (ns + 1)) (ns + 1) (ns + 1) (Nat.le_refl _) hb1

/-- Extension keeps the goto well shaped for the advanced counter. -/
theorem gotoExtend_bound :
    ∀ (rest : List Nat) (g : StateDict) (ns s : Nat), s ≤ ns → GotoBound g ns →
      GotoBound (gotoExtend g ns s rest).1 (ns + rest.length) := by
  intro rest
  induction rest with
  | nil =>
    intro g ns s _ hb
    simpa [gotoExtend] using hb
  | cons c rest ih =>
    intro g ns s hs hb
    rw [gotoExtend]
    have hb1 : GotoBound (dictUpd g (s, c) (ns + 1)) (ns + 1) := by
      intro k v h
      rw [sdFind_dictUpd] at h
      by_cases hk : k = (s, c)
      · rw [if_pos hk] at h
        cases h
        rw [hk]
        exact ⟨Nat.le_succ_of_le hs, Nat.le_refl _, by omega, by omega⟩
      · rw [if_neg hk] at h
        obtain ⟨h1, h2, h3, h4⟩ := hb k v h
        exact ⟨Nat.le_succ_of_le h1, Nat.le_succ_of_le h2, h3, h4⟩
    have := ih (dictUpd g (s, c) (ns + 1)) (ns + 1) (ns + 1) (Nat.le_refl _) hb1
    simp only [List.length_cons]
    have harith : ns + 1 + rest.length = ns + (rest.length + 1) := by omega
    rwa [harith] at this

/-! ## C10 : duplicate keywords -/

/-- Entering a keyword preserves every existing goto binding. -/
theorem enterKeyword_goto_preserves (t : Trie) (a : List Nat) (hb : TrieBound t) :
    ∀ k v, sdFind t.goto k = some v → sdFind (enterKeyword t a).goto k = some v := by
  intro k v h
  have hws1 : (gotoWalk t.goto 0 a).1 ≤ t.newstate :=
    gotoWalk_state_le t.goto t.newstate hb a 0 (Nat.zero_le _)
  exact gotoExtend_preserves (gotoWalk t.goto 0 a).2 t.goto t.newstate
    (gotoWalk t.goto 0 a).1 hws1 (fun k2 v2 h2 => (hb k2 v2 h2).1)
    (fun c rest2 hr => gotoWalk_stop t.goto a 0 c rest2 hr) k v h

/-- Entering a keyword makes the trie contain it. -/
theorem containsKw_enterKeyword (t : Trie) (a : List Nat) (hb : TrieBound t) :
    containsKw (enterKeyword t a) a := by
  have hws1 : (gotoWalk t.goto 0 a).1 ≤ t.newstate :=
    gotoWalk_state_le t.goto t.newstate hb a 0 (Nat.zero_le _)
  obtain ⟨con, hEq, hW⟩ := gotoWalk_decomp t.goto a 0
  have hWcon : gotoWalk (enterKeyword t a).goto 0 con = ((gotoWalk t.goto 0 a).1, []) :=
    gotoWalk_full_mono t.goto (enterKeyword t a).goto
      (enterKeyword_goto_preserves t a hb) con 0 (gotoWalk t.goto 0 a).1 hW
  have hWrest : gotoWalk (enterKeyword t a).goto (gotoWalk t.goto 0 a).1
      (gotoWalk t.goto 0 a).2
        = ((gotoExtend t.goto t.newstate (gotoWalk t.goto 0 a).1 (gotoWalk t.goto 0 a).2).2.2,
           []) :=
    gotoExtend_walk (gotoWalk t.goto 0 a).2 t.goto t.newstate (gotoWalk t.goto 0 a).1 hws1
      (fun k2 v2 h2 => (hb k2 v2 h2).1)
  have hWa : gotoWalk (enterKeyword t a).goto 0 a
      = ((gotoExtend t.goto t.newstate (gotoWalk t.goto 0 a).1 (gotoWalk t.goto 0 a).2).2.2,
         []) := by
    have h5 : gotoWalk (enterKeyword t a).goto 0 a
        = gotoWalk (enterKeyword t a).goto 0 (con ++ (gotoWalk t.goto 0 a).2) :=
      congrArg (gotoWalk (enterKeyword t a).goto 0) hEq
    rw [h5, gotoWalk_append (enterKeyword t a).goto con _ 0 (gotoWalk t.goto 0 a).1 hWcon]
    exact hWrest
  constructor
  · rw [hWa]
  · rw [hWa]
    exact mem_outGet_outAdd_self t.output _ a

/-- Containment is preserved when further keywords are entered. -/
theorem containsKw_mono (t : Trie) (a k : List Nat) (hb : TrieBound t)
    (h : containsKw t k) : containsKw (enterKeyword t a) k := by
  obtain ⟨h2, hmem⟩ := h
  have hW : gotoWalk t.goto 0 k = ((gotoWalk t.goto 0 k).1, []) := by
    rw [← h2]
  have hW2 : gotoWalk (enterKeyword t a).goto 0 k = ((gotoWalk t.goto 0 k).1, []) :=
    gotoWalk_full_mono t.goto (enterKeyword t a).goto
      (enterKeyword_goto_preserves t a hb) k 0 (gotoWalk t.goto 0 k).1 hW
  constructor
  · rw [hW2]
  · rw [hW2]
    exact outGet_outAdd_mono t.output _ _ _ k hmem

/-- Entering a keyword keeps the trie well shaped. -/
theorem TrieBound_enterKeyword (t : Trie) (a : List Nat) (hb : TrieBound t) :
    TrieBound (enterKeyword t a) := by
  have hws1 : (gotoWalk t.goto 0 a).1 ≤ t.newstate :=
    gotoWalk_state_le t.goto t.newstate hb a 0 (Nat.zero_le _)
  have hbe := gotoExtend_bound (gotoWalk t.goto 0 a).2 t.goto t.newstate
    (gotoWalk t.goto 0 a).1 hws1 hb
  have hns : (enterKeyword t a).newstate
      = t.newstate + (gotoWalk t.goto 0 a).2.length := by
    show (gotoExtend t.goto t.newstate (gotoWalk t.goto 0 a).1 (gotoWalk t.goto 0 a).2).2.1
      = _
    exact gotoExtend_newstate _ _ _ _
  rw [TrieBound, hns]
  exact hbe

/-- Entering an already contained keyword changes nothing at all. -/
theorem enterKeyword_of_contains (t : Trie) (k : List Nat) (h : containsKw t k) :
    enterKeyword t k = t := by
  obtain ⟨h2, hmem⟩ := h
  show Trie.mk
      (gotoExtend t.goto t.newstate (gotoWalk t.goto 0 k).1 (gotoWalk t.goto 0 k).2).1
      (outAdd t.output
        (gotoExtend t.goto t.newstate (gotoWalk t.goto 0 k).1 (gotoWalk t.goto 0 k).2).2.2 k)
      (gotoExtend t.goto t.newstate (gotoWalk t.goto 0 k).1 (gotoWalk t.goto 0 k).2).2.1
      = t
  rw [h2]
  show Trie.mk t.goto (outAdd t.output (gotoWalk t.goto 0 k).1 k) t.newstate = t
  unfold outAdd
  rw [if_pos hmem]

/-- The initial trie is well shaped. -/
theorem TrieBound_empty : TrieBound ⟨[], [], 0⟩ := by
  intro k v h
  cases h

/-- Folding keywords keeps the trie well shaped. -/
theorem TrieBound_foldl (K : List (List Nat)) :
    ∀ (t : Trie), TrieBound t → TrieBound (K.foldl enterKeyword t) := by
  induction K with
  | nil => exact fun t h => h
  | cons k rest ih =>
    intro t h
    exact ih (enterKeyword t k) (TrieBound_enterKeyword t k h)

/-- Containment survives folding further keywords. -/
theorem containsKw_foldl (K : List (List Nat)) :
    ∀ (t : Trie) (k : List Nat), TrieBound t → containsKw t k →
      containsKw (K.foldl enterKeyword t) k := by
  induction K with
  | nil => exact fun t k _ h => h
  | cons a rest ih =>
    intro t k hb h
    exact ih (enterKeyword t a) k (TrieBound_enterKeyword t a hb) (containsKw_mono t a k hb h)

/-- Dropping the later copies of an already contained keyword does not change
the fold. -/
theorem foldl_filter_contained (rest : List (List Nat)) :
    ∀ (t : Trie) (k : List Nat), TrieBound t → containsKw t k →
      rest.foldl enterKeyword t
        = (rest.filter (fun x => decide (x ≠ k))).foldl enterKeyword t := by
  induction rest with
  | nil => intro t k _ _; rfl
  | cons x rest ih =>
    intro t k hb h
    by_cases hx : x = k
    · subst hx
      rw [List.filter_cons]
      rw [if_neg (by simp)]
      simp only [List.foldl_cons]
      rw [enterKeyword_of_contains t x h]
      exact ih t x hb h
    · rw [List.filter_cons]
      rw [if_pos (by simpa using hx)]
      simp only [List.foldl_cons]
      exact ih (enterKeyword t x) k (TrieBound_enterKeyword t x hb)
        (containsKw_mono t x k hb h)

/-- Folding a keyword list equals folding its duplicate-free version. -/
theorem foldl_dedupKeepFirst (n : Nat) :
    ∀ (K : List (List Nat)), K.length ≤ n → ∀ (t : Trie), TrieBound t →
      K.foldl enterKeyword t = (dedupKeepFirst K).foldl enterKeyword t := by
  induction n with
  | zero =>
    intro K hK t _
    match K, hK with
    | [], _ => rw [dedupKeepFirst]
  | succ n ih =>
    intro K hK t hb
    match K with
    | [] => rw [dedupKeepFirst]
    | k :: rest =>
      rw [dedupKeepFirst]
      simp only [List.foldl_cons]
      have hb2 := TrieBound_enterKeyword t k hb
      have hcon := containsKw_enterKeyword t k hb
      rw [foldl_filter_contained rest (enterKeyword t k) k hb2 hcon]
      refine ih (rest.filter (fun x => decide (x ≠ k))) ?_ (enterKeyword t k) hb2
      have := List.length_filter_le (fun x => decide (x ≠ k)) rest
      simp only [List.length_cons] at hK
      omega

/-- Every keyword of the list is contained in the folded trie. -/
theorem containsKw_mem_foldl (K : List (List Nat)) :
    ∀ (t : Trie), TrieBound t → ∀ k, k ∈ K → containsKw (K.foldl enterKeyword t) k := by
  induction K with
  | nil => intro t _ k hk; cases hk
  | cons x rest ih =>
    intro t hb k hk
    simp only [List.foldl_cons]
    rcases List.mem_cons.mp hk with h | h
    · subst h
      exact containsKw_foldl rest (enterKeyword t k) k
        (TrieBound_enterKeyword t k hb) (containsKw_enterKeyword t k hb)
    · exact ih (enterKeyword t x) (TrieBound_enterKeyword t x hb) k h

/-- C10: building the scanner over a keyword list with duplicates yields
exactly the same trie (goto edges, output sets, newstate counter), the same
compiled scanner (next-move table, nm_arr) and hence identical search
behaviour as building over the list with duplicates removed keeping first
occurrences; and adding an already present keyword is a complete no-op, in
particular it creates no new states. -/
theorem build_duplicate_keywords (K : List (List Nat)) :
    trieOf K = trieOf (dedupKeepFirst K) ∧
    Scanner.build K = Scanner.build (dedupKeepFirst K) ∧
    (∀ B, (Scanner.build K).search B = (Scanner.build (dedupKeepFirst K)).search B) ∧
    (∀ k, k ∈ K → enterKeyword (trieOf K) k = trieOf K) := by
  have htrie : trieOf K = trieOf (dedupKeepFirst K) :=
    foldl_dedupKeepFirst K.length K (Nat.le_refl _) ⟨[], [], 0⟩ TrieBound_empty
  have hbuild : Scanner.build K = Scanner.build (dedupKeepFirst K) := by
    unfold Scanner.build
    rw [htrie]
  refine ⟨htrie, hbuild, fun B => by rw [hbuild], fun k hk => ?_⟩
  exact enterKeyword_of_contains _ k (containsKw_mem_foldl K ⟨[], [], 0⟩ TrieBound_empty k hk)

/-- Witness for C10 at a concrete duplicated keyword list. -/
theorem build_duplicate_keywords_witness :
    trieOf [[97], [97]] = trieOf (dedupKeepFirst [[97], [97]]) ∧
    enterKeyword (trieOf [[97], [97]]) [97] = trieOf [[97], [97]] :=
  ⟨(build_duplicate_keywords [[97], [97]]).1,
   (build_duplicate_keywords [[97], [97]]).2.2.2 [97] (by decide)⟩

/-! ## C4 : prune_min_domain -/

/-- A bump never decreases a count. -/
theorem bump_mono (m : String → Nat) (l x : String) : m x ≤ bump m l x := by
  unfold bump
  by_cases h : x = l
  · subst h; simp
  · rw [if_neg h]

/-- Folding bumps never decreases a count. -/
theorem foldl_bump_mono (ls : List String) :
    ∀ (m : String → Nat) (x : String), m x ≤ (ls.foldl bump m) x := by
  induction ls with
  | nil => intro m x; exact Nat.le_refl _
  | cons a ls ih =>
    intro m x
    exact Nat.le_trans (bump_mono m a x) (ih (bump m a) x)

/-- Folding the bumps of a set containing `l` increments its count. -/
theorem foldl_bump_mem (ls : List String) :
    ∀ (m : String → Nat) (l : String), l ∈ ls → m l + 1 ≤ (ls.foldl bump m) l := by
  induction ls with
  | nil => intro m l h; cases h
  | cons a ls ih =>
    intro m l h
    rcases List.mem_cons.mp h with h | h
    · subst h
      refine Nat.le_trans ?_ (foldl_bump_mono ls (bump m l) l)
      unfold bump
      rw [if_pos rfl]
    · refine Nat.le_trans ?_ (ih (bump m a) l h)
      have := bump_mono m a l
      omega

/-- The outer fold of `lang_domain_count` never decreases a count. -/
theorem ldc_foldl_mono (cov : List (String × List String)) :
    ∀ (m : String → Nat) (x : String),
      m x ≤ (cov.foldl (fun m e => e.2.foldl bump m) m) x := by
  induction cov with
  | nil => intro m x; exact Nat.le_refl _
  | cons dls cov ih =>
    intro m x
    exact Nat.le_trans (foldl_bump_mono dls.2 m x) (ih _ x)

/-- Bump folds are pointwise monotone in the starting map. -/
theorem foldl_bump_mono2 (ls : List String) :
    ∀ (m1 m2 : String → Nat), (∀ x, m1 x ≤ m2 x) →
      ∀ x, (ls.foldl bump m1) x ≤ (ls.foldl bump m2) x := by
  induction ls with
  | nil => intro m1 m2 h x; exact h x
  | cons a ls ih =>
    intro m1 m2 h x
    refine ih (bump m1 a) (bump m2 a) ?_ x
    intro y
    unfold bump
    by_cases hy : y = a
    · subst hy
      simp only [if_pos rfl]
      exact Nat.succ_le_succ (h y)
    · rw [if_neg hy, if_neg hy]
      exact h y

/-- The outer fold of `lang_domain_count` is pointwise monotone in the
starting map. -/
theorem ldc_foldl_mono2 (cov : List (String × List String)) :
    ∀ (m1 m2 : String → Nat), (∀ x, m1 x ≤ m2 x) →
      ∀ x, (cov.foldl (fun m e => e.2.foldl bump m) m1) x
        ≤ (cov.foldl (fun m e => e.2.foldl bump m) m2) x := by
  induction cov with
  | nil => intro m1 m2 h x; exact h x
  | cons dls cov ih =>
    intro m1 m2 h x
    exact ih _ _ (foldl_bump_mono2 dls.2 m1 m2 h) x

/-- A language covered by some domain has a positive domain count. -/
theorem ldc_pos_of_mem (cov : List (String × List String)) (l : String)
    (h : ∃ dls ∈ cov, l ∈ dls.2) : 1 ≤ langDomainCount cov l := by
  obtain ⟨dls, hmem, hl⟩ := h
  unfold langDomainCount
  induction cov with
  | nil => cases hmem
  | cons d0 cov ih =>
    rcases List.mem_cons.mp hmem with h | h
    · subst h
      simp only [List.foldl_cons]
      refine Nat.le_trans ?_ (ldc_foldl_mono cov _ l)
      have := foldl_bump_mem dls.2 (fun _ => 0) l hl
      omega
    · simp only [List.foldl_cons]
      refine Nat.le_trans (ih h) ?_
      exact ldc_foldl_mono2 cov (fun _ => 0) (List.foldl bump (fun _ => 0) d0.2)
        (fun x => foldl_bump_mono d0.2 (fun _ => 0) x) l

/-- Membership in the flattened coverage languages. -/
theorem covLangs_iff (cov : List (String × List String)) (l : String) :
    l ∈ covLangs cov ↔ ∃ dls ∈ cov, l ∈ dls.2 := by
  unfold covLangs
  have hgen : ∀ (acc : List String),
      l ∈ cov.foldl (fun acc e => acc ++ e.2) acc ↔ l ∈ acc ∨ ∃ dls ∈ cov, l ∈ dls.2 := by
    induction cov with
    | nil => intro acc; simp
    | cons d0 cov ih =>
      intro acc
      rw [List.foldl_cons, ih]
      simp only [List.mem_append, List.mem_cons]
      constructor
      · rintro (⟨h | h⟩ | ⟨dls, hd, hl⟩)
        · exact Or.inl h
        · exact Or.inr ⟨d0, Or.inl rfl, h⟩
        · exact Or.inr ⟨dls, Or.inr hd, hl⟩
      · rintro (h | ⟨dls, hd | hd, hl⟩)
        · exact Or.inl (Or.inl h)
        · subst hd; exact Or.inl (Or.inr hl)
        · exact Or.inr ⟨dls, hd, hl⟩
  rw [hgen []]
  simp

/-- The added relation lies in the updated coverage index. -/
theorem covAdd_self (cov : List (String × List String)) (d l : String) :
    ∃ dls ∈ covAdd cov d l, l ∈ dls.2 := by
  induction cov with
  | nil => exact ⟨(d, [l]), by simp [covAdd]⟩
  | cons d0 cov ih =>
    unfold covAdd
    by_cases hd : d0.1 = d
    · rw [if_pos hd]
      by_cases hl : l ∈ d0.2
      · exact ⟨(d0.1, d0.2), by simp [if_pos hl], by simpa [if_pos hl] using hl⟩
      · exact ⟨(d0.1, d0.2 ++ [l]), by simp [if_neg hl], by simp [if_neg hl]⟩
    · rw [if_neg hd]
      obtain ⟨dls, hmem, hl⟩ := ih
      exact ⟨dls, List.mem_cons_of_mem _ hmem, hl⟩

/-- Coverage membership is preserved by adding a relation. -/
theorem covAdd_mono (cov : List (String × List String)) (d l l2 : String)
    (h : ∃ dls ∈ cov, l2 ∈ dls.2) : ∃ dls ∈ covAdd cov d l, l2 ∈ dls.2 := by
  obtain ⟨dls, hmem, hl2⟩ := h
  induction cov with
  | nil => cases hmem
  | cons d0 cov ih =>
    unfold covAdd
    rcases List.mem_cons.mp hmem with h | h
    · subst h
      by_cases hd : dls.1 = d
      · rw [if_pos hd]
        by_cases hl : l ∈ dls.2
        · exact ⟨(dls.1, dls.2), by simp [if_pos hl], by simpa [if_pos hl] using hl2⟩
        · exact ⟨(dls.1, dls.2 ++ [l]), by simp [if_neg hl],
            by simp [if_neg hl]; exact Or.inl hl2⟩
      · rw [if_neg hd]
        exact ⟨dls, List.mem_cons_self _ _, hl2⟩
    · by_cases hd : d0.1 = d
      · rw [if_pos hd]
        exact ⟨dls, List.mem_cons_of_mem _ h, hl2⟩
      · rw [if_neg hd]
        obtain ⟨dls2, hmem2, hl22⟩ := ih h
        exact ⟨dls2, List.mem_cons_of_mem _ hmem2, hl22⟩

/-- Every language covered after an addition was covered before or is the
added one. -/
theorem covAdd_members (cov : List (String × List String)) (d l : String) :
    ∀ dls ∈ covAdd cov d l, ∀ l2 ∈ dls.2, l2 = l ∨ ∃ dls0 ∈ cov, l2 ∈ dls0.2 := by
  induction cov with
  | nil =>
    intro dls hmem l2 hl2
    simp only [covAdd, List.mem_singleton] at hmem
    subst hmem
    simp only [List.mem_singleton] at hl2
    exact Or.inl hl2
  | cons d0 cov ih =>
    intro dls hmem l2 hl2
    unfold covAdd at hmem
    by_cases hd : d0.1 = d
    · rw [if_pos hd] at hmem
      rcases List.mem_cons.mp hmem with h | h
      · subst h
        by_cases hl : l ∈ d0.2
        · rw [if_pos hl] at hl2
          exact Or.inr ⟨d0, List.mem_cons_self _ _, hl2⟩
        · rw [if_neg hl] at hl2
          rcases List.mem_append.mp hl2 with h2 | h2
          · exact Or.inr ⟨d0, List.mem_cons_self _ _, h2⟩
          · simp only [List.mem_singleton] at h2
            exact Or.inl h2
      · exact Or.inr ⟨dls, List.mem_cons_of_mem _ h, hl2⟩
    · rw [if_neg hd] at hmem
      rcases List.mem_cons.mp hmem with h | h
      · subst h
        exact Or.inr ⟨d0, List.mem_cons_self _ _, hl2⟩
      · rcases ih dls h l2 hl2 with h2 | ⟨dls0, h3, h4⟩
        · exact Or.inl h2
        · exact Or.inr ⟨dls0, List.mem_cons_of_mem _ h3, h4⟩

/-- Characterization of `reject_langs` membership. -/
theorem rejectLangs_mem (cov : List (String × List String)) (mind : Nat) (l : String) :
    l ∈ rejectLangs cov mind ↔ (∃ dls ∈ cov, l ∈ dls.2) ∧ langDomainCount cov l < mind := by
  unfold rejectLangs
  rw [List.mem_filter]
  rw [covLangs_iff]
  simp

/-- Looking up a key of a key-unique association list. -/
theorem langIdOfD_of_mem (es : List (String × Nat)) (l : String) (v : Nat)
    (hnd : (es.map (fun e => e.1)).Nodup) (hmem : (l, v) ∈ es) :
    langIdOfD es l = v := by
  induction es with
  | nil => cases hmem
  | cons e0 es ih =>
    simp only [List.map_cons, List.nodup_cons] at hnd
    rcases List.mem_cons.mp hmem with h | h
    · subst h
      unfold langIdOfD
      simp [List.find?_cons]
    · have hne : e0.1 ≠ l := by
        intro hx
        exact hnd.1 (by rw [hx]; exact List.mem_map_of_mem (fun e => e.1) h)
      unfold langIdOfD at ih ⊢
      rw [List.find?_cons]
      rw [show (decide (e0.1 = l)) = false from by simpa using hne]
      have := ih hnd.2 h
      simp only [List.length_cons]
      -- the default of getD is never used since find? succeeds
      cases hf : List.find? (fun e => decide (e.1 = l)) es with
      | none =>
        rw [hf] at this
        simp only [Option.map_none, Option.getD] at this
        exfalso
        have : ∀ x ∈ es, ¬ (decide (x.1 = l) = true) := fun x hx => by
          have := List.find?_eq_none.mp hf x hx
          simpa using this
        have h2 := this (l, v) h
        simp at h2
      | some e =>
        rw [hf] at this
        simpa using this

/-- Entries with equal ids are equal when the ids are unique. -/
theorem eq_of_id_eq (es : List (String × Nat)) (hnd : (es.map (fun e => e.2)).Nodup) :
    ∀ a ∈ es, ∀ b ∈ es, a.2 = b.2 → a = b := by
  induction es with
  | nil => intro a ha; cases ha
  | cons e0 es ih =>
    simp only [List.map_cons, List.nodup_cons] at hnd
    intro a ha b hb hab
    rcases List.mem_cons.mp ha with h1 | h1 <;> rcases List.mem_cons.mp hb with h2 | h2
    · rw [h1, h2]
    · subst h1
      exact absurd (by rw [hab]; exact List.mem_map_of_mem (fun e => e.2) h2) hnd.1
    · subst h2
      exact absurd (by rw [← hab]; exact List.mem_map_of_mem (fun e => e.2) h1) hnd.1
    · exact ih hnd.2 a h1 b h2 hab

/-- For an indexed entry, rejection of its id is exactly a low domain count. -/
theorem rejIds_mem_iff (es : List (String × Nat)) (cov : List (String × List String))
    (mind : Nat) (hinv : IndexInv es cov) :
    ∀ e ∈ es, (e.2 ∈ (rejectLangs cov mind).map (langIdOfD es)
      ↔ langDomainCount cov e.1 < mind) := by
  obtain ⟨hnd, hids, hcov, hcov2⟩ := hinv
  have hndids : (es.map (fun e => e.2)).Nodup := by
    rw [hids]
    exact List.nodup_range _
  intro e he
  constructor
  · intro h
    obtain ⟨l2, hl2, hid⟩ := List.mem_map.mp h
    obtain ⟨⟨dls, hdls, hl2c⟩, hcount⟩ := (rejectLangs_mem cov mind l2).mp hl2
    obtain ⟨v2, hv2⟩ := hcov2 dls hdls l2 hl2c
    have hl2id : langIdOfD es l2 = v2 := langIdOfD_of_mem es l2 v2 hnd hv2
    rw [hl2id] at hid
    have : (l2, v2) = e := eq_of_id_eq es hndids (l2, v2) hv2 e he (by rw [hid])
    have hl2e : l2 = e.1 := by rw [← this]
    rwa [hl2e] at hcount
  · intro h
    have hl : e.1 ∈ rejectLangs cov mind :=
      (rejectLangs_mem cov mind e.1).mpr ⟨hcov e he, h⟩
    have : langIdOfD es e.1 = e.2 := langIdOfD_of_mem es e.1 e.2 hnd (by
      have : (e.1, e.2) = e := rfl
      rwa [this])
    rw [← this]
    exact List.mem_map_of_mem (langIdOfD es) hl

/-- The renumbering fold computes the two specification lists. -/
theorem renumber_go_spec (rejIds : List Nat) :
    ∀ (es : List (String × Nat)) (n1 : List (String × Nat)) (lm : List (Nat × Nat)),
      es.foldl
        (fun acc e =>
          if e.2 ∈ rejIds then acc
          else (acc.1 ++ [(e.1, acc.1.length)], acc.2 ++ [(e.2, acc.1.length)]))
        (n1, lm)
      = (n1 ++ renumberSpec rejIds es n1.length, lm ++ lmSpec rejIds es n1.length) := by
  intro es
  induction es with
  | nil => intro n1 lm; simp [renumberSpec, lmSpec]
  | cons e es ih =>
    intro n1 lm
    simp only [List.foldl_cons]
    by_cases hrej : e.2 ∈ rejIds
    · rw [if_pos hrej, ih, renumberSpec, lmSpec, if_pos hrej, if_pos hrej]
    · rw [if_neg hrej, ih, renumberSpec, lmSpec, if_neg hrej, if_neg hrej]
      simp only [List.length_append, List.length_singleton, List.append_assoc,
        List.singleton_append]

/-- `renumber` computes its specification. -/
theorem renumber_eq_spec (es : List (String × Nat)) (rejIds : List Nat) :
    renumber es rejIds = (renumberSpec rejIds es 0, lmSpec rejIds es 0) := by
  unfold renumber
  have := renumber_go_spec rejIds es [] []
  simpa using this

/-- The keys of the surviving entries. -/
theorem renumberSpec_map_fst (rejIds : List Nat) :
    ∀ (es : List (String × Nat)) (k : Nat),
      (renumberSpec rejIds es k).map (fun e => e.1)
        = (es.filter (fun e => decide (e.2 ∉ rejIds))).map (fun e => e.1) := by
  intro es
  induction es with
  | nil => intro k; rfl
  | cons e es ih =>
    intro k
    rw [renumberSpec, List.filter_cons]
    by_cases hrej : e.2 ∈ rejIds
    · rw [if_pos hrej, if_neg (by simpa using hrej)]
      exact ih k
    · rw [if_neg hrej, if_pos (by simpa using hrej)]
      simp only [List.map_cons]
      rw [ih (k + 1)]

/-- The new ids are consecutive from the start value. -/
theorem renumberSpec_map_snd (rejIds : List Nat) :
    ∀ (es : List (String × Nat)) (k : Nat),
      (renumberSpec rejIds es k).map (fun e => e.2)
        = List.range' k ((es.filter (fun e => decide (e.2 ∉ rejIds))).length) := by
  intro es
  induction es with
  | nil => intro k; rfl
  | cons e es ih =>
    intro k
    rw [renumberSpec, List.filter_cons]
    by_cases hrej : e.2 ∈ rejIds
    · rw [if_pos hrej, if_neg (by simpa using hrej)]
      exact ih k
    · rw [if_neg hrej, if_pos (by simpa using hrej)]
      simp only [List.map_cons, List.length_cons]
      rw [ih (k + 1), List.range'_succ]

/-- The keys of the old-to-new map are old ids. -/
theorem lmSpec_keys (rejIds : List Nat) :
    ∀ (es : List (String × Nat)) (k : Nat) (x : Nat × Nat),
      x ∈ lmSpec rejIds es k → x.1 ∈ es.map (fun e => e.2) := by
  intro es
  induction es with
  | nil => intro k x h; cases h
  | cons e es ih =>
    intro k x h
    rw [lmSpec] at h
    by_cases hrej : e.2 ∈ rejIds
    · rw [if_pos hrej] at h
      exact List.mem_cons_of_mem _ (ih k x h)
    · rw [if_neg hrej] at h
      rcases List.mem_cons.mp h with h2 | h2
      · rw [h2]
        exact List.mem_cons_self _ _
      · exact List.mem_cons_of_mem _ (ih (k + 1) x h2)

/-- An id absent from the keys is not mapped. -/
theorem lmGet_none_of_not_mem (lm : List (Nat × Nat)) (v : Nat)
    (h : ∀ x ∈ lm, x.1 ≠ v) : lmGet lm v = none := by
  unfold lmGet
  rw [List.find?_eq_none.mpr (fun x hx => by simpa using h x hx)]
  rfl

/-- Looking up an old id in the specification map: rejected ids are unmapped,
surviving ids map to their dense position among the survivors. -/
theorem lmGet_lmSpec (rejIds : List Nat) :
    ∀ (es : List (String × Nat)) (i k j : Nat),
      es.map (fun e => e.2) = List.range' i es.length →
      lmGet (lmSpec rejIds es k) (i + j)
        = match es.get? j with
          | none => none
          | some e =>
            if e.2 ∈ rejIds then none
            else some (k + ((es.take j).filter (fun e2 => decide (e2.2 ∉ rejIds))).length) := by
  intro es
  induction es with
  | nil =>
    intro i k j _
    simp [lmSpec, lmGet]
  | cons e es ih =>
    intro i k j hids
    simp only [List.map_cons, List.length_cons, List.range'_succ] at hids
    have he2 : e.2 = i := (List.cons_eq_cons.mp hids).1
    have hes : es.map (fun e => e.2) = List.range' (i + 1) es.length :=
      (List.cons_eq_cons.mp hids).2
    rw [lmSpec]
    by_cases hrej : e.2 ∈ rejIds
    · rw [if_pos hrej]
      cases j with
      | zero =>
        simp only [List.get?_eq_getElem?, List.getElem?_cons_zero, if_pos hrej]
        refine lmGet_none_of_not_mem _ _ ?_
        intro x hx
        have := lmSpec_keys rejIds es k x hx
        rw [hes] at this
        have := List.mem_range'_1.mp this
        omega
      | succ j2 =>
        have harith : i + (j2 + 1) = (i + 1) + j2 := by omega
        rw [harith, ih (i + 1) k j2 hes]
        simp only [List.get?_eq_getElem?, List.getElem?_cons_succ, List.take_succ_cons,
          List.filter_cons]
        rw [if_neg (show ¬ (decide (e.2 ∉ rejIds) = true) from by simpa using hrej)]
    · rw [if_neg hrej]
      cases j with
      | zero =>
        simp only [List.get?_eq_getElem?, List.getElem?_cons_zero, if_neg hrej]
        unfold lmGet
        rw [List.find?_cons]
        rw [show (decide ((e.2, k).1 = i + 0)) = true from by
          simp only [decide_eq_true_iff]
          omega]
        simp
      | succ j2 =>
        unfold lmGet
        rw [List.find?_cons]
        rw [show (decide ((e.2, k).1 = i + (j2 + 1))) = false from by
          simp only [decide_eq_false_iff_not]
          omega]
        have harith : i + (j2 + 1) = (i + 1) + j2 := by omega
        have := ih (i + 1) (k + 1) j2 hes
        unfold lmGet at this
        rw [harith, this]
        simp only [List.get?_eq_getElem?, List.getElem?_cons_succ, List.take_succ_cons,
          List.filter_cons]
        cases hg : es[j2]? with
        | none => rfl
        | some e2 =>
          by_cases hrej2 : e2.2 ∈ rejIds
          · simp [hrej2]
          · have hkeep : (decide (e.2 ∉ rejIds)) = true := by simpa using hrej
            simp only [if_neg hrej2, hkeep, if_true, List.length_cons, Option.some.injEq]
            omega

/-- The effect of a defaultdict access on the entry list. -/
theorem ddGet_spec (es : List (String × Nat)) (k : String)
    (h0 : (es.map (fun e => e.1)).Nodup)
    (h1 : es.map (fun e => e.2) = List.range es.length) :
    ((ddGet es k).2.map (fun e => e.1)).Nodup ∧
    (ddGet es k).2.map (fun e => e.2) = List.range (ddGet es k).2.length ∧
    (∀ e ∈ es, e ∈ (ddGet es k).2) ∧
    ((k, (ddGet es k).1) ∈ (ddGet es k).2) ∧
    (∀ e ∈ (ddGet es k).2, e ∈ es ∨ e = (k, es.length)) ∧
    (ddGet es k).1 < (ddGet es k).2.length ∧
    es.length ≤ (ddGet es k).2.length := by
  unfold ddGet
  cases hf : es.find? (fun e => decide (e.1 = k)) with
  | some e =>
    have hmem := List.mem_of_find?_eq_some hf
    have hkey : e.1 = k := by
      have := List.find?_some hf
      simpa using this
    have hlt : e.2 < es.length := by
      have : e.2 ∈ es.map (fun e => e.2) := List.mem_map_of_mem _ hmem
      rw [h1] at this
      exact List.mem_range.mp this
    refine ⟨h0, h1, fun e2 h2 => h2, ?_, fun e2 h2 => Or.inl h2, hlt, Nat.le_refl _⟩
    have : (k, e.2) = e := by
      rw [← hkey]
    rw [this]
    exact hmem
  | none =>
    have hnotk : k ∉ es.map (fun e => e.1) := by
      intro hk
      obtain ⟨e, he, hke⟩ := List.mem_map.mp hk
      have := List.find?_eq_none.mp hf e he
      simp [hke] at this
    constructor
    · rw [List.map_append]
      rw [List.nodup_append]
      exact ⟨h0, List.nodup_singleton _, by
        intro x hx hx2
        simp only [List.map_cons, List.map_nil, List.mem_singleton] at hx2
        subst hx2
        exact hnotk hx⟩
    refine ⟨?_, fun e2 h2 => List.mem_append_left _ h2, ?_, ?_, ?_, ?_⟩
    · rw [List.map_append, List.length_append]
      simp only [List.map_cons, List.map_nil, List.length_singleton]
      rw [h1, List.range_succ]
    · exact List.mem_append_right _ (List.mem_singleton.mpr rfl)
    · intro e2 h2
      rcases List.mem_append.mp h2 with h3 | h3
      · exact Or.inl h3
      · exact Or.inr (List.mem_singleton.mp h3)
    · simp only [List.length_append, List.length_singleton]
      omega
    · simp only [List.length_append, List.length_singleton]
      omega

/-- `domainGet` can only fail with a `KeyError`. -/
theorem domainGet_error (dIdx : DomainIndexRep) (k : String) (e : PyErr)
    (h : domainGet dIdx k = .error e) : e = .keyError := by
  cases dIdx with
  | dd es => cases h
  | presetDict es =>
    simp only [domainGet] at h
    cases hf : es.find? (fun e => decide (e.1 = k)) with
    | some e2 => rw [hf] at h; cases h
    | none =>
      rw [hf] at h
      cases h
      rfl

/-- Indexing one file on the defaultdict language path succeeds and preserves
the invariants. -/
theorem indexFile_inv (st : IxState) (f : WalkFile) (es : List (String × Nat))
    (hes : st.lang_index = .dd es) (hinv : IndexInv es st.coverage_index)
    (hitems : ∀ it ∈ st.items, it.2.1 < es.length) :
    ∃ st2 es2, indexFile st f = .ok st2 ∧ st2.lang_index = .dd es2 ∧
      IndexInv es2 st2.coverage_index ∧ (∀ it ∈ st2.items, it.2.1 < es2.length) := by
  obtain ⟨j0, j1, j2, j3⟩ := hinv
  unfold indexFile
  cases hd : domainGet st.domain_index f.domain with
  | error e =>
    have := domainGet_error _ _ _ hd
    subst this
    exact ⟨st, es, rfl, hes, ⟨j0, j1, j2, j3⟩, hitems⟩
  | ok r =>
    rw [hes]
    unfold langGet
    obtain ⟨g0, g1, g2, g3, g4, g5, g6⟩ := ddGet_spec es f.lang j0 j1
    refine ⟨_, (ddGet es f.lang).2, rfl, rfl, ⟨g0, g1, ?_, ?_⟩, ?_⟩
    · intro e2 h2
      rcases g4 e2 h2 with h3 | h3
      · exact covAdd_mono _ _ _ _ (j2 e2 h3)
      · rw [h3]
        exact covAdd_self _ _ _
    · intro dls hdls l hl
      rcases covAdd_members st.coverage_index f.domain f.lang dls hdls l hl with h3 | ⟨d0, h4, h5⟩
      · subst h3
        exact ⟨(ddGet es f.lang).1, g3⟩
      · obtain ⟨v, hv⟩ := j3 d0 h4 l h5
        exact ⟨v, g2 _ hv⟩
    · intro it hit
      simp only [List.mem_append, List.mem_singleton] at hit
      rcases hit with h3 | h3
      · exact Nat.lt_of_lt_of_le (hitems it h3) g6
      · rw [h3]
        exact g5

/-- Indexing a file list on the defaultdict language path succeeds and
preserves the invariants. -/
theorem indexAll_inv (files : List WalkFile) :
    ∀ (st : IxState) (es : List (String × Nat)),
      st.lang_index = .dd es → IndexInv es st.coverage_index →
      (∀ it ∈ st.items, it.2.1 < es.length) →
      ∃ st2 es2, indexAll st files = .ok st2 ∧ st2.lang_index = .dd es2 ∧
        IndexInv es2 st2.coverage_index ∧ (∀ it ∈ st2.items, it.2.1 < es2.length) := by
  induction files with
  | nil => exact fun st es h1 h2 h3 => ⟨st, es, rfl, h1, h2, h3⟩
  | cons f files ih =>
    intro st es h1 h2 h3
    obtain ⟨st2, es2, hok, hl, hi, hb⟩ := indexFile_inv st f es h1 h2 h3
    obtain ⟨st3, es3, hok3, hl3, hi3, hb3⟩ := ih st2 es2 hl hi hb
    refine ⟨st3, es3, ?_, hl3, hi3, hb3⟩
    rw [indexAll, hok]
    exact hok3

/-- A filterMap whose function is the identity on the list is the identity. -/
theorem filterMap_id_of (l : List (Nat × Nat × String × String))
    (f : Nat × Nat × String × String → Option (Nat × Nat × String × String))
    (h : ∀ x ∈ l, f x = some x) : l.filterMap f = l := by
  induction l with
  | nil => rfl
  | cons x l ih =>
    rw [List.filterMap_cons, h x (List.mem_cons_self x l)]
    rw [ih (fun y hy => h y (List.mem_cons_of_mem x hy))]

/-- Characterization of `prune_min_domain` on the defaultdict language path:
surviving languages have enough domain coverage, the survivors keep their
first-seen key order with dense consecutive new ids, and the items of
rejected languages are removed while the rest are remapped. -/
theorem pruneMinDomain_dd (st : IxState) (es : List (String × Nat)) (mind : Nat)
    (hes : st.lang_index = .dd es) (hinv : IndexInv es st.coverage_index)
    (hitems : ∀ it ∈ st.items, it.2.1 < es.length) :
    ∃ es2, (pruneMinDomain st mind).lang_index = .dd es2 ∧
      (∀ e ∈ es2, mind ≤ langDomainCount st.coverage_index e.1) ∧
      es2.map (fun e => e.1) = (es.filter
        (fun e => decide (mind ≤ langDomainCount st.coverage_index e.1))).map
          (fun e => e.1) ∧
      es2.map (fun e => e.2) = List.range es2.length ∧
      (pruneMinDomain st mind).items = st.items.filterMap (fun it =>
        match es.get? it.2.1 with
        | none => none
        | some e =>
          if langDomainCount st.coverage_index e.1 < mind then none
          else some (it.1, ((es.take it.2.1).filter
              (fun e2 => decide (mind ≤ langDomainCount st.coverage_index e2.1))).length,
            it.2.2.1, it.2.2.2)) := by
  obtain ⟨j0, j1, j2, j3⟩ := hinv
  unfold pruneMinDomain
  by_cases hrej : rejectLangs st.coverage_index mind = []
  · rw [if_pos hrej]
    have hall : ∀ e ∈ es, mind ≤ langDomainCount st.coverage_index e.1 := by
      intro e he
      by_contra hlt
      push_neg at hlt
      have : e.1 ∈ rejectLangs st.coverage_index mind :=
        (rejectLangs_mem _ _ _).mpr ⟨j2 e he, hlt⟩
      rw [hrej] at this
      cases this
    refine ⟨es, hes, hall, ?_, j1, ?_⟩
    · rw [List.filter_eq_self.mpr (fun e he => by simpa using hall e he)]
    · symm
      refine filterMap_id_of _ _ ?_
      intro it hit
      have hv : it.2.1 < es.length := hitems it hit
      have hget : es.get? it.2.1 = some (es.get ⟨it.2.1, hv⟩) := by
        rw [List.get?_eq_getElem?, List.getElem?_eq_getElem hv]
        rfl
      rw [hget]
      dsimp only
      have hmemget : es.get ⟨it.2.1, hv⟩ ∈ es := List.get_mem es it.2.1 hv
      rw [if_neg (by
        have := hall _ hmemget
        omega)]
      have hfil : (es.take it.2.1).filter
          (fun e2 => decide (mind ≤ langDomainCount st.coverage_index e2.1))
          = es.take it.2.1 :=
        List.filter_eq_self.mpr (fun e2 he2 => by
          simpa using hall e2 (List.take_subset _ _ he2))
      rw [hfil]
      rw [List.length_take]
      rw [show min it.2.1 es.length = it.2.1 from by omega]
  · rw [if_neg hrej, hes]
    dsimp only
    rw [renumber_eq_spec]
    have hiff := rejIds_mem_iff es st.coverage_index mind ⟨j0, j1, j2, j3⟩
    have hdec : ∀ e ∈ es,
        (decide (e.2 ∉ (rejectLangs st.coverage_index mind).map (langIdOfD es)))
          = (decide (mind ≤ langDomainCount st.coverage_index e.1)) := by
      intro e he
      rw [decide_eq_decide]
      rw [hiff e he]
      omega
    have hlen : (renumberSpec ((rejectLangs st.coverage_index mind).map (langIdOfD es))
        es 0).length
        = (es.filter (fun e => decide (e.2 ∉ (rejectLangs st.coverage_index mind).map
            (langIdOfD es)))).length := by
      have := congrArg List.length (renumberSpec_map_snd
        ((rejectLangs st.coverage_index mind).map (langIdOfD es)) es 0)
      simpa using this
    refine ⟨_, rfl, ?_, ?_, ?_, ?_⟩
    · intro e2 h2
      have : e2.1 ∈ (renumberSpec ((rejectLangs st.coverage_index mind).map (langIdOfD es))
          es 0).map (fun e => e.1) := List.mem_map_of_mem _ h2
      rw [renumberSpec_map_fst] at this
      obtain ⟨e, he, hee⟩ := List.mem_map.mp this
      have hq := List.of_mem_filter he
      have hmemes := List.mem_of_mem_filter he
      rw [hdec e hmemes] at hq
      rw [← hee]
      simpa using hq
    · rw [renumberSpec_map_fst]
      rw [List.filter_congr hdec]
    · rw [renumberSpec_map_snd]
      dsimp only
      rw [hlen, ← List.range_eq_range']
    · refine List.filterMap_congr ?_
      intro it hit
      have hids : es.map (fun e => e.2) = List.range' 0 es.length := by
        rw [j1, List.range_eq_range']
      have := lmGet_lmSpec ((rejectLangs st.coverage_index mind).map (langIdOfD es))
        es 0 0 it.2.1 hids
      rw [show (0 : Nat) + it.2.1 = it.2.1 from by omega] at this
      rw [this]
      cases hget : es.get? it.2.1 with
      | none => rfl
      | some e =>
        dsimp only
        have hmemes : e ∈ es := List.get?_mem hget
        by_cases hc : langDomainCount st.coverage_index e.1 < mind
        · rw [if_pos ((hiff e hmemes).mpr hc), if_pos hc]
        · rw [if_neg (fun hmem2 => hc ((hiff e hmemes).mp hmem2)), if_neg hc]
          have hfil : (es.take it.2.1).filter (fun e2 =>
                decide (e2.2 ∉ (rejectLangs st.coverage_index mind).map (langIdOfD es)))
              = (es.take it.2.1).filter (fun e2 =>
                decide (mind ≤ langDomainCount st.coverage_index e2.1)) :=
            List.filter_congr (fun e2 he2 => hdec e2 (List.take_subset _ _ he2))
          rw [hfil]
          rw [show (0 : Nat) + ((es.take it.2.1).filter (fun e2 =>
              decide (mind ≤ langDomainCount st.coverage_index e2.1))).length
            = ((es.take it.2.1).filter (fun e2 =>
              decide (mind ≤ langDomainCount st.coverage_index e2.1))).length from by omega]

/-- C4 counterexample: with a pre-specified language allow-list and no admitted
files, construction succeeds and pruning with `min_domain = 3` leaves the
allow-list language in `lang_index` although it appears in zero domains of the
corpus, contradicting the claim that every language still present appears in
at least `min_domain` domains. -/
theorem prune_min_domain_counterexample :
    ∃ st, corpusInit [] ⟨some ["en"], none⟩ 3 = .ok st ∧
      st.lang_index = .presetSet [("en", 0)] ∧
      langDomainCount st.coverage_index "en" = 0 ∧ (0 : Nat) < 3 :=
  ⟨_, rfl, rfl, rfl, by omega⟩

/-- C4 (amended to the path the claim reaches, where no language allow-list is
pre-specified and `lang_index` is the defaultdict): for every corpus indexed
over any domain configuration and every `min_domain`, after
`prune_min_domain` every language still present in `lang_index` appears in at
least `min_domain` distinct domains of the corpus; the surviving languages
keep their first-seen order and are densely renumbered with consecutive ids
from 0; and the items of rejected languages are removed while every remaining
item's `lang_id` is remapped to the new numbering. -/
theorem prune_min_domain_spec (files : List WalkFile) (domains : Option (List String))
    (mind : Nat) (st : IxState)
    (hok : indexAll ⟨.dd [], initDomainIndex domains, [], []⟩ files = .ok st) :
    ∃ es es2, st.lang_index = .dd es ∧ (pruneMinDomain st mind).lang_index = .dd es2 ∧
      (∀ e ∈ es2, mind ≤ langDomainCount st.coverage_index e.1) ∧
      es2.map (fun e => e.1) = (es.filter
        (fun e => decide (mind ≤ langDomainCount st.coverage_index e.1))).map
          (fun e => e.1) ∧
      es2.map (fun e => e.2) = List.range es2.length ∧
      (pruneMinDomain st mind).items = st.items.filterMap (fun it =>
        match es.get? it.2.1 with
        | none => none
        | some e =>
          if langDomainCount st.coverage_index e.1 < mind then none
          else some (it.1, ((es.take it.2.1).filter
              (fun e2 => decide (mind ≤ langDomainCount st.coverage_index e2.1))).length,
            it.2.2.1, it.2.2.2)) := by
  have hinv0 : IndexInv ([] : List (String × Nat)) ([] : List (String × List String)) := by
    refine ⟨List.nodup_nil, by simp, ?_, ?_⟩
    · intro e he; cases he
    · intro dls hdls; cases hdls
  obtain ⟨st2, es, hok2, hl, hi, hb⟩ := indexAll_inv files
    ⟨.dd [], initDomainIndex domains, [], []⟩ [] rfl hinv0 (by intro it hit; cases hit)
  rw [hok] at hok2
  cases hok2
  obtain ⟨es2, h1, h2, h3, h4, h5⟩ := pruneMinDomain_dd st es mind hl hi hb
  exact ⟨es, es2, hl, h1, h2, h3, h4, h5⟩

/-- Witness for the amended C4 at a concrete three-file corpus with
`min_domain = 2`, where the language of one domain is rejected. -/
theorem prune_min_domain_spec_witness :
    ∃ st es es2,
      indexAll ⟨.dd [], initDomainIndex none, [], []⟩
          [⟨"d1", "en", "f1", "p1"⟩, ⟨"d2", "en", "f2", "p2"⟩, ⟨"d1", "de", "f3", "p3"⟩]
        = .ok st ∧
      st.lang_index = .dd es ∧ (pruneMinDomain st 2).lang_index = .dd es2 ∧
      (∀ e ∈ es2, 2 ≤ langDomainCount st.coverage_index e.1) := by
  obtain ⟨es, es2, h1, h2, h3, _⟩ := prune_min_domain_spec
    [⟨"d1", "en", "f1", "p1"⟩, ⟨"d2", "en", "f2", "p2"⟩, ⟨"d1", "de", "f3", "p3"⟩]
    none 2 _ rfl
  exact ⟨_, es, es2, rfl, h1, h2, h3⟩

/-! ## C2 : the root row of the compiled next-move table -/

/-- Extension leaves every unrelated small-state key unchanged. -/
theorem gotoExtend_lookup_old :
    ∀ (rest : List Nat) (g : StateDict) (ns s : Nat), s ≤ ns →
      (∀ k v, sdFind g k = some v → k.1 ≤ ns) →
      ∀ k, k.1 ≤ ns → (∀ c r2, rest = c :: r2 → k ≠ (s, c)) →
      sdFind (gotoExtend g ns s rest).1 k = sdFind g k := by
  intro rest
  induction rest with
  | nil => intro g ns s _ _ k _ _; rfl
  | cons c rest ih =>
    intro g ns s hs hb k hk hne
    rw [gotoExtend]
    have hb1 : ∀ k2 v2, sdFind (dictUpd g (s, c) (ns + 1)) k2 = some v2 → k2.1 ≤ ns + 1 := by
      intro k2 v2 h2
      rw [sdFind_dictUpd] at h2
      by_cases hk2 : k2 = (s, c)
      · rw [hk2]; exact Nat.le_succ_of_le hs
      · rw [if_neg hk2] at h2
        exact Nat.le_succ_of_le (hb k2 v2 h2)
    rw [ih (dictUpd g (s, c) (ns + 1)) (ns + 1) (ns + 1) (Nat.le_refl _) hb1 k
      (Nat.le_succ_of_le hk) (fun c2 r2 _ => by
        intro hkk
        have := congrArg Prod.fst hkk
        simp only at this
        omega)]
    rw [sdFind_dictUpd, if_neg (hne c rest rfl)]

/-- The first edge written by a nonempty extension. -/
theorem gotoExtend_head_edge (rest : List Nat) (g : StateDict) (ns s : Nat)
    (hs : s ≤ ns) (hb : ∀ k v, sdFind g k = some v → k.1 ≤ ns)
    (c : Nat) (r2 : List Nat) (hr : rest = c :: r2) :
    sdFind (gotoExtend g ns s rest).1 (s, c) = some (ns + 1) := by
  subst hr
  rw [gotoExtend]
  have hb1 : ∀ k2 v2, sdFind (dictUpd g (s, c) (ns + 1)) k2 = some v2 → k2.1 ≤ ns + 1 := by
    intro k2 v2 h2
    rw [sdFind_dictUpd] at h2
    by_cases hk2 : k2 = (s, c)
    · rw [hk2]; exact Nat.le_succ_of_le hs
    · rw [if_neg hk2] at h2
      exact Nat.le_succ_of_le (hb k2 v2 h2)
  rw [gotoExtend_lookup_old r2 (dictUpd g (s, c) (ns + 1)) (ns + 1) (ns + 1)
    (Nat.le_refl _) hb1 (s, c) (by simpa using Nat.le_succ_of_le hs) (fun c2 r3 _ => by
      intro hkk
      have := congrArg Prod.fst hkk
      simp only at this
      omega)]
  rw [sdFind_dictUpd, if_pos rfl]

/-- A walk ending at the root consumed nothing and started at the root. -/
theorem gotoWalk_eq_zero (g : StateDict) (ns : Nat) (hb : GotoBound g ns) :
    ∀ (a : List Nat) (s : Nat) (rest : List Nat),
      gotoWalk g s a = (0, rest) → s = 0 ∧ rest = a := by
  intro a
  induction a with
  | nil =>
    intro s rest h
    simp only [gotoWalk] at h
    cases h
    exact ⟨rfl, rfl⟩
  | cons c r ih =>
    intro s rest h
    cases hg : sdFind g (s, c) with
    | none =>
      simp only [gotoWalk, hg] at h
      cases h
      exact ⟨rfl, rfl⟩
    | some s2 =>
      simp only [gotoWalk, hg] at h
      have := (ih s2 rest h).1
      have hpos := (hb (s, c) s2 hg).2.2.1
      omega

/-- Entering a keyword adds a root edge exactly for its first byte. -/
theorem enterKeyword_root_edge (t : Trie) (a : List Nat) (hb : TrieBound t) (b : Nat) :
    (∃ v, sdFind (enterKeyword t a).goto (0, b) = some v)
      ↔ ((∃ v, sdFind t.goto (0, b) = some v) ∨ a.head? = some b) := by
  have hws1 : (gotoWalk t.goto 0 a).1 ≤ t.newstate :=
    gotoWalk_state_le t.goto t.newstate hb a 0 (Nat.zero_le _)
  have hsrc : ∀ k v, sdFind t.goto k = some v → k.1 ≤ t.newstate :=
    fun k v h => (hb k v h).1
  cases hrest : (gotoWalk t.goto 0 a).2 with
  | nil =>
    -- no extension: goto unchanged
    have hgoto : (enterKeyword t a).goto = t.goto := by
      show (gotoExtend t.goto t.newstate (gotoWalk t.goto 0 a).1 (gotoWalk t.goto 0 a).2).1
        = t.goto
      rw [hrest]
      rfl
    rw [hgoto]
    constructor
    · exact Or.inl
    · rintro (h | h)
      · exact h
      · -- the keyword was fully consumed, so its first byte has a root edge
        cases a with
        | nil => cases h
        | cons c r =>
          simp only [List.head?_cons, Option.some.injEq] at h
          subst h
          cases hg : sdFind t.goto (0, c) with
          | none =>
            rw [gotoWalk, hg] at hrest
            cases hrest
          | some v => exact ⟨v, rfl⟩
  | cons c r2 =>
    by_cases hzero : (gotoWalk t.goto 0 a).1 = 0
    · -- walk stayed at the root: the keyword is unconsumed and gets a root edge
      have hra : a = c :: r2 := by
        have hW0 : gotoWalk t.goto 0 a = (0, (gotoWalk t.goto 0 a).2) := by
          have h9 : gotoWalk t.goto 0 a
              = ((gotoWalk t.goto 0 a).1, (gotoWalk t.goto 0 a).2) := rfl
          rw [h9, hzero]
        have h8 := (gotoWalk_eq_zero t.goto t.newstate hb a 0 (gotoWalk t.goto 0 a).2 hW0).2
        rw [hrest] at h8
        exact h8.symm
      have hceq : sdFind (enterKeyword t a).goto (0, c) = some (t.newstate + 1) := by
        show sdFind (gotoExtend t.goto t.newstate (gotoWalk t.goto 0 a).1
          (gotoWalk t.goto 0 a).2).1 (0, c) = some (t.newstate + 1)
        rw [hzero, hrest]
        exact gotoExtend_head_edge (c :: r2) t.goto t.newstate 0 (Nat.zero_le _) hsrc
          c r2 rfl
      have hother : ∀ b2, b2 ≠ c →
          sdFind (enterKeyword t a).goto (0, b2) = sdFind t.goto (0, b2) := by
        intro b2 hb2
        show sdFind (gotoExtend t.goto t.newstate (gotoWalk t.goto 0 a).1
          (gotoWalk t.goto 0 a).2).1 (0, b2) = sdFind t.goto (0, b2)
        rw [hzero, hrest]
        refine gotoExtend_lookup_old (c :: r2) t.goto t.newstate 0 (Nat.zero_le _) hsrc
          (0, b2) (Nat.zero_le _) ?_
        intro c2 r3 hcr hk
        cases hcr
        have := congrArg Prod.snd hk
        simp only at this
        exact hb2 this
      constructor
      · rintro ⟨v, hv⟩
        by_cases hbc : b = c
        · subst hbc
          exact Or.inr (by rw [hra]; rfl)
        · rw [hother b hbc] at hv
          exact Or.inl ⟨v, hv⟩
      · rintro (⟨v, hv⟩ | h)
        · by_cases hbc : b = c
          · subst hbc
            exact ⟨_, hceq⟩
          · rw [hother b hbc]
            exact ⟨v, hv⟩
        · have hbc : b = c := by
            rw [hra] at h
            simp only [List.head?_cons, Option.some.injEq] at h
            exact h.symm
          subst hbc
          exact ⟨_, hceq⟩
    · -- walk left the root: the root row is untouched, and a nonempty keyword's
      -- first byte already has a root edge
      have hpres : sdFind (enterKeyword t a).goto (0, b) = sdFind t.goto (0, b) := by
        show sdFind (gotoExtend t.goto t.newstate (gotoWalk t.goto 0 a).1
          (gotoWalk t.goto 0 a).2).1 (0, b) = sdFind t.goto (0, b)
        rw [hrest]
        refine gotoExtend_lookup_old (c :: r2) t.goto t.newstate (gotoWalk t.goto 0 a).1
          hws1 hsrc (0, b) (Nat.zero_le _) ?_
        intro c2 r3 hr3
        intro hk
        have := congrArg Prod.fst hk
        simp only at this
        exact hzero this.symm
      rw [hpres]
      constructor
      · exact Or.inl
      · rintro (h | h)
        · exact h
        · cases a with
          | nil => cases h
          | cons c0 r0 =>
            simp only [List.head?_cons, Option.some.injEq] at h
            subst h
            cases hg : sdFind t.goto (0, c0) with
            | none =>
              rw [gotoWalk, hg] at hzero
              exact absurd rfl hzero
            | some v => exact ⟨v, rfl⟩

/-- The root edges of the built trie are exactly the first bytes of the
keywords. -/
theorem trieOf_root_edge (K : List (List Nat)) :
    ∀ (t : Trie), TrieBound t → ∀ b,
      ((∃ v, sdFind (K.foldl enterKeyword t).goto (0, b) = some v)
        ↔ ((∃ v, sdFind t.goto (0, b) = some v) ∨ ∃ k ∈ K, k.head? = some b)) := by
  induction K with
  | nil =>
    intro t _ b
    simp
  | cons a K ih =>
    intro t hb b
    simp only [List.foldl_cons]
    rw [ih (enterKeyword t a) (TrieBound_enterKeyword t a hb) b]
    rw [enterKeyword_root_edge t a hb b]
    constructor
    · rintro ((h | h) | h)
      · exact Or.inl h
      · exact Or.inr ⟨a, List.mem_cons_self _ _, h⟩
      · obtain ⟨k, hk, hh⟩ := h
        exact Or.inr ⟨k, List.mem_cons_of_mem _ hk, hh⟩
    · rintro (h | ⟨k, hk, hh⟩)
      · exact Or.inl (Or.inl h)
      · rcases List.mem_cons.mp hk with h2 | h2
        · subst h2
          exact Or.inl (Or.inr hh)
        · exact Or.inr ⟨k, h2, hh⟩

/-- Lookup through the root-completion fold. -/
theorem completeRoot_foldl_lookup :
    ∀ (l : List Nat) (g : StateDict) (k : Nat × Nat),
      sdFind (l.foldl
          (fun g2 a => if sdFind g2 (0, a) = none then dictUpd g2 (0, a) 0 else g2) g) k
        = if k.1 = 0 ∧ k.2 ∈ l ∧ sdFind g k = none then some 0 else sdFind g k := by
  intro l
  induction l with
  | nil => intro g k; simp
  | cons a l ih =>
    intro g k
    simp only [List.foldl_cons]
    by_cases hga : sdFind g (0, a) = none
    · rw [if_pos hga, ih]
      rw [sdFind_dictUpd]
      by_cases hk : k = (0, a)
      · subst hk
        simp [hga]
      · rw [if_neg hk]
        by_cases hc : k.1 = 0 ∧ k.2 ∈ l ∧ sdFind g k = none
        · rw [if_pos hc, if_pos ⟨hc.1, List.mem_cons_of_mem _ hc.2.1, hc.2.2⟩]
        · rw [if_neg hc]
          by_cases hc2 : k.1 = 0 ∧ k.2 ∈ a :: l ∧ sdFind g k = none
          · exfalso
            rcases List.mem_cons.mp hc2.2.1 with h2 | h2
            · exact hk (by
                have h3 : k = (k.1, k.2) := rfl
                rw [h3, hc2.1, h2])
            · exact hc ⟨hc2.1, h2, hc2.2.2⟩
          · rw [if_neg hc2]
    · rw [if_neg hga, ih]
      by_cases hc : k.1 = 0 ∧ k.2 ∈ l ∧ sdFind g k = none
      · rw [if_pos hc, if_pos ⟨hc.1, List.mem_cons_of_mem _ hc.2.1, hc.2.2⟩]
      · rw [if_neg hc]
        by_cases hc2 : k.1 = 0 ∧ k.2 ∈ a :: l ∧ sdFind g k = none
        · exfalso
          rcases List.mem_cons.mp hc2.2.1 with h2 | h2
          · refine hc ?_
            exfalso
            have hka : k = (0, a) := by
              have h3 : k = (k.1, k.2) := rfl
              rw [h3, hc2.1, h2]
            rw [hka] at hc2
            exact absurd hc2.2.2 (by simpa using hga)
          · exact hc ⟨hc2.1, h2, hc2.2.2⟩
        · rw [if_neg hc2]

/-- The next-move entries written by the initial loop of Algorithm 4. -/
theorem alg4Init_nextmove :
    ∀ (l : List Nat) (g : StateDict) (st : Alg4St) (k : Nat × Nat),
      sdFind (l.foldl (alg4InitStep g) st).nextmove k
        = if k.1 = 0 ∧ k.2 ∈ l ∧ (sdFind g (0, k.2)).isSome
          then sdFind g (0, k.2)
          else sdFind st.nextmove k := by
  intro l
  induction l with
  | nil => intro g st k; simp
  | cons a l ih =>
    intro g st k
    simp only [List.foldl_cons]
    rw [ih]
    cases hga : sdFind g (0, a) with
    | none =>
      rw [show alg4InitStep g st a = st from by rw [alg4InitStep, hga]]
      by_cases hc : k.1 = 0 ∧ k.2 ∈ l ∧ (sdFind g (0, k.2)).isSome
      · rw [if_pos hc, if_pos ⟨hc.1, List.mem_cons_of_mem _ hc.2.1, hc.2.2⟩]
      · rw [if_neg hc]
        by_cases hc2 : k.1 = 0 ∧ k.2 ∈ a :: l ∧ (sdFind g (0, k.2)).isSome
        · exfalso
          rcases List.mem_cons.mp hc2.2.1 with h2 | h2
          · rw [hc2.1, h2] at hc2
            rw [hga] at hc2
            simp at hc2
          · exact hc ⟨hc2.1, h2, hc2.2.2⟩
        · rw [if_neg hc2]
    | some s =>
      have hstep : (alg4InitStep g st a).nextmove = dictUpd st.nextmove (0, a) s := by
        rw [alg4InitStep, hga]
      rw [hstep, sdFind_dictUpd]
      by_cases hk : k = (0, a)
      · subst hk
        by_cases hal : a ∈ l <;> simp [hga, hal]
      · rw [if_neg hk]
        by_cases hc : k.1 = 0 ∧ k.2 ∈ l ∧ (sdFind g (0, k.2)).isSome
        · rw [if_pos hc, if_pos ⟨hc.1, List.mem_cons_of_mem _ hc.2.1, hc.2.2⟩]
        · rw [if_neg hc]
          by_cases hc2 : k.1 = 0 ∧ k.2 ∈ a :: l ∧ (sdFind g (0, k.2)).isSome
          · exfalso
            rcases List.mem_cons.mp hc2.2.1 with h2 | h2
            · exact hk (by
                have h3 : k = (k.1, k.2) := rfl
                rw [h3, hc2.1, h2])
            · exact hc ⟨hc2.1, h2, hc2.2.2⟩
          · rw [if_neg hc2]

/-- The initial loop of Algorithm 4 only enqueues nonroot states. -/
theorem alg4Init_queue_pos :
    ∀ (l : List Nat) (g : StateDict) (st : Alg4St),
      (∀ x ∈ st.queue, 1 ≤ x) →
      ∀ x ∈ (l.foldl (alg4InitStep g) st).queue, 1 ≤ x := by
  intro l
  induction l with
  | nil => intro g st h; exact h
  | cons a l ih =>
    intro g st h
    simp only [List.foldl_cons]
    refine ih g _ ?_
    cases hga : sdFind g (0, a) with
    | none =>
      rw [show alg4InitStep g st a = st from by rw [alg4InitStep, hga]]
      exact h
    | some s =>
      have hstep : alg4InitStep g st a
          = { queue := if s ≠ 0 then st.queue ++ [s] else st.queue,
              nextmove := dictUpd st.nextmove (0, a) s } := by
        rw [alg4InitStep, hga]
      rw [hstep]
      intro x hx
      dsimp only at hx
      by_cases hs : s ≠ 0
      · rw [if_pos hs] at hx
        rcases List.mem_append.mp hx with h2 | h2
        · exact h x h2
        · simp only [List.mem_singleton] at h2
          subst h2
          omega
      · rw [if_neg hs] at hx
        exact h x hx

/-- The inner loop of Algorithm 4 never touches the root row and keeps the
queue free of the root. -/
theorem alg4Child_foldl_root (g : StateDict) (fail : FailDict) (r : Nat) (hr : 1 ≤ r)
    (hg : ∀ k v, sdFind g k = some v → 1 ≤ k.1 → 1 ≤ v) :
    ∀ (l : List Nat) (st : Alg4St), (∀ x ∈ st.queue, 1 ≤ x) →
      (∀ b, sdFind (l.foldl (alg4Child g fail r) st).nextmove (0, b)
          = sdFind st.nextmove (0, b)) ∧
      (∀ x ∈ (l.foldl (alg4Child g fail r) st).queue, 1 ≤ x) := by
  intro l
  induction l with
  | nil => intro st h; exact ⟨fun b => rfl, h⟩
  | cons a l ih =>
    intro st h
    simp only [List.foldl_cons]
    have hkey : ∀ (nm : StateDict) (v : Nat) (b : Nat),
        sdFind (dictUpd nm (r, a) v) (0, b) = sdFind nm (0, b) := by
      intro nm v b
      rw [sdFind_dictUpd]
      rw [if_neg (by
        intro hk
        have := congrArg Prod.fst hk
        simp only at this
        omega)]
    cases hga : sdFind g (r, a) with
    | none =>
      have hqe : (alg4Child g fail r st a).queue = st.queue := by
        rw [alg4Child, hga]
      have hne : (alg4Child g fail r st a).nextmove
          = dictUpd st.nextmove (r, a)
            ((sdFind st.nextmove ((fdFind fail r).getD 0, a)).getD 0) := by
        rw [alg4Child, hga]
      obtain ⟨h1, h2⟩ := ih (alg4Child g fail r st a) (by rw [hqe]; exact h)
      refine ⟨fun b => ?_, h2⟩
      rw [h1 b, hne]
      exact hkey _ _ b
    | some s =>
      have hstep : alg4Child g fail r st a
          = { queue := st.queue ++ [s], nextmove := dictUpd st.nextmove (r, a) s } := by
        rw [alg4Child, hga]
      rw [hstep]
      have hq : ∀ x ∈ st.queue ++ [s], 1 ≤ x := by
        intro x hx
        rcases List.mem_append.mp hx with h2 | h2
        · exact h x h2
        · simp only [List.mem_singleton] at h2
          subst h2
          exact hg (r, a) x hga hr
      obtain ⟨h1, h2⟩ := ih ⟨st.queue ++ [s], dictUpd st.nextmove (r, a) s⟩ hq
      exact ⟨fun b => by rw [h1 b]; exact hkey _ _ b, h2⟩

/-- Nonroot edges of the root-completed goto still point to nonroot states. -/
theorem completeRoot_nonroot_pos (K : List (List Nat)) :
    ∀ k v, sdFind (completeRoot (trieOf K).goto) k = some v → 1 ≤ k.1 → 1 ≤ v := by
  have htb : TrieBound (trieOf K) := TrieBound_foldl K ⟨[], [], 0⟩ TrieBound_empty
  intro k v hkv hk1
  rw [completeRoot, completeRoot_foldl_lookup] at hkv
  rw [if_neg (fun hc => absurd hc.1 (by omega))] at hkv
  exact (htb k v hkv).2.2.1

/-- Algorithm 4's BFS never rewrites the root row. -/
theorem alg4Loop_root_row (g : StateDict) (fail : FailDict)
    (hg : ∀ k v, sdFind g k = some v → 1 ≤ k.1 → 1 ≤ v) :
    ∀ (fuel : Nat) (st : Alg4St), (∀ x ∈ st.queue, 1 ≤ x) →
      ∀ b, sdFind (alg4Loop g fail fuel st) (0, b) = sdFind st.nextmove (0, b) := by
  intro fuel
  induction fuel with
  | zero => intro st _ b; rfl
  | succ fuel ih =>
    intro st h b
    cases hq : st.queue with
    | nil =>
      rw [alg4Loop, hq]
    | cons r q =>
      rw [alg4Loop, hq]
      have hr : 1 ≤ r := h r (by rw [hq]; exact List.mem_cons_self _ _)
      have hqq : ∀ x ∈ (⟨q, st.nextmove⟩ : Alg4St).queue, 1 ≤ x := by
        intro x hx
        exact h x (by rw [hq]; exact List.mem_cons_of_mem _ hx)
      obtain ⟨h1, h2⟩ := alg4Child_foldl_root g fail r hr hg alphabetL ⟨q, st.nextmove⟩ hqq
      rw [ih _ h2 b, h1 b]

/-- C2 : for every keyword set, after `Scanner.build` completes, the compiled
next-move table has an entry at `(0, b)` for every byte value `b` in `0..255`,
and that entry equals 0 (the root state) exactly for those bytes `b` that are
not the first byte of any keyword. -/
theorem nextmove_root_row (K : List (List Nat)) (b : Nat) (hb : b < 256) :
    ∃ v, sdFind (Scanner.build K).nextmove (0, b) = some v ∧
      (v = 0 ↔ ¬ ∃ k ∈ K, k.head? = some b) := by
  have htb : TrieBound (trieOf K) := TrieBound_foldl K ⟨[], [], 0⟩ TrieBound_empty
  have hbmem : b ∈ alphabetL := by
    rw [alphabetL, List.mem_range]
    exact hb
  have hgrow : sdFind (completeRoot (trieOf K).goto) (0, b)
      = if sdFind (trieOf K).goto (0, b) = none then some 0
        else sdFind (trieOf K).goto (0, b) := by
    rw [completeRoot, completeRoot_foldl_lookup]
    by_cases h : sdFind (trieOf K).goto (0, b) = none
    · rw [if_pos h, if_pos ⟨rfl, hbmem, h⟩]
    · rw [if_neg h, if_neg (fun hc => h hc.2.2)]
  have hqinit : ∀ x ∈ (alphabetL.foldl (alg4InitStep (completeRoot (trieOf K).goto))
      (⟨[], []⟩ : Alg4St)).queue, 1 ≤ x :=
    alg4Init_queue_pos alphabetL _ ⟨[], []⟩ (fun x hx => absurd hx (List.not_mem_nil x))
  have hrow := alg4Init_nextmove alphabetL (completeRoot (trieOf K).goto)
      (⟨[], []⟩ : Alg4St) (0, b)
  dsimp only at hrow
  have hre2 : (∃ v, sdFind (trieOf K).goto (0, b) = some v)
      ↔ ∃ k ∈ K, k.head? = some b := by
    have h0 := trieOf_root_edge K ⟨[], [], 0⟩ TrieBound_empty b
    refine ⟨fun h => ?_, fun h => h0.mpr (Or.inr h)⟩
    rcases h0.mp h with h1 | h1
    · obtain ⟨v, hv⟩ := h1
      have hv2 : (none : Option Nat) = some v := hv
      exact Option.noConfusion hv2
    · exact h1
  have hbuild : (Scanner.build K).nextmove
      = alg4Loop (completeRoot (trieOf K).goto)
          (alg3Loop (completeRoot (trieOf K).goto) ((trieOf K).newstate + 1)
            ((trieOf K).newstate + 1)
            (alphabetL.foldl (alg3InitStep (completeRoot (trieOf K).goto))
              ⟨[], [], (trieOf K).output⟩)).1
          ((trieOf K).newstate + 1)
          (alphabetL.foldl (alg4InitStep (completeRoot (trieOf K).goto)) ⟨[], []⟩) := by
    unfold Scanner.build
    with_reducible rfl
  rw [hbuild,
    alg4Loop_root_row (completeRoot (trieOf K).goto) _ (completeRoot_nonroot_pos K)
      ((trieOf K).newstate + 1) _ hqinit b,
    hrow]
  cases hng : sdFind (trieOf K).goto (0, b) with
  | none =>
    have hsome : sdFind (completeRoot (trieOf K).goto) (0, b) = some 0 := by
      rw [hgrow, if_pos hng]
    have hnex : ¬ ∃ k ∈ K, k.head? = some b := by
      intro hk
      obtain ⟨v, hv⟩ := hre2.mpr hk
      rw [hng] at hv
      exact Option.noConfusion hv
    rw [if_pos ⟨rfl, hbmem, by rw [hsome]; rfl⟩, hsome]
    exact ⟨0, rfl, iff_of_true rfl hnex⟩
  | some w =>
    have hw1 : 1 ≤ w := (htb (0, b) w hng).2.2.1
    have hsome : sdFind (completeRoot (trieOf K).goto) (0, b) = some w := by
      rw [hgrow, if_neg (by rw [hng]; exact fun h => Option.noConfusion h)]
      exact hng
    have hex : ∃ k ∈ K, k.head? = some b := hre2.mp ⟨w, hng⟩
    rw [if_pos ⟨rfl, hbmem, by rw [hsome]; rfl⟩, hsome]
    exact ⟨w, rfl, fun h0 => absurd h0 (by omega), fun hn => absurd hex hn⟩

/-! ## C7 : the packed next-move array -/

/-- Complete characterization of the goto dictionary produced by the
extension loop of Algorithm 2: the old entries, plus one fresh edge per
remaining byte, forming a chain of fresh states. -/
theorem gotoExtend_lookup :
    ∀ (rest : List Nat) (gd : StateDict) (ns s : Nat), s ≤ ns →
      (∀ k v, sdFind gd k = some v → k.1 ≤ ns ∧ v ≤ ns) →
      (∀ c r2, rest = c :: r2 → sdFind gd (s, c) = none) →
      ∀ k v, (sdFind (gotoExtend gd ns s rest).1 k = some v ↔
        (sdFind gd k = some v ∨
         ∃ i, ∃ hi : i < rest.length,
           k = (if i = 0 then s else ns + i, rest.get ⟨i, hi⟩) ∧ v = ns + i + 1)) := by
  intro rest
  induction rest with
  | nil =>
    intro gd ns s _ _ _ k v
    simp [gotoExtend]
  | cons c r2 ih =>
    intro gd ns s hs hb hfresh k v
    rw [gotoExtend]
    have hb1 : ∀ k2 v2, sdFind (dictUpd gd (s, c) (ns + 1)) k2 = some v2 →
        k2.1 ≤ ns + 1 ∧ v2 ≤ ns + 1 := by
      intro k2 v2 h2
      rw [sdFind_dictUpd] at h2
      by_cases hk2 : k2 = (s, c)
      · rw [if_pos hk2] at h2
        cases h2
        rw [hk2]
        exact ⟨by omega, by omega⟩
      · rw [if_neg hk2] at h2
        obtain ⟨h3, h4⟩ := hb k2 v2 h2
        exact ⟨by omega, by omega⟩
    have hfresh1 : ∀ c2 r3, r2 = c2 :: r3 →
        sdFind (dictUpd gd (s, c) (ns + 1)) (ns + 1, c2) = none := by
      intro c2 r3 _
      rw [sdFind_dictUpd]
      rw [if_neg (by
        intro hk
        have := congrArg Prod.fst hk
        simp only at this
        omega)]
      cases h3 : sdFind gd (ns + 1, c2) with
      | none => rfl
      | some v3 =>
        have := (hb _ _ h3).1
        simp only at this
        omega
    rw [ih (dictUpd gd (s, c) (ns + 1)) (ns + 1) (ns + 1) (Nat.le_refl _) hb1 hfresh1 k v]
    have hupd : sdFind (dictUpd gd (s, c) (ns + 1)) k
        = if k = (s, c) then some (ns + 1) else sdFind gd k := sdFind_dictUpd gd (s, c) k _
    constructor
    · rintro (h | ⟨i, hi, hk, hv⟩)
      · rw [hupd] at h
        by_cases hk : k = (s, c)
        · rw [if_pos hk] at h
          have hv2 := Option.some.inj h
          refine Or.inr ⟨0, by simp, ?_, by omega⟩
          rw [hk]
          rfl
        · rw [if_neg hk] at h
          exact Or.inl h
      · refine Or.inr ⟨i + 1, by simpa using Nat.succ_lt_succ hi, ?_, by omega⟩
        rw [hk]
        rw [if_neg (Nat.succ_ne_zero i)]
        have hfst : (if i = 0 then ns + 1 else ns + 1 + i) = ns + (i + 1) := by
          split <;> omega
        rw [hfst]
        rfl
    · rintro (h | ⟨i, hi, hk, hv⟩)
      · refine Or.inl ?_
        rw [hupd]
        rw [if_neg (by
          intro hk
          rw [hk, hfresh c r2 rfl] at h
          cases h)]
        exact h
      · cases i with
        | zero =>
          refine Or.inl ?_
          rw [hupd, if_pos (by rw [hk]; rfl)]
          rw [hv]
        | succ j =>
          refine Or.inr ⟨j, by simpa using Nat.lt_of_succ_lt_succ hi, ?_, by omega⟩
          rw [hk]
          rw [if_neg (Nat.succ_ne_zero j)]
          have hfst : (if j = 0 then ns + 1 else ns + 1 + j) = ns + (j + 1) := by
            split <;> omega
          rw [hfst]
          rfl

/-- Entering a keyword keeps every nonroot state the target of an edge and
every state the target of at most one edge. -/
theorem enterKeyword_struct (t : Trie) (a : List Nat) (hb : TrieBound t)
    (hpt : ParentTotal t.goto t.newstate) (hpu : ParentUnique t.goto) :
    ParentTotal (enterKeyword t a).goto (enterKeyword t a).newstate ∧
    ParentUnique (enterKeyword t a).goto := by
  have hws1 : (gotoWalk t.goto 0 a).1 ≤ t.newstate :=
    gotoWalk_state_le t.goto t.newstate hb a 0 (Nat.zero_le _)
  have hgoto : (enterKeyword t a).goto
      = (gotoExtend t.goto t.newstate (gotoWalk t.goto 0 a).1 (gotoWalk t.goto 0 a).2).1 := rfl
  have hns : (enterKeyword t a).newstate
      = t.newstate + (gotoWalk t.goto 0 a).2.length := by
    show (gotoExtend t.goto t.newstate (gotoWalk t.goto 0 a).1 (gotoWalk t.goto 0 a).2).2.1
      = _
    exact gotoExtend_newstate _ _ _ _
  have hchar := gotoExtend_lookup (gotoWalk t.goto 0 a).2 t.goto t.newstate
    (gotoWalk t.goto 0 a).1 hws1 (fun k v h => ⟨(hb k v h).1, (hb k v h).2.1⟩)
    (fun c rest2 hr => gotoWalk_stop t.goto a 0 c rest2 hr)
  constructor
  · intro s hs1 hs2
    rw [hns] at hs2
    by_cases hsold : s ≤ t.newstate
    · obtain ⟨p, b, hpb⟩ := hpt s hs1 hsold
      refine ⟨p, b, ?_⟩
      rw [hgoto, hchar (p, b) s]
      exact Or.inl hpb
    · have hi : s - t.newstate - 1 < (gotoWalk t.goto 0 a).2.length := by omega
      refine ⟨if s - t.newstate - 1 = 0 then (gotoWalk t.goto 0 a).1
          else t.newstate + (s - t.newstate - 1),
        (gotoWalk t.goto 0 a).2.get ⟨s - t.newstate - 1, hi⟩, ?_⟩
      rw [hgoto, hchar _ s]
      exact Or.inr ⟨s - t.newstate - 1, hi, rfl, by omega⟩
  · intro p b p2 b2 s h1 h2
    rw [hgoto, hchar (p, b) s] at h1
    rw [hgoto, hchar (p2, b2) s] at h2
    rcases h1 with h1 | ⟨i, hi, hk1, hv1⟩
    · rcases h2 with h2 | ⟨j, hj, hk2, hv2⟩
      · exact hpu p b p2 b2 s h1 h2
      · have := (hb _ _ h1).2.1
        omega
    · rcases h2 with h2 | ⟨j, hj, hk2, hv2⟩
      · have := (hb _ _ h2).2.1
        omega
      · have hij : i = j := by omega
        subst hij
        have hk : ((p, b) : Nat × Nat) = (p2, b2) := hk1.trans hk2.symm
        exact ⟨congrArg Prod.fst hk, congrArg Prod.snd hk⟩

/-- Entering a keyword of byte values keeps every goto edge labelled with a
byte value. -/
theorem enterKeyword_bytes (t : Trie) (a : List Nat) (hb : TrieBound t)
    (hab : ∀ c ∈ a, c < 256) (hgb : GotoBytes t.goto) :
    GotoBytes (enterKeyword t a).goto := by
  have hws1 : (gotoWalk t.goto 0 a).1 ≤ t.newstate :=
    gotoWalk_state_le t.goto t.newstate hb a 0 (Nat.zero_le _)
  have hgoto : (enterKeyword t a).goto
      = (gotoExtend t.goto t.newstate (gotoWalk t.goto 0 a).1 (gotoWalk t.goto 0 a).2).1 := rfl
  have hchar := gotoExtend_lookup (gotoWalk t.goto 0 a).2 t.goto t.newstate
    (gotoWalk t.goto 0 a).1 hws1 (fun k v h => ⟨(hb k v h).1, (hb k v h).2.1⟩)
    (fun c rest2 hr => gotoWalk_stop t.goto a 0 c rest2 hr)
  intro k v h
  rw [hgoto, hchar k v] at h
  rcases h with h | ⟨i, hi, hk, _⟩
  · exact hgb k v h
  · have hk2 : k.2 = (gotoWalk t.goto 0 a).2.get ⟨i, hi⟩ := congrArg Prod.snd hk
    rw [hk2]
    refine hab _ ?_
    obtain ⟨con, hEq, _⟩ := gotoWalk_decomp t.goto a 0
    have hsub : ∀ y, y ∈ (gotoWalk t.goto 0 a).2 → y ∈ a := by
      intro y hy
      rw [hEq]
      exact List.mem_append_right _ hy
    exact hsub _ (List.get_mem _ _ _)

/-- The goto tree structure for the trie of a keyword list. -/
theorem trieStruct_foldl (K : List (List Nat)) :
    ∀ t, TrieBound t → ParentTotal t.goto t.newstate → ParentUnique t.goto →
      ParentTotal (K.foldl enterKeyword t).goto (K.foldl enterKeyword t).newstate ∧
      ParentUnique (K.foldl enterKeyword t).goto := by
  induction K with
  | nil => exact fun t _ hpt hpu => ⟨hpt, hpu⟩
  | cons k rest ih =>
    intro t hb hpt hpu
    obtain ⟨h1, h2⟩ := enterKeyword_struct t k hb hpt hpu
    exact ih (enterKeyword t k) (TrieBound_enterKeyword t k hb) h1 h2

/-- The byte labels for the trie of a list of byte strings. -/
theorem trieBytes_foldl (K : List (List Nat)) (hbytes : ∀ k ∈ K, ∀ c ∈ k, c < 256) :
    ∀ t, TrieBound t → GotoBytes t.goto → GotoBytes (K.foldl enterKeyword t).goto := by
  induction K with
  | nil => exact fun t _ hgb => hgb
  | cons k rest ih =>
    intro t hb hgb
    refine ih (fun k2 hk2 => hbytes k2 (List.mem_cons_of_mem _ hk2)) (enterKeyword t k)
      (TrieBound_enterKeyword t k hb) ?_
    exact enterKeyword_bytes t k hb (hbytes k (List.mem_cons_self _ _)) hgb

/-- The structure facts for `trieOf K`. -/
theorem trieOf_parentTotal (K : List (List Nat)) :
    ParentTotal (trieOf K).goto (trieOf K).newstate :=
  (trieStruct_foldl K ⟨[], [], 0⟩ TrieBound_empty
    (fun s hs1 hs2 => by
      have hs3 : s ≤ 0 := hs2
      omega)
    (fun p a p2 a2 s h1 _ => absurd h1 (by
      intro h
      have h2 : (none : Option Nat) = some s := h
      exact Option.noConfusion h2))).1

theorem trieOf_parentUnique (K : List (List Nat)) :
    ParentUnique (trieOf K).goto :=
  (trieStruct_foldl K ⟨[], [], 0⟩ TrieBound_empty
    (fun s hs1 hs2 => by
      have hs3 : s ≤ 0 := hs2
      omega)
    (fun p a p2 a2 s h1 _ => absurd h1 (by
      intro h
      have h2 : (none : Option Nat) = some s := h
      exact Option.noConfusion h2))).2

theorem trieOf_bytes (K : List (List Nat)) (hbytes : ∀ k ∈ K, ∀ c ∈ k, c < 256) :
    GotoBytes (trieOf K).goto :=
  trieBytes_foldl K hbytes ⟨[], [], 0⟩ TrieBound_empty
    (fun k v h => absurd h (by
      intro h2
      have h3 : (none : Option Nat) = some v := h2
      exact Option.noConfusion h3))

/-- The empty dict has no entries. -/
theorem sdFind_nil (k : Nat × Nat) : sdFind [] k = none := rfl

/-- Root completion changes no lookup with a nonzero result. -/
theorem completeRoot_nonzero (gt : StateDict) (k : Nat × Nat) (s : Nat) (hs : s ≠ 0) :
    (sdFind (completeRoot gt) k = some s ↔ sdFind gt k = some s) := by
  rw [completeRoot, completeRoot_foldl_lookup]
  by_cases hc : k.1 = 0 ∧ k.2 ∈ alphabetL ∧ sdFind gt k = none
  · rw [if_pos hc]
    constructor
    · intro h
      exact absurd (Option.some.inj h) (fun h2 => hs h2.symm)
    · intro h
      rw [hc.2.2] at h
      exact Option.noConfusion h
  · rw [if_neg hc]

/-- Root completion leaves nonroot lookups unchanged. -/
theorem completeRoot_nonroot (gt : StateDict) (k : Nat × Nat) (hk : k.1 ≠ 0) :
    sdFind (completeRoot gt) k = sdFind gt k := by
  rw [completeRoot, completeRoot_foldl_lookup]
  rw [if_neg (fun hc => hk hc.1)]

/-- After root completion the root row is total over the bytes. -/
theorem completeRoot_root_total (gt : StateDict) (b : Nat) (hb : b < 256) :
    (sdFind (completeRoot gt) (0, b)).isSome = true := by
  rw [completeRoot, completeRoot_foldl_lookup]
  by_cases hc : sdFind gt (0, b) = none
  · rw [if_pos ⟨rfl, by rw [alphabetL, List.mem_range]; exact hb, hc⟩]
    rfl
  · rw [if_neg (fun hc2 => hc hc2.2.2)]
    cases h : sdFind gt (0, b) with
    | none => exact absurd h hc
    | some v => rfl

/-- Values of the completed goto stay within the live states. -/
theorem completeRoot_vbound (gt : StateDict) (ns : Nat) (hb : GotoBound gt ns) :
    ∀ k v, sdFind (completeRoot gt) k = some v → v ≤ ns := by
  intro k v h
  rw [completeRoot, completeRoot_foldl_lookup] at h
  by_cases hc : k.1 = 0 ∧ k.2 ∈ alphabetL ∧ sdFind gt k = none
  · rw [if_pos hc] at h
    cases Option.some.inj h
    exact Nat.zero_le _
  · rw [if_neg hc] at h
    exact (hb k v h).2.1

/-- One step of the inner loop of Algorithm 4 always assigns the key `(r, a)`
(with a branch-dependent value). -/
theorem alg4Child_nextmove (g : StateDict) (fail : FailDict) (r : Nat) (st : Alg4St)
    (a : Nat) :
    ∃ w, (alg4Child g fail r st a).nextmove = dictUpd st.nextmove (r, a) w := by
  cases hga : sdFind g (r, a) with
  | none => exact ⟨_, by rw [alg4Child, hga]⟩
  | some s => exact ⟨s, by rw [alg4Child, hga]⟩

/-- The inner loop of Algorithm 4 appends exactly the goto children of the
popped state to the queue. -/
theorem alg4Child_foldl_queue (g : StateDict) (fail : FailDict) (r : Nat) :
    ∀ (l : List Nat) (st : Alg4St),
      (l.foldl (alg4Child g fail r) st).queue
        = st.queue ++ l.filterMap (fun a => sdFind g (r, a)) := by
  intro l
  induction l with
  | nil => intro st; simp
  | cons a l ih =>
    intro st
    simp only [List.foldl_cons]
    rw [ih]
    cases hga : sdFind g (r, a) with
    | none =>
      have hqe : (alg4Child g fail r st a).queue = st.queue := by
        rw [alg4Child, hga]
      rw [hqe, List.filterMap_cons]
      rw [hga]
    | some s =>
      have hqe : (alg4Child g fail r st a).queue = st.queue ++ [s] := by
        rw [alg4Child, hga]
      rw [hqe, List.filterMap_cons]
      rw [hga, List.append_assoc]
      rfl

/-- The inner loop of Algorithm 4 touches no key outside the row of the
popped state and the processed bytes. -/
theorem alg4Child_foldl_keys (g : StateDict) (fail : FailDict) (r : Nat) :
    ∀ (l : List Nat) (st : Alg4St) (k : Nat × Nat), (k.1 ≠ r ∨ k.2 ∉ l) →
      sdFind (l.foldl (alg4Child g fail r) st).nextmove k = sdFind st.nextmove k := by
  intro l
  induction l with
  | nil => intro st k _; rfl
  | cons a l ih =>
    intro st k hk
    simp only [List.foldl_cons]
    have hk2 : k ≠ (r, a) := by
      intro he
      rcases hk with h | h
      · exact h (congrArg Prod.fst he)
      · exact h (by
          rw [he]
          exact List.mem_cons_self _ _)
    rw [ih (alg4Child g fail r st a) k (hk.imp id (fun h ha => h (List.mem_cons_of_mem _ ha)))]
    obtain ⟨w, hw⟩ := alg4Child_nextmove g fail r st a
    rw [hw, sdFind_dictUpd, if_neg hk2]

/-- An existing next-move entry stays present through the inner loop. -/
theorem alg4Child_foldl_isSome (g : StateDict) (fail : FailDict) (r : Nat) :
    ∀ (l : List Nat) (st : Alg4St) (k : Nat × Nat),
      (sdFind st.nextmove k).isSome = true →
      (sdFind (l.foldl (alg4Child g fail r) st).nextmove k).isSome = true := by
  intro l
  induction l with
  | nil => intro st k h; exact h
  | cons a l ih =>
    intro st k h
    simp only [List.foldl_cons]
    refine ih (alg4Child g fail r st a) k ?_
    obtain ⟨w, hw⟩ := alg4Child_nextmove g fail r st a
    rw [hw, sdFind_dictUpd]
    by_cases hk : k = (r, a)
    · rw [if_pos hk]
      rfl
    · rw [if_neg hk]
      exact h

/-- After the inner loop the popped state has a next-move entry for every
processed byte. -/
theorem alg4Child_foldl_row (g : StateDict) (fail : FailDict) (r : Nat) :
    ∀ (l : List Nat) (st : Alg4St) (a : Nat), a ∈ l →
      (sdFind (l.foldl (alg4Child g fail r) st).nextmove (r, a)).isSome = true := by
  intro l
  induction l with
  | nil => intro st a h; cases h
  | cons a0 l ih =>
    intro st a h
    simp only [List.foldl_cons]
    rcases List.mem_cons.mp h with h2 | h2
    · subst h2
      refine alg4Child_foldl_isSome g fail r l _ (r, a) ?_
      obtain ⟨w, hw⟩ := alg4Child_nextmove g fail r st a
      rw [hw, sdFind_dictUpd, if_pos rfl]
      rfl
    · exact ih _ a h2

/-- A goto edge of the popped state is copied verbatim into the next-move
table by the inner loop. -/
theorem alg4Child_foldl_edge (g : StateDict) (fail : FailDict) (r : Nat) :
    ∀ (l : List Nat) (st : Alg4St), l.Nodup → ∀ a ∈ l, ∀ s, sdFind g (r, a) = some s →
      sdFind (l.foldl (alg4Child g fail r) st).nextmove (r, a) = some s := by
  intro l
  induction l with
  | nil => intro st _ a h; cases h
  | cons a0 l ih =>
    intro st hnd a h s hga
    simp only [List.foldl_cons]
    rcases List.mem_cons.mp h with h2 | h2
    · subst h2
      have hstep : (alg4Child g fail r st a).nextmove = dictUpd st.nextmove (r, a) s := by
        rw [alg4Child, hga]
      rw [alg4Child_foldl_keys g fail r l _ (r, a)
        (Or.inr (by
          intro hmem
          exact (List.nodup_cons.mp hnd).1 hmem))]
      rw [hstep, sdFind_dictUpd, if_pos rfl]
    · exact ih _ (List.nodup_cons.mp hnd).2 a h2 s hga

/-- The inner loop keeps every next-move value within the live states. -/
theorem alg4Child_foldl_vbound (g : StateDict) (fail : FailDict) (r ns : Nat)
    (hgv : ∀ k v, sdFind g k = some v → v ≤ ns) :
    ∀ (l : List Nat) (st : Alg4St),
      (∀ k v, sdFind st.nextmove k = some v → v ≤ ns) →
      ∀ k v, sdFind (l.foldl (alg4Child g fail r) st).nextmove k = some v → v ≤ ns := by
  intro l
  induction l with
  | nil => intro st h; exact h
  | cons a l ih =>
    intro st h
    simp only [List.foldl_cons]
    refine ih (alg4Child g fail r st a) ?_
    intro k v hkv
    cases hga : sdFind g (r, a) with
    | none =>
      have hne : (alg4Child g fail r st a).nextmove
          = dictUpd st.nextmove (r, a)
            ((sdFind st.nextmove ((fdFind fail r).getD 0, a)).getD 0) := by
        rw [alg4Child, hga]
      rw [hne, sdFind_dictUpd] at hkv
      by_cases hk : k = (r, a)
      · rw [if_pos hk] at hkv
        cases Option.some.inj hkv
        cases hfr : sdFind st.nextmove ((fdFind fail r).getD 0, a) with
        | none => exact Nat.zero_le _
        | some u => exact h _ u hfr
      · rw [if_neg hk] at hkv
        exact h k v hkv
    | some s =>
      have hne : (alg4Child g fail r st a).nextmove = dictUpd st.nextmove (r, a) s := by
        rw [alg4Child, hga]
      rw [hne, sdFind_dictUpd] at hkv
      by_cases hk : k = (r, a)
      · rw [if_pos hk] at hkv
        cases Option.some.inj hkv
        exact hgv _ _ hga
      · rw [if_neg hk] at hkv
        exact h k v hkv

/-- The queue built by the initial loop of Algorithm 4. -/
theorem alg4Init_queue :
    ∀ (l : List Nat) (g : StateDict) (st : Alg4St),
      (l.foldl (alg4InitStep g) st).queue
        = st.queue ++ l.filterMap (fun a =>
            match sdFind g (0, a) with
            | some s => if s ≠ 0 then some s else none
            | none => none) := by
  intro l
  induction l with
  | nil => intro g st; simp
  | cons a l ih =>
    intro g st
    simp only [List.foldl_cons]
    rw [ih]
    cases hga : sdFind g (0, a) with
    | none =>
      have hqe : (alg4InitStep g st a).queue = st.queue := by
        rw [alg4InitStep, hga]
      rw [hqe, List.filterMap_cons, hga]
    | some s =>
      have hqe : (alg4InitStep g st a).queue
          = if s ≠ 0 then st.queue ++ [s] else st.queue := by
        rw [alg4InitStep, hga]
      rw [hqe]
      simp only [List.filterMap_cons, hga]
      by_cases hs : s ≠ 0
      · rw [if_pos hs, if_pos hs]
        dsimp only
        rw [List.append_assoc]
        rfl
      · rw [if_neg hs, if_neg hs]

/-- Popped and queued states are distinct live states, so there are at most
`ns` of them in total. -/
theorem A4Inv_count (gt : StateDict) (ns : Nat) (st : Alg4St) (done : List Nat)
    (hinv : A4Inv gt ns st done) : done.length + st.queue.length ≤ ns := by
  have hnd : (done ++ st.queue).Nodup := by
    rw [List.nodup_append]
    exact ⟨hinv.dnodup, hinv.qnodup, fun x hx hx2 => hinv.disj x hx2 hx⟩
  have hsub : (done ++ st.queue).toFinset ⊆ Finset.Icc 1 ns := by
    intro x hx
    rw [List.mem_toFinset] at hx
    rcases List.mem_append.mp hx with h | h
    · exact Finset.mem_Icc.mpr ⟨(hinv.dmem x h).1, (hinv.dmem x h).2⟩
    · exact Finset.mem_Icc.mpr ⟨(hinv.qmem x h).1, (hinv.qmem x h).2⟩
  have hcard := Finset.card_le_card hsub
  rw [List.toFinset_card_of_nodup hnd, Nat.card_Icc, List.length_append] at hcard
  omega

/-- The invariant transfers to the literal empty-queue state. -/
theorem A4Inv_empty_queue (gt : StateDict) (ns : Nat) (st : Alg4St) (done : List Nat)
    (hinv : A4Inv gt ns st done) (hqe : st.queue = []) :
    A4Inv gt ns ⟨[], st.nextmove⟩ done := by
  cases st with
  | mk qu nm =>
    dsimp only at hqe
    subst hqe
    exact hinv

/-- Popping one state preserves the BFS invariant, recording it as done. -/
theorem A4Inv_step (gt : StateDict) (ns : Nat) (fail : FailDict)
    (hb : GotoBound gt ns) (hpu : ParentUnique gt) (hgb : GotoBytes gt)
    (st : Alg4St) (done : List Nat) (r : Nat) (q : List Nat)
    (hq : st.queue = r :: q) (hinv : A4Inv gt ns st done) :
    A4Inv gt ns (alphabetL.foldl (alg4Child (completeRoot gt) fail r) ⟨q, st.nextmove⟩)
      (done ++ [r]) := by
  have hrmem : r ∈ st.queue := by rw [hq]; exact List.mem_cons_self _ _
  have hr1 : 1 ≤ r := (hinv.qmem r hrmem).1
  have hrns : r ≤ ns := (hinv.qmem r hrmem).2
  have hrd : r ∉ done := hinv.disj r hrmem
  have hqnd : (r :: q).Nodup := by rw [← hq]; exact hinv.qnodup
  have hrq : r ∉ q := (List.nodup_cons.mp hqnd).1
  have hqnd2 : q.Nodup := (List.nodup_cons.mp hqnd).2
  have hqsub : ∀ x ∈ q, x ∈ st.queue := by
    intro x hx
    rw [hq]
    exact List.mem_cons_of_mem _ hx
  have hrow : ∀ a s, (sdFind (completeRoot gt) (r, a) = some s ↔ sdFind gt (r, a) = some s) := by
    intro a s
    rw [completeRoot_nonroot gt (r, a) (by simp only; omega)]
  have hqeq := alg4Child_foldl_queue (completeRoot gt) fail r alphabetL ⟨q, st.nextmove⟩
  have hCmem : ∀ s, (s ∈ alphabetL.filterMap (fun a => sdFind (completeRoot gt) (r, a))
      ↔ ∃ a, sdFind gt (r, a) = some s) := by
    intro s
    rw [List.mem_filterMap]
    constructor
    · rintro ⟨a, _, hfa⟩
      exact ⟨a, (hrow a s).mp hfa⟩
    · rintro ⟨a, hfa⟩
      refine ⟨a, ?_, (hrow a s).mpr hfa⟩
      rw [alphabetL, List.mem_range]
      exact hgb (r, a) s hfa
  have hCnd : (alphabetL.filterMap (fun a => sdFind (completeRoot gt) (r, a))).Nodup := by
    refine List.Nodup.filterMap ?_ (by rw [alphabetL]; exact List.nodup_range 256)
    intro a a2 s h1 h2
    have h1b : sdFind gt (r, a) = some s := (hrow a s).mp (Option.mem_def.mp h1)
    have h2b : sdFind gt (r, a2) = some s := (hrow a2 s).mp (Option.mem_def.mp h2)
    exact (hpu r a r a2 s h1b h2b).2
  have hCfresh : ∀ s, (∃ a, sdFind gt (r, a) = some s) → s ∉ done ∧ s ∉ st.queue := by
    rintro s ⟨a, hsa⟩
    constructor
    · intro hsd
      rcases hinv.origin s (Or.inr hsd) r a hsa with h | h
      · exact hrd h
      · omega
    · intro hsq
      rcases hinv.origin s (Or.inl hsq) r a hsa with h | h
      · exact hrd h
      · omega
  have hCbound : ∀ s, (∃ a, sdFind gt (r, a) = some s) → r < s ∧ 1 ≤ s ∧ s ≤ ns := by
    rintro s ⟨a, hsa⟩
    obtain ⟨h1, h2, h3, h4⟩ := hb (r, a) s hsa
    exact ⟨h4, h3, h2⟩
  have hmemd : ∀ x, x ∈ done ++ [r] ↔ (x ∈ done ∨ x = r) := by
    intro x
    rw [List.mem_append, List.mem_singleton]
  have hkeep : ∀ (k : Nat × Nat), k.1 ≠ r →
      sdFind (alphabetL.foldl (alg4Child (completeRoot gt) fail r)
        ⟨q, st.nextmove⟩).nextmove k = sdFind st.nextmove k :=
    fun k hk => alg4Child_foldl_keys (completeRoot gt) fail r alphabetL _ k (Or.inl hk)
  refine ⟨?_, ?_, ?_, ?_, ?_, ?_, ?_, ?_, ?_, ?_, ?_, ?_, ?_⟩
  · rw [List.nodup_append]
    refine ⟨hinv.dnodup, List.nodup_singleton r, ?_⟩
    intro x hx hx2
    rw [List.mem_singleton] at hx2
    subst hx2
    exact hrd hx
  · show (alphabetL.foldl (alg4Child (completeRoot gt) fail r) ⟨q, st.nextmove⟩).queue.Nodup
    rw [hqeq]
    rw [List.nodup_append]
    refine ⟨hqnd2, hCnd, ?_⟩
    intro x hx hx2
    exact ((hCfresh x ((hCmem x).mp hx2)).2) (hqsub x hx)
  · intro x hx
    rw [hqeq] at hx
    rw [hmemd]
    rcases List.mem_append.mp hx with h | h
    · rintro (h2 | h2)
      · exact hinv.disj x (hqsub x h) h2
      · subst h2
        exact hrq h
    · obtain ⟨hlt, _, _⟩ := hCbound x ((hCmem x).mp h)
      have hfr := hCfresh x ((hCmem x).mp h)
      rintro (h2 | h2)
      · exact hfr.1 h2
      · omega
  · intro x hx
    rw [hqeq] at hx
    rcases List.mem_append.mp hx with h | h
    · exact hinv.qmem x (hqsub x h)
    · obtain ⟨_, h1, h2⟩ := hCbound x ((hCmem x).mp h)
      exact ⟨h1, h2⟩
  · intro x hx
    rcases (hmemd x).mp hx with h | h
    · exact hinv.dmem x h
    · subst h
      exact ⟨hr1, hrns⟩
  · intro p a s hpa hp
    rw [hqeq]
    rcases (hmemd p).mp hp with h | h
    · rcases hinv.closure p a s hpa h with h2 | h2
      · exact Or.inl ((hmemd s).mpr (Or.inl h2))
      · rw [hq] at h2
        rcases List.mem_cons.mp h2 with h3 | h3
        · exact Or.inl ((hmemd s).mpr (Or.inr h3))
        · exact Or.inr (List.mem_append_left _ h3)
    · subst h
      refine Or.inr (List.mem_append_right _ ?_)
      exact (hCmem s).mpr ⟨a, hpa⟩
  · intro a s has
    rw [hqeq]
    rcases hinv.rootcov a s has with h2 | h2
    · exact Or.inl ((hmemd s).mpr (Or.inl h2))
    · rw [hq] at h2
      rcases List.mem_cons.mp h2 with h3 | h3
      · exact Or.inl ((hmemd s).mpr (Or.inr h3))
      · exact Or.inr (List.mem_append_left _ h3)
  · intro r2 hr2 a ha
    rcases (hmemd r2).mp hr2 with h | h
    · have hne : r2 ≠ r := fun he => hrd (he ▸ h)
      rw [hkeep (r2, a) hne]
      exact hinv.rows r2 h a ha
    · subst h
      exact alg4Child_foldl_row (completeRoot gt) fail r2 alphabetL _ a
        (by rw [alphabetL, List.mem_range]; exact ha)
  · intro a ha
    rw [hkeep (0, a) (by simp only; omega)]
    exact hinv.rootrow a ha
  · exact alg4Child_foldl_vbound (completeRoot gt) fail r ns
      (completeRoot_vbound gt ns hb) alphabetL _ hinv.vbound
  · intro k hk
    by_cases hkr : k.1 = r
    · exact Or.inl ((hmemd k.1).mpr (Or.inr hkr))
    · rw [hkeep k hkr] at hk
      rcases hinv.keyinv k hk with h | h
      · exact Or.inl ((hmemd k.1).mpr (Or.inl h))
      · exact Or.inr h
  · intro p a s hpa hp
    rcases hp with hp | hp
    · rcases (hmemd p).mp hp with h | h
      · have hne : p ≠ r := fun he => hrd (he ▸ h)
        rw [hkeep (p, a) hne]
        exact hinv.edgeval p a s hpa (Or.inl h)
      · subst h
        exact alg4Child_foldl_edge (completeRoot gt) fail p alphabetL _
          (by rw [alphabetL]; exact List.nodup_range 256) a
          (by rw [alphabetL, List.mem_range]; exact hgb (p, a) s hpa)
          s ((hrow a s).mpr hpa)
    · subst hp
      have hne : (0 : Nat) ≠ r := by omega
      rw [hkeep (0, a) hne]
      exact hinv.edgeval 0 a s hpa (Or.inr rfl)
  · intro x hx p a hpa
    rcases hx with hx | hx
    · rw [hqeq] at hx
      rcases List.mem_append.mp hx with h | h
      · rcases hinv.origin x (Or.inl (hqsub x h)) p a hpa with h2 | h2
        · exact Or.inl ((hmemd p).mpr (Or.inl h2))
        · exact Or.inr h2
      · obtain ⟨a0, ha0⟩ := (hCmem x).mp h
        have := hpu p a r a0 x hpa ha0
        exact Or.inl ((hmemd p).mpr (Or.inr this.1))
    · rcases (hmemd x).mp hx with h | h
      · rcases hinv.origin x (Or.inr h) p a hpa with h2 | h2
        · exact Or.inl ((hmemd p).mpr (Or.inl h2))
        · exact Or.inr h2
      · subst h
        rcases hinv.origin x (Or.inl hrmem) p a hpa with h2 | h2
        · exact Or.inl ((hmemd p).mpr (Or.inl h2))
        · exact Or.inr h2

/-- The BFS invariant holds after the initial loop of Algorithm 4, stated for
an abstract dictionary `g` that behaves like the root-completed goto. -/
theorem A4Inv_init_gen (gt g : StateDict) (ns : Nat) (hb : GotoBound gt ns)
    (hpu : ParentUnique gt) (hgb : GotoBytes gt)
    (hg1 : ∀ k s, s ≠ 0 → (sdFind g k = some s ↔ sdFind gt k = some s))
    (hg2 : ∀ b, b < 256 → (sdFind g (0, b)).isSome = true)
    (hg3 : ∀ k v, sdFind g k = some v → v ≤ ns) :
    A4Inv gt ns (alphabetL.foldl (alg4InitStep g) ⟨[], []⟩) [] := by
  have hfa : ∀ a s, ((match sdFind g (0, a) with
      | some s2 => if s2 ≠ 0 then some s2 else none
      | none => none) = some s ↔ sdFind gt (0, a) = some s) := by
    intro a s
    have hs1 : sdFind gt (0, a) = some s → s ≠ 0 := by
      intro h
      have := (hb (0, a) s h).2.2.1
      omega
    cases hga : sdFind g (0, a) with
    | none =>
      dsimp only
      constructor
      · intro h
        exact Option.noConfusion h
      · intro h
        have h2 : sdFind g (0, a) = some s := (hg1 (0, a) s (hs1 h)).mpr h
        rw [hga] at h2
        exact Option.noConfusion h2
    | some u =>
      dsimp only
      by_cases hu : u ≠ 0
      · rw [if_pos hu]
        constructor
        · intro h
          have huv := Option.some.inj h
          subst huv
          exact (hg1 (0, a) _ hu).mp hga
        · intro h
          have h2 : sdFind g (0, a) = some s := (hg1 (0, a) s (hs1 h)).mpr h
          rw [hga] at h2
          exact congrArg some (Option.some.inj h2)
      · rw [if_neg hu]
        constructor
        · intro h
          exact Option.noConfusion h
        · intro h
          have h2 : sdFind g (0, a) = some s := (hg1 (0, a) s (hs1 h)).mpr h
          rw [hga] at h2
          have := Option.some.inj h2
          exact absurd (hs1 h) (by omega)
  have hq0 : (alphabetL.foldl (alg4InitStep g) ⟨[], []⟩).queue
      = alphabetL.filterMap (fun a =>
          match sdFind g (0, a) with
          | some s => if s ≠ 0 then some s else none
          | none => none) := by
    rw [alg4Init_queue]
    exact List.nil_append _
  have hQmem : ∀ s, (s ∈ alphabetL.filterMap (fun a =>
      match sdFind g (0, a) with
      | some s2 => if s2 ≠ 0 then some s2 else none
      | none => none) ↔ ∃ a, sdFind gt (0, a) = some s) := by
    intro s
    rw [List.mem_filterMap]
    constructor
    · rintro ⟨a, _, h⟩
      exact ⟨a, (hfa a s).mp h⟩
    · rintro ⟨a, h⟩
      exact ⟨a, by rw [alphabetL, List.mem_range]; exact hgb (0, a) s h, (hfa a s).mpr h⟩
  have hrowv : ∀ (k : Nat × Nat),
      sdFind (alphabetL.foldl (alg4InitStep g) ⟨[], []⟩).nextmove k
        = if k.1 = 0 ∧ k.2 ∈ alphabetL ∧ (sdFind g (0, k.2)).isSome
          then sdFind g (0, k.2) else none := by
    intro k
    rw [alg4Init_nextmove]
    rfl
  refine ⟨List.nodup_nil, ?_, ?_, ?_, ?_, ?_, ?_, ?_, ?_, ?_, ?_, ?_, ?_⟩
  · show (alphabetL.foldl (alg4InitStep g) ⟨[], []⟩).queue.Nodup
    rw [hq0]
    refine List.Nodup.filterMap ?_ (by rw [alphabetL]; exact List.nodup_range 256)
    intro a a2 s h1 h2
    have h1b : sdFind gt (0, a) = some s := (hfa a s).mp (Option.mem_def.mp h1)
    have h2b : sdFind gt (0, a2) = some s := (hfa a2 s).mp (Option.mem_def.mp h2)
    exact (hpu 0 a 0 a2 s h1b h2b).2
  · intro x _
    exact List.not_mem_nil x
  · intro x hx
    rw [hq0] at hx
    obtain ⟨a, ha⟩ := (hQmem x).mp hx
    obtain ⟨_, h2, h3, _⟩ := hb (0, a) x ha
    exact ⟨h3, h2⟩
  · intro x hx
    exact absurd hx (List.not_mem_nil x)
  · intro p a s _ hp
    exact absurd hp (List.not_mem_nil p)
  · intro a s has
    refine Or.inr ?_
    rw [hq0]
    exact (hQmem s).mpr ⟨a, has⟩
  · intro r hr
    exact absurd hr (List.not_mem_nil r)
  · intro a ha
    rw [hrowv (0, a)]
    have hmem : a ∈ alphabetL := by rw [alphabetL, List.mem_range]; exact ha
    rw [if_pos ⟨rfl, hmem, hg2 a ha⟩]
    exact hg2 a ha
  · intro k v hkv
    rw [hrowv k] at hkv
    by_cases hc : k.1 = 0 ∧ k.2 ∈ alphabetL ∧ (sdFind g (0, k.2)).isSome
    · rw [if_pos hc] at hkv
      exact hg3 _ v hkv
    · rw [if_neg hc] at hkv
      exact Option.noConfusion hkv
  · intro k hk
    rw [hrowv k] at hk
    by_cases hc : k.1 = 0 ∧ k.2 ∈ alphabetL ∧ (sdFind g (0, k.2)).isSome
    · exact Or.inr hc.1
    · rw [if_neg hc] at hk
      exact Bool.noConfusion hk
  · intro p a s hpa hp
    rcases hp with hp | hp
    · exact absurd hp (List.not_mem_nil p)
    · subst hp
      have hs0 : s ≠ 0 := by
        have := (hb (0, a) s hpa).2.2.1
        omega
      have hg : sdFind g (0, a) = some s := (hg1 (0, a) s hs0).mpr hpa
      rw [hrowv (0, a)]
      have hmem : a ∈ alphabetL := by
        rw [alphabetL, List.mem_range]
        exact hgb (0, a) s hpa
      rw [if_pos ⟨rfl, hmem, by rw [hg]; rfl⟩]
      exact hg
  · intro x hx p a hpa
    rcases hx with hx | hx
    · rw [hq0] at hx
      obtain ⟨a0, ha0⟩ := (hQmem x).mp hx
      exact Or.inr (hpu p a 0 a0 x hpa ha0).1
    · exact absurd hx (List.not_mem_nil x)

/-- The BFS invariant holds after the initial loop of Algorithm 4. -/
theorem A4Inv_init (gt : StateDict) (ns : Nat) (hb : GotoBound gt ns)
    (hpu : ParentUnique gt) (hgb : GotoBytes gt) :
    A4Inv gt ns (alphabetL.foldl (alg4InitStep (completeRoot gt)) ⟨[], []⟩) [] :=
  A4Inv_init_gen gt (completeRoot gt) ns hb hpu hgb
    (fun k s hs => completeRoot_nonzero gt k s hs)
    (fun b hb2 => completeRoot_root_total gt b hb2)
    (completeRoot_vbound gt ns hb)

/-- With enough fuel, the BFS of Algorithm 4 only adds to the next-move table
and terminates with an empty queue in an invariant state. -/
theorem alg4Loop_total (gt : StateDict) (ns : Nat) (fail : FailDict)
    (hb : GotoBound gt ns) (hpu : ParentUnique gt) (hgb : GotoBytes gt) :
    ∀ (fuel : Nat) (st : Alg4St) (done : List Nat), A4Inv gt ns st done →
      ns ≤ done.length + fuel →
      (∀ k, (sdFind st.nextmove k).isSome = true →
        sdFind (alg4Loop (completeRoot gt) fail fuel st) k = sdFind st.nextmove k) ∧
      ∃ doneF, A4Inv gt ns ⟨[], alg4Loop (completeRoot gt) fail fuel st⟩ doneF := by
  intro fuel
  induction fuel with
  | zero =>
    intro st done hinv hfuel
    have hcount := A4Inv_count gt ns st done hinv
    have hqe : st.queue = [] := List.length_eq_zero.mp (by omega)
    exact ⟨fun k _ => rfl, done, A4Inv_empty_queue gt ns st done hinv hqe⟩
  | succ fuel ih =>
    intro st done hinv hfuel
    cases hqe : st.queue with
    | nil =>
      have hL : alg4Loop (completeRoot gt) fail (fuel + 1) st = st.nextmove := by
        rw [alg4Loop, hqe]
      rw [hL]
      exact ⟨fun k _ => rfl, done, A4Inv_empty_queue gt ns st done hinv hqe⟩
    | cons r q =>
      have hstep := A4Inv_step gt ns fail hb hpu hgb st done r q hqe hinv
      have hL : alg4Loop (completeRoot gt) fail (fuel + 1) st
          = alg4Loop (completeRoot gt) fail fuel
            (alphabetL.foldl (alg4Child (completeRoot gt) fail r) ⟨q, st.nextmove⟩) := by
        rw [alg4Loop, hqe]
      have hlen : ns ≤ (done ++ [r]).length + fuel := by
        rw [List.length_append]
        simp only [List.length_singleton]
        omega
      obtain ⟨ih1, doneF, ih2⟩ := ih _ (done ++ [r]) hstep hlen
      rw [hL]
      refine ⟨?_, doneF, ih2⟩
      intro k hk
      have hkr : k.1 ≠ r := by
        have hrmem : r ∈ st.queue := by
          rw [hqe]
          exact List.mem_cons_self _ _
        rcases hinv.keyinv k hk with h | h
        · intro he
          exact hinv.disj r hrmem (he ▸ h)
        · intro he
          have hr1 := (hinv.qmem r hrmem).1
          omega
      have hpres : sdFind (alphabetL.foldl (alg4Child (completeRoot gt) fail r)
          ⟨q, st.nextmove⟩).nextmove k = sdFind st.nextmove k :=
        alg4Child_foldl_keys (completeRoot gt) fail r alphabetL _ k (Or.inl hkr)
      rw [ih1 k (by rw [hpres]; exact hk), hpres]

/-- In a terminal invariant state every live nonroot state has been popped. -/
theorem A4Inv_cover (gt : StateDict) (ns : Nat) (nm : StateDict) (doneF : List Nat)
    (hpt : ParentTotal gt ns) (hb : GotoBound gt ns)
    (hfin : A4Inv gt ns ⟨[], nm⟩ doneF) :
    ∀ (n s : Nat), s ≤ n → 1 ≤ s → s ≤ ns → s ∈ doneF := by
  intro n
  induction n with
  | zero =>
    intro s hs hs1 _
    omega
  | succ n ih =>
    intro s hs hs1 hs2
    obtain ⟨p, a, hpa⟩ := hpt s hs1 hs2
    by_cases hp0 : p = 0
    · subst hp0
      rcases hfin.rootcov a s hpa with h | h
      · exact h
      · exact absurd h (List.not_mem_nil s)
    · obtain ⟨h1, _, _, h4⟩ := hb (p, a) s hpa
      have hps : p < s := h4
      have hpd : p ∈ doneF := ih p (by omega) (by omega) h1
      rcases hfin.closure p a s hpa hpd with h | h
      · exact h
      · exact absurd h (List.not_mem_nil s)

/-- The next-move dictionary assembled by `Scanner.build`, with the let chain
spelled out. -/
theorem build_nextmove_eq (K : List (List Nat)) :
    (Scanner.build K).nextmove
      = alg4Loop (completeRoot (trieOf K).goto)
          (alg3Loop (completeRoot (trieOf K).goto) ((trieOf K).newstate + 1)
            ((trieOf K).newstate + 1)
            (alphabetL.foldl (alg3InitStep (completeRoot (trieOf K).goto))
              ⟨[], [], (trieOf K).output⟩)).1
          ((trieOf K).newstate + 1)
          (alphabetL.foldl (alg4InitStep (completeRoot (trieOf K).goto)) ⟨[], []⟩) := by
  unfold Scanner.build
  with_reducible rfl

/-- The packed array assembled by `Scanner.build`, with the let chain spelled
out. -/
theorem build_nm_arr_eq (K : List (List Nat)) :
    (Scanner.build K).nm_arr
      = mkNmArr (nmValues
          (alg4Loop (completeRoot (trieOf K).goto)
            (alg3Loop (completeRoot (trieOf K).goto) ((trieOf K).newstate + 1)
              ((trieOf K).newstate + 1)
              (alphabetL.foldl (alg3InitStep (completeRoot (trieOf K).goto))
                ⟨[], [], (trieOf K).output⟩)).1
            ((trieOf K).newstate + 1)
            (alphabetL.foldl (alg4InitStep (completeRoot (trieOf K).goto)) ⟨[], []⟩))
          (trieOf K).newstate) := by
  unfold Scanner.build
  with_reducible rfl

/-- `nm_arr` packs the flattening of the scanner's own next-move dictionary. -/
theorem build_nm_arr_nextmove (K : List (List Nat)) :
    (Scanner.build K).nm_arr
      = mkNmArr (nmValues (Scanner.build K).nextmove (trieOf K).newstate) := by
  rw [build_nextmove_eq K]
  exact build_nm_arr_eq K

/-- Totality, value bounds and edge fidelity of a terminal invariant
next-move dictionary. -/
theorem A4Inv_final_props (gt : StateDict) (ns : Nat) (nm : StateDict) (doneF : List Nat)
    (hpt : ParentTotal gt ns) (hb : GotoBound gt ns)
    (hfin : A4Inv gt ns ⟨[], nm⟩ doneF) :
    (∀ s a, s ≤ ns → a < 256 → (sdFind nm (s, a)).isSome = true) ∧
    (∀ k v, sdFind nm k = some v → v ≤ ns) ∧
    (∀ p a s, sdFind gt (p, a) = some s → sdFind nm (p, a) = some s) := by
  have hcov := A4Inv_cover gt ns nm doneF hpt hb hfin
  refine ⟨?_, ?_, ?_⟩
  · intro s a hs ha
    by_cases hs0 : s = 0
    · subst hs0
      exact hfin.rootrow a ha
    · exact hfin.rows s (hcov s s (Nat.le_refl s) (by omega) hs) a ha
  · intro k v hkv
    exact hfin.vbound k v hkv
  · intro p a s hpa
    by_cases hp0 : p = 0
    · subst hp0
      exact hfin.edgeval 0 a s hpa (Or.inr rfl)
    · have hple : p ≤ ns := (hb (p, a) s hpa).1
      exact hfin.edgeval p a s hpa
        (Or.inl (hcov p p (Nat.le_refl p) (by omega) hple))

/-- Totality, value bounds and edge fidelity of the compiled next-move table. -/
theorem build_nextmove_props (K : List (List Nat))
    (hbytes : ∀ k ∈ K, ∀ c ∈ k, c < 256) :
    (∀ s a, s ≤ (trieOf K).newstate → a < 256 →
      (sdFind (Scanner.build K).nextmove (s, a)).isSome = true) ∧
    (∀ k v, sdFind (Scanner.build K).nextmove k = some v → v ≤ (trieOf K).newstate) ∧
    (∀ p a s, sdFind (trieOf K).goto (p, a) = some s →
      sdFind (Scanner.build K).nextmove (p, a) = some s) := by
  have htb : TrieBound (trieOf K) := TrieBound_foldl K ⟨[], [], 0⟩ TrieBound_empty
  have hpu := trieOf_parentUnique K
  have hpt := trieOf_parentTotal K
  have hgb := trieOf_bytes K hbytes
  have hinit := A4Inv_init (trieOf K).goto (trieOf K).newstate htb hpu hgb
  obtain ⟨hpres, doneF, hfin⟩ := alg4Loop_total (trieOf K).goto (trieOf K).newstate
    (alg3Loop (completeRoot (trieOf K).goto) ((trieOf K).newstate + 1)
      ((trieOf K).newstate + 1)
      (alphabetL.foldl (alg3InitStep (completeRoot (trieOf K).goto))
        ⟨[], [], (trieOf K).output⟩)).1
    htb hpu hgb ((trieOf K).newstate + 1)
    (alphabetL.foldl (alg4InitStep (completeRoot (trieOf K).goto)) ⟨[], []⟩) []
    hinit (by simp)
  obtain ⟨h1, h2, h3⟩ := A4Inv_final_props (trieOf K).goto (trieOf K).newstate _ doneF
    hpt htb hfin
  rw [build_nextmove_eq K]
  exact ⟨h1, h2, h3⟩

/-- Indexing a flat-mapped list of uniform 256-length rows. -/
theorem flatMap_getD_uniform (f : Nat → List Nat) (hlen : ∀ x, (f x).length = 256) :
    ∀ (l : List Nat) (i b : Nat) (hi : i < l.length), b < 256 →
      (l.flatMap f).getD (i * 256 + b) 0 = (f (l.get ⟨i, hi⟩)).getD b 0 := by
  intro l
  induction l with
  | nil =>
    intro i b hi _
    exact absurd hi (by simp)
  | cons x l ih =>
    intro i b hi hb
    rw [List.flatMap_cons]
    cases i with
    | zero =>
      rw [Nat.zero_mul, Nat.zero_add]
      rw [List.getD_append _ _ _ _ (by rw [hlen x]; exact hb)]
      rfl
    | succ j =>
      have hidx : (j + 1) * 256 + b = (f x).length + (j * 256 + b) := by
        rw [hlen x]
        ring
      rw [hidx, List.getD_append_right _ _ _ _ (Nat.le_add_right _ _)]
      rw [Nat.add_sub_cancel_left]
      have hj : j < l.length := by
        rw [List.length_cons] at hi
        omega
      rw [ih j b hj hb]
      rfl

/-- The packed array keeps its value list under both typecodes. -/
theorem mkNmArr_vals (vals : List Nat) : (mkNmArr vals).vals = vals := by
  rw [mkNmArr]
  split <;> rfl

/-- Indexing the packed array is indexing the flattened value list. -/
theorem NmArr_get_mkNmArr (vals : List Nat) (i : Nat) :
    (mkNmArr vals).get i = vals.getD i 0 := by
  rw [NmArr.get, mkNmArr_vals]

/-- The cell of the flattened next-move list at `s * 256 + a`. -/
theorem nmValues_getD (nm : StateDict) (ns s a : Nat) (hs : s ≤ ns) (ha : a < 256) :
    (nmValues nm ns).getD (s * 256 + a) 0 = (sdFind nm (s, a)).getD 0 := by
  rw [nmValues]
  have hlen : ∀ x : Nat, ((fun s2 => alphabetL.map
      (fun a2 => (sdFind nm (s2, a2)).getD 0)) x).length = 256 := by
    intro x
    rw [List.length_map, alphabetL, List.length_range]
  have hsr : s < (List.range (ns + 1)).length := by
    rw [List.length_range]
    omega
  rw [flatMap_getD_uniform _ hlen (List.range (ns + 1)) s a hsr ha]
  have hget : (List.range (ns + 1)).get ⟨s, hsr⟩ = s := List.get_range _ _
  rw [hget]
  have hmap : ∀ s2, (alphabetL.map (fun a2 => (sdFind nm (s2, a2)).getD 0)).getD a 0
      = (sdFind nm (s2, a)).getD 0 := by
    intro s2
    have h1 : alphabetL = List.range 256 := rfl
    rw [h1]
    have hlt : a < ((List.range 256).map (fun a2 => (sdFind nm (s2, a2)).getD 0)).length := by
      rw [List.length_map, List.length_range]
      exact ha
    rw [List.getD_eq_getElem _ _ hlt, List.getElem_map, List.getElem_range]
  exact hmap s

/-- Every flattened value is bounded by the bound on the dictionary values. -/
theorem nmValues_all_le (nm : StateDict) (ns : Nat)
    (hv : ∀ k v, sdFind nm k = some v → v ≤ ns) :
    ∀ x ∈ nmValues nm ns, x ≤ ns := by
  intro x hx
  rw [nmValues, List.mem_flatMap] at hx
  obtain ⟨s, _, hx2⟩ := hx
  rw [List.mem_map] at hx2
  obtain ⟨a, _, rfl⟩ := hx2
  cases h : sdFind nm (s, a) with
  | none => exact Nat.zero_le _
  | some v => exact hv _ v h

/-- A stored dictionary value appears among the flattened values. -/
theorem nmValues_mem (nm : StateDict) (ns s a v : Nat) (hs : s ≤ ns) (ha : a < 256)
    (h : sdFind nm (s, a) = some v) : v ∈ nmValues nm ns := by
  rw [nmValues, List.mem_flatMap]
  refine ⟨s, by rw [List.mem_range]; omega, ?_⟩
  rw [List.mem_map]
  exact ⟨a, by rw [alphabetL, List.mem_range]; exact ha, by rw [h]; rfl⟩

/-- C7 : the packed next-move array `nm_arr` is built with the 16-bit
unsigned element type exactly when every state index fits in 16 bits, falling
back to the wider unsigned element type otherwise, and in both cases the cell
at `state * 256 + byte` equals `nextmove[(state, byte)]` for every live state
and every byte. -/
theorem nm_arr_packing (K : List (List Nat)) (hbytes : ∀ k ∈ K, ∀ c ∈ k, c < 256) :
    ((trieOf K).newstate < 65536 →
      (Scanner.build K).nm_arr
        = NmArr.arrH (nmValues (Scanner.build K).nextmove (trieOf K).newstate)) ∧
    (65536 ≤ (trieOf K).newstate →
      (Scanner.build K).nm_arr
        = NmArr.arrL (nmValues (Scanner.build K).nextmove (trieOf K).newstate)) ∧
    (∀ s a, s ≤ (trieOf K).newstate → a < 256 →
      ∃ v, sdFind (Scanner.build K).nextmove (s, a) = some v ∧
        (Scanner.build K).nm_arr.get (s * 256 + a) = v) := by
  obtain ⟨htot, hvb, hedge⟩ := build_nextmove_props K hbytes
  have harr := build_nm_arr_nextmove K
  refine ⟨?_, ?_, ?_⟩
  · intro hns
    have hall : (nmValues (Scanner.build K).nextmove (trieOf K).newstate).all
        (fun v => decide (v < 65536)) = true := by
      rw [List.all_eq_true]
      intro x hx
      rw [decide_eq_true_eq]
      have := nmValues_all_le _ _ hvb x hx
      omega
    rw [harr, mkNmArr, if_pos hall]
  · intro hns
    obtain ⟨p, a, hpa⟩ := trieOf_parentTotal K (trieOf K).newstate (by omega)
      (Nat.le_refl _)
    have hcell := hedge p a (trieOf K).newstate hpa
    have hmem2 : (trieOf K).newstate
        ∈ nmValues (Scanner.build K).nextmove (trieOf K).newstate := by
      refine nmValues_mem _ _ p a _ ?_ ?_ hcell
      · exact (TrieBound_foldl K ⟨[], [], 0⟩ TrieBound_empty (p, a) _ hpa).1
      · exact trieOf_bytes K hbytes (p, a) _ hpa
    have hall : (nmValues (Scanner.build K).nextmove (trieOf K).newstate).all
        (fun v => decide (v < 65536)) = false := by
      rw [List.all_eq_false]
      refine ⟨(trieOf K).newstate, hmem2, ?_⟩
      rw [decide_eq_true_eq]
      omega
    rw [harr, mkNmArr, hall]
    rfl
  · intro s a hs ha
    have hisme := htot s a hs ha
    cases hsf : sdFind (Scanner.build K).nextmove (s, a) with
    | none =>
      rw [hsf] at hisme
      exact Bool.noConfusion hisme
    | some v =>
      refine ⟨v, rfl, ?_⟩
      rw [harr, NmArr_get_mkNmArr, nmValues_getD _ _ s a hs ha, hsf]
      rfl

theorem nm_arr_packing_witness :
    (∀ k ∈ [[97], [98, 99]], ∀ c ∈ k, c < 256) ∧
    (((trieOf [[97], [98, 99]]).newstate < 65536 →
      (Scanner.build [[97], [98, 99]]).nm_arr
        = NmArr.arrH (nmValues (Scanner.build [[97], [98, 99]]).nextmove
            (trieOf [[97], [98, 99]]).newstate)) ∧
     (65536 ≤ (trieOf [[97], [98, 99]]).newstate →
      (Scanner.build [[97], [98, 99]]).nm_arr
        = NmArr.arrL (nmValues (Scanner.build [[97], [98, 99]]).nextmove
            (trieOf [[97], [98, 99]]).newstate)) ∧
     (∀ s a, s ≤ (trieOf [[97], [98, 99]]).newstate → a < 256 →
      ∃ v, sdFind (Scanner.build [[97], [98, 99]]).nextmove (s, a) = some v ∧
        (Scanner.build [[97], [98, 99]]).nm_arr.get (s * 256 + a) = v)) :=
  ⟨by decide, nm_arr_packing [[97], [98, 99]] (by decide)⟩

theorem nextmove_root_row_witness :
    (97 : Nat) < 256 ∧
      ∃ v, sdFind (Scanner.build [[97], [98, 99]]).nextmove (0, 97) = some v ∧
        (v = 0 ↔ ¬ ∃ k ∈ [[97], [98, 99]], k.head? = some 97) :=
  ⟨by decide, nextmove_root_row [[97], [98, 99]] 97 (by decide)⟩

/-! ## C1 : search counts substring occurrences -/

theorem consumedB_nil (g : StateDict) : consumedB g [] = true := rfl

theorem stOf_nil (g : StateDict) : stOf g [] = 0 := rfl

/-- A consumed walk in packaged form. -/
theorem gotoWalk_full_of_consumed (g : StateDict) (u : List Nat)
    (h : consumedB g u = true) : gotoWalk g 0 u = (stOf g u, []) := by
  rw [consumedB, decide_eq_true_eq] at h
  exact Prod.ext rfl h

/-- If a walk consumes a concatenation it consumes the first part. -/
theorem gotoWalk_drop_suffix (g : StateDict) :
    ∀ (u : List Nat) (s : Nat) (v : List Nat),
      (gotoWalk g s (u ++ v)).2 = [] → (gotoWalk g s u).2 = [] := by
  intro u
  induction u with
  | nil => intro s v _; rfl
  | cons c r ih =>
    intro s v h
    rw [List.cons_append] at h
    cases hg : sdFind g (s, c) with
    | none =>
      simp only [gotoWalk, hg] at h
      exact absurd h (List.cons_ne_nil _ _)
    | some s2 =>
      simp only [gotoWalk, hg] at h ⊢
      exact ih s2 v h

/-- Prefix closure of consumption. -/
theorem consumedB_append_left (g : StateDict) (u v : List Nat)
    (h : consumedB g (u ++ v) = true) : consumedB g u = true := by
  rw [consumedB, decide_eq_true_eq] at h ⊢
  exact gotoWalk_drop_suffix g u 0 v h

/-- Extending a consumed word along an existing edge. -/
theorem consumedB_step (g : StateDict) (u : List Nat) (c s : Nat)
    (hu : consumedB g u = true) (he : sdFind g (stOf g u, c) = some s) :
    consumedB g (u ++ [c]) = true ∧ stOf g (u ++ [c]) = s := by
  have happ := gotoWalk_append g u [c] 0 (stOf g u) (gotoWalk_full_of_consumed g u hu)
  have h1 : gotoWalk g (stOf g u) [c] = (s, []) := by
    simp only [gotoWalk, he]
  constructor
  · rw [consumedB, decide_eq_true_eq, happ, h1]
  · rw [stOf, happ, h1]

/-- A missing edge stops the walk. -/
theorem consumedB_step_none (g : StateDict) (u : List Nat) (c : Nat)
    (hu : consumedB g u = true) (he : sdFind g (stOf g u, c) = none) :
    consumedB g (u ++ [c]) = false := by
  have happ := gotoWalk_append g u [c] 0 (stOf g u) (gotoWalk_full_of_consumed g u hu)
  rw [consumedB, decide_eq_false_iff_not]
  intro h2
  rw [happ] at h2
  simp only [gotoWalk, he] at h2
  exact List.cons_ne_nil c [] h2

/-- Last-edge decomposition of a consumed word. -/
theorem consumedB_concat (g : StateDict) (u : List Nat) (c : Nat)
    (h : consumedB g (u ++ [c]) = true) :
    consumedB g u = true ∧ sdFind g (stOf g u, c) = some (stOf g (u ++ [c])) := by
  have hu : consumedB g u = true := consumedB_append_left g u [c] h
  refine ⟨hu, ?_⟩
  cases he : sdFind g (stOf g u, c) with
  | none =>
    have h2 := consumedB_step_none g u c hu he
    rw [h] at h2
    exact Bool.noConfusion h2
  | some s =>
    have h2 := (consumedB_step g u c s hu he).2
    rw [h2]

/-- States stay within the live range. -/
theorem stOf_le (g : StateDict) (ns : Nat) (hb : GotoBound g ns) (u : List Nat) :
    stOf g u ≤ ns :=
  gotoWalk_state_le g ns hb u 0 (Nat.zero_le _)

/-- A consumed word is no longer than its state index. -/
theorem length_le_stOf (g : StateDict) (ns : Nat) (hb : GotoBound g ns) :
    ∀ (u : List Nat), consumedB g u = true → u.length ≤ stOf g u := by
  intro u
  induction u using List.reverseRecOn with
  | nil => exact fun _ => Nat.le_refl 0
  | append_singleton u c ih =>
    intro h
    obtain ⟨hu, he⟩ := consumedB_concat g u c h
    have hlt : stOf g u < stOf g (u ++ [c]) := (hb _ _ he).2.2.2
    have := ih hu
    rw [List.length_append]
    simp only [List.length_singleton]
    omega

/-- Only the empty word reaches the root. -/
theorem stOf_eq_zero (g : StateDict) (ns : Nat) (hb : GotoBound g ns) (u : List Nat)
    (hu : consumedB g u = true) (h : stOf g u = 0) : u = [] := by
  have hw := gotoWalk_full_of_consumed g u hu
  rw [h] at hw
  exact ((gotoWalk_eq_zero g ns hb u 0 [] hw).2).symm

/-- Nonempty consumed words reach nonroot states. -/
theorem stOf_pos (g : StateDict) (ns : Nat) (hb : GotoBound g ns) (u : List Nat)
    (hu : consumedB g u = true) (hne : u ≠ []) : 1 ≤ stOf g u := by
  by_cases h : stOf g u = 0
  · exact absurd (stOf_eq_zero g ns hb u hu h) hne
  · omega

/-- Distinct consumed words reach distinct states. -/
theorem stOf_inj (g : StateDict) (ns : Nat) (hb : GotoBound g ns)
    (hpu : ParentUnique g) :
    ∀ (n : Nat) (u v : List Nat), u.length ≤ n → v.length ≤ n →
      consumedB g u = true → consumedB g v = true → stOf g u = stOf g v → u = v := by
  intro n
  induction n with
  | zero =>
    intro u v hlu hlv _ _ _
    have h1 : u = [] := List.length_eq_zero.mp (by omega)
    have h2 : v = [] := List.length_eq_zero.mp (by omega)
    rw [h1, h2]
  | succ n ih =>
    intro u v hlu hlv hcu hcv hst
    by_cases hz : stOf g u = 0
    · have hu0 := stOf_eq_zero g ns hb u hcu hz
      have hv0 := stOf_eq_zero g ns hb v hcv (by rw [← hst]; exact hz)
      rw [hu0, hv0]
    · have hune : u ≠ [] := by
        intro h
        subst h
        exact hz (stOf_nil g)
      have hvne : v ≠ [] := by
        intro h
        subst h
        rw [stOf_nil] at hst
        exact hz hst
      obtain ⟨u2, c, hu2⟩ := (List.eq_nil_or_concat u).resolve_left hune
      rw [List.concat_eq_append] at hu2
      subst hu2
      obtain ⟨v2, d, hv2⟩ := (List.eq_nil_or_concat v).resolve_left hvne
      rw [List.concat_eq_append] at hv2
      subst hv2
      obtain ⟨hcu2, heu⟩ := consumedB_concat g u2 c hcu
      obtain ⟨hcv2, hev⟩ := consumedB_concat g v2 d hcv
      rw [hst] at heu
      obtain ⟨hp, hc⟩ := hpu (stOf g u2) c (stOf g v2) d _ heu hev
      subst hc
      have hlu2 : u2.length ≤ n := by
        rw [List.length_append] at hlu
        simp only [List.length_singleton] at hlu
        omega
      have hlv2 : v2.length ≤ n := by
        rw [List.length_append] at hlv
        simp only [List.length_singleton] at hlv
        omega
      rw [ih u2 v2 hlu2 hlv2 hcu2 hcv2 hp]

/-! ### Longest-consumed-suffix theory -/

theorem lsufT_nil (g : StateDict) : lsufT g [] = [] := rfl

/-- Recursion of the longest consumed suffix. -/
theorem lsufT_cons (g : StateDict) (c : Nat) (w : List Nat) :
    lsufT g (c :: w) = if consumedB g (c :: w) = true then c :: w else lsufT g w := by
  by_cases h : consumedB g (c :: w) = true
  · rw [if_pos h, lsufT, List.tails_cons, List.find?_cons_of_pos _ h]
    rfl
  · rw [if_neg h, lsufT, lsufT, List.tails_cons,
      List.find?_cons_of_neg _ (by simpa using h)]

/-- The longest consumed suffix is a consumed suffix. -/
theorem lsufT_suffix (g : StateDict) : ∀ (w : List Nat),
    lsufT g w <:+ w ∧ consumedB g (lsufT g w) = true := by
  intro w
  induction w with
  | nil =>
    rw [lsufT_nil]
    exact ⟨List.suffix_refl _, consumedB_nil g⟩
  | cons c w ih =>
    rw [lsufT_cons]
    by_cases h : consumedB g (c :: w) = true
    · rw [if_pos h]
      exact ⟨List.suffix_refl _, h⟩
    · rw [if_neg h]
      exact ⟨ih.1.trans (List.suffix_cons c w), ih.2⟩

/-- Every consumed suffix is a suffix of the longest one. -/
theorem lsufT_max (g : StateDict) : ∀ (w v : List Nat), v <:+ w →
    consumedB g v = true → v <:+ lsufT g w := by
  intro w
  induction w with
  | nil =>
    intro v hv _
    rw [lsufT_nil]
    exact hv
  | cons c w ih =>
    intro v hv hc
    rw [lsufT_cons]
    by_cases h : consumedB g (c :: w) = true
    · rw [if_pos h]
      exact hv
    · rw [if_neg h]
      rcases List.suffix_cons_iff.mp hv with h2 | h2
      · rw [h2] at hc
        exact absurd hc h
      · exact ih v h2 hc

/-- Characterization of the longest consumed suffix. -/
theorem lsufT_eq_of (g : StateDict) (w x : List Nat) (hsuf : x <:+ w)
    (hcons : consumedB g x = true)
    (hmax : ∀ y, y <:+ w → consumedB g y = true → y <:+ x) : lsufT g w = x := by
  have h1 : x <:+ lsufT g w := lsufT_max g w x hsuf hcons
  have h2 : lsufT g w <:+ x := hmax _ (lsufT_suffix g w).1 (lsufT_suffix g w).2
  exact h2.eq_of_length (Nat.le_antisymm h2.length_le h1.length_le)

/-- A consumed word is its own longest consumed suffix. -/
theorem lsufT_of_consumed (g : StateDict) (w : List Nat)
    (h : consumedB g w = true) : lsufT g w = w :=
  lsufT_eq_of g w w (List.suffix_refl _) h (fun y hy _ => hy)

/-- Of two suffixes of the same word, the shorter is a suffix of the longer. -/
theorem suffix_eq_of_length (u x w : List Nat) (hu : u <:+ w) (hx : x <:+ w)
    (hl : u.length = x.length) : u = x := by
  rw [List.suffix_iff_eq_drop] at hu hx
  rw [hu, hx, hl]

/-- Of two suffixes of the same word, the shorter is a suffix of the longer. -/
theorem suffix_trichotomy (u v w : List Nat) (hu : u <:+ w) (hv : v <:+ w)
    (hl : u.length ≤ v.length) : u <:+ v := by
  have hsub : v.drop (v.length - u.length) <:+ v := List.drop_suffix _ _
  have hlen : (v.drop (v.length - u.length)).length = u.length := by
    rw [List.length_drop]
    omega
  have he : u = v.drop (v.length - u.length) :=
    suffix_eq_of_length u _ w hu (hsub.trans hv) hlen.symm
  rw [he]
  exact hsub

/-- A proper suffix is a suffix of the tail. -/
theorem proper_suffix_drop_one (x u : List Nat) (hx : x <:+ u) (hne : x ≠ u) :
    x <:+ u.drop 1 := by
  have hlt : x.length < u.length := by
    rcases Nat.lt_or_ge x.length u.length with h | h
    · exact h
    · exact absurd (hx.eq_of_length (Nat.le_antisymm hx.length_le h)) hne
  refine suffix_trichotomy x (u.drop 1) u hx (List.drop_suffix 1 u) ?_
  rw [List.length_drop]
  omega

/-- Appending on the right preserves the suffix relation. -/
theorem suffix_append_same (u v t : List Nat) (h : u <:+ v) : u ++ t <:+ v ++ t := by
  obtain ⟨s, hs⟩ := h
  exact ⟨s, by rw [← List.append_assoc, hs]⟩

/-- A nonempty suffix of `w ++ [a]` ends in `a` over a suffix of `w`. -/
theorem suffix_concat_decomp (y w : List Nat) (a : Nat) (h : y <:+ w ++ [a])
    (hne : y ≠ []) : ∃ y2, y = y2 ++ [a] ∧ y2 <:+ w := by
  have hylen : 1 ≤ y.length := by
    cases y with
    | nil => exact absurd rfl hne
    | cons c r => simp
  have hle : (w ++ [a]).length - y.length ≤ w.length := by
    rw [List.length_append]
    simp only [List.length_singleton]
    omega
  rw [List.suffix_iff_eq_drop] at h
  have h2 : y = w.drop ((w ++ [a]).length - y.length) ++ [a] := by
    conv_lhs => rw [h]
    rw [List.drop_append_of_le_length hle]
  exact ⟨w.drop ((w ++ [a]).length - y.length), h2, List.drop_suffix _ _⟩

/-- Extending by one byte only consults the longest consumed suffix. -/
theorem lsufT_append_lsufT (g : StateDict) (w : List Nat) (a : Nat) :
    lsufT g (w ++ [a]) = lsufT g (lsufT g w ++ [a]) := by
  have hlw := lsufT_suffix g w
  have hin := lsufT_suffix g (lsufT g w ++ [a])
  refine lsufT_eq_of g (w ++ [a]) _ ?_ hin.2 ?_
  · exact hin.1.trans (suffix_append_same _ _ _ hlw.1)
  · intro y hy hyc
    by_cases hye : y = []
    · subst hye
      exact List.nil_suffix
    · obtain ⟨y2, rfl, hy2⟩ := suffix_concat_decomp y w a hy hye
      have hy2c : consumedB g y2 = true := consumedB_append_left g y2 [a] hyc
      have h3 : y2 <:+ lsufT g w := lsufT_max g w y2 hy2 hy2c
      exact lsufT_max g (lsufT g w ++ [a]) _ (suffix_append_same _ _ _ h3) hyc

/-- When the direct extension is not consumed, the longest consumed suffix of
the extension descends to the longest proper consumed suffix. -/
theorem lsufT_append_psufT (g : StateDict) (v : List Nat) (a : Nat)
    (hnc : consumedB g (v ++ [a]) = false) :
    lsufT g (v ++ [a]) = lsufT g (psufT g v ++ [a]) := by
  have hps := lsufT_suffix g (v.drop 1)
  have hin := lsufT_suffix g (psufT g v ++ [a])
  refine lsufT_eq_of g (v ++ [a]) _ ?_ hin.2 ?_
  · refine hin.1.trans (suffix_append_same _ _ _ ?_)
    exact hps.1.trans (List.drop_suffix 1 v)
  · intro y hy hyc
    by_cases hye : y = []
    · subst hye
      exact List.nil_suffix
    · obtain ⟨y2, rfl, hy2⟩ := suffix_concat_decomp y v a hy hye
      have hy2c : consumedB g y2 = true := consumedB_append_left g y2 [a] hyc
      have hy2v : y2 ≠ v := by
        intro he
        subst he
        rw [hyc] at hnc
        exact Bool.noConfusion hnc
      have h3 : y2 <:+ v.drop 1 := proper_suffix_drop_one y2 v hy2 hy2v
      have h4 : y2 <:+ psufT g v := lsufT_max g (v.drop 1) y2 h3 hy2c
      exact lsufT_max g (psufT g v ++ [a]) _ (suffix_append_same _ _ _ h4) hyc

/-- The `while (state,a) not in goto` descent of Algorithm 3 computes the
state of the longest consumed suffix of the extension `v ++ [a]`, provided the
failure links below `v` are already correct. -/
theorem failDescend_correct (gt : StateDict) (ns : Nat) (hb : GotoBound gt ns)
    (fail : FailDict) (a : Nat) (ha : a < 256) :
    ∀ (fuel : Nat) (v : List Nat), consumedB gt v = true → v.length < fuel →
      (∀ x, consumedB gt x = true → x ≠ [] → x.length ≤ v.length →
        fdFind fail (stOf gt x) = some (stOf gt (psufT gt x))) →
      (sdFind (completeRoot gt)
          (failDescend (completeRoot gt) fail fuel (stOf gt v) a, a)).getD 0
        = stOf gt (lsufT gt (v ++ [a])) := by
  intro fuel
  induction fuel with
  | zero =>
    intro v _ h _
    omega
  | succ fuel ih =>
    intro v hv hlen hfail
    rw [failDescend]
    cases hge : sdFind (completeRoot gt) (stOf gt v, a) with
    | some s =>
      rw [if_neg (fun h => Option.noConfusion h), hge]
      by_cases hvz : v = []
      · subst hvz
        cases hgt : sdFind gt (0, a) with
        | some s2 =>
          have he2 : sdFind gt (stOf gt [], a) = some s2 := hgt
          obtain ⟨hc2, hs2⟩ := consumedB_step gt [] a s2 (consumedB_nil gt) he2
          rw [lsufT_of_consumed gt _ hc2, hs2]
          have hgc : sdFind (completeRoot gt) (0, a) = some s2 := by
            rw [completeRoot_nonzero gt (0, a) s2 (by
              have := (hb (0, a) s2 hgt).2.2.1
              omega)]
            exact hgt
          have hss : s = s2 := by
            rw [stOf_nil] at hge
            rw [hgc] at hge
            exact (Option.some.inj hge).symm
          rw [hss]
          rfl
        | none =>
          have hgc : sdFind (completeRoot gt) (0, a) = some 0 := by
            rw [completeRoot, completeRoot_foldl_lookup]
            rw [if_pos ⟨rfl, by rw [alphabetL, List.mem_range]; exact ha, hgt⟩]
          have hss : s = 0 := by
            rw [stOf_nil] at hge
            rw [hgc] at hge
            exact (Option.some.inj hge).symm
          have he2 : sdFind gt (stOf gt [], a) = none := hgt
          have hnc2 : consumedB gt [a] = false :=
            consumedB_step_none gt [] a (consumedB_nil gt) he2
          have hl : lsufT gt ([] ++ [a]) = [] := by
            rw [List.nil_append, lsufT_cons]
            rw [if_neg (by rw [hnc2]; exact Bool.false_ne_true)]
            exact lsufT_nil gt
          rw [hl, stOf_nil, hss]
          rfl
      · have hst1 : 1 ≤ stOf gt v := stOf_pos gt ns hb v hv hvz
        have hgt : sdFind gt (stOf gt v, a) = some s := by
          rw [← completeRoot_nonroot gt (stOf gt v, a) (by simp only; omega)]
          exact hge
        obtain ⟨hc2, hs2⟩ := consumedB_step gt v a s hv hgt
        rw [lsufT_of_consumed gt _ hc2, hs2]
        rfl
    | none =>
      rw [if_pos rfl]
      have hvz : v ≠ [] := by
        intro h
        subst h
        rw [stOf_nil] at hge
        have h2 := completeRoot_root_total gt a ha
        rw [hge] at h2
        exact Bool.noConfusion h2
      have hvpos : 1 ≤ v.length := by
        cases v with
        | nil => exact absurd rfl hvz
        | cons c r => simp
      have hst1 : 1 ≤ stOf gt v := stOf_pos gt ns hb v hv hvz
      have hgtn : sdFind gt (stOf gt v, a) = none := by
        rw [← completeRoot_nonroot gt (stOf gt v, a) (by simp only; omega)]
        exact hge
      have hnc : consumedB gt (v ++ [a]) = false := consumedB_step_none gt v a hv hgtn
      rw [hfail v hv hvz (Nat.le_refl _)]
      have hps : consumedB gt (psufT gt v) = true := (lsufT_suffix gt (v.drop 1)).2
      have hple : (psufT gt v).length ≤ v.length - 1 := by
        have h1 := (lsufT_suffix gt (v.drop 1)).1.length_le
        rw [List.length_drop] at h1
        exact h1
      have hplen : (psufT gt v).length < fuel := by omega
      have hrec := ih (psufT gt v) hps hplen
        (fun x hx hxe hxl => hfail x hx hxe (by omega))
      rw [show (some (stOf gt (psufT gt v))).getD 0 = stOf gt (psufT gt v) from rfl]
      rw [hrec, ← lsufT_append_psufT gt v a hnc]

/-! ### Algorithm 2 output characterization -/

/-- Reading an output entry other than the one freshly added. -/
theorem outGet_outAdd_of_ne (out : OutMap) (s s2 : Nat) (k : List Nat) (h : s2 ≠ s) :
    outGet (outAdd out s k) s2 = outGet out s2 := by
  rw [outAdd]
  by_cases h2 : k ∈ outGet out s
  · rw [if_pos h2]
  · rw [if_neg h2]
    exact outGet_cons_ne out s2 s _ (fun he => h he.symm)

/-- Reading the freshly added output entry. -/
theorem outGet_outAdd_self_eq (out : OutMap) (s : Nat) (k : List Nat) :
    outGet (outAdd out s k) s
      = if k ∈ outGet out s then outGet out s else outGet out s ++ [k] := by
  rw [outAdd]
  by_cases h2 : k ∈ outGet out s
  · rw [if_pos h2, if_pos h2]
  · rw [if_neg h2, if_neg h2, outGet_cons_self]

/-- Consumption and the reached state are stable when a keyword is entered. -/
theorem consumedB_mono (t : Trie) (a : List Nat) (hb : TrieBound t) (u : List Nat)
    (h : consumedB t.goto u = true) :
    consumedB (enterKeyword t a).goto u = true ∧
    stOf (enterKeyword t a).goto u = stOf t.goto u := by
  have hw := gotoWalk_full_of_consumed t.goto u h
  have hw2 := gotoWalk_full_mono t.goto (enterKeyword t a).goto
    (enterKeyword_goto_preserves t a hb) u 0 (stOf t.goto u) hw
  constructor
  · rw [consumedB, decide_eq_true_eq, hw2]
  · rw [stOf, hw2]

/-- The final state of the extension loop. -/
theorem gotoExtend_final :
    ∀ (rest : List Nat) (g : StateDict) (ns s : Nat),
      (gotoExtend g ns s rest).2.2 = if rest = [] then s else ns + rest.length := by
  intro rest
  induction rest with
  | nil => intro g ns s; rfl
  | cons c r ih =>
    intro g ns s
    rw [gotoExtend, ih]
    by_cases hr : r = []
    · rw [if_pos hr, if_neg (List.cons_ne_nil c r)]
      subst hr
      rfl
    · rw [if_neg hr, if_neg (List.cons_ne_nil c r)]
      simp only [List.length_cons]
      omega

/-- Entering a keyword makes it consumed, ending at the extension's final
state. -/
theorem enterKeyword_consumes (t : Trie) (a : List Nat) (hb : TrieBound t) :
    consumedB (enterKeyword t a).goto a = true ∧
    stOf (enterKeyword t a).goto a
      = (gotoExtend t.goto t.newstate (gotoWalk t.goto 0 a).1 (gotoWalk t.goto 0 a).2).2.2 := by
  have hws1 : (gotoWalk t.goto 0 a).1 ≤ t.newstate :=
    gotoWalk_state_le t.goto t.newstate hb a 0 (Nat.zero_le _)
  obtain ⟨con, hEq, hW⟩ := gotoWalk_decomp t.goto a 0
  have hWcon : gotoWalk (enterKeyword t a).goto 0 con = ((gotoWalk t.goto 0 a).1, []) :=
    gotoWalk_full_mono t.goto (enterKeyword t a).goto
      (enterKeyword_goto_preserves t a hb) con 0 (gotoWalk t.goto 0 a).1 hW
  have hWrest : gotoWalk (enterKeyword t a).goto (gotoWalk t.goto 0 a).1
      (gotoWalk t.goto 0 a).2
        = ((gotoExtend t.goto t.newstate (gotoWalk t.goto 0 a).1 (gotoWalk t.goto 0 a).2).2.2,
           []) :=
    gotoExtend_walk (gotoWalk t.goto 0 a).2 t.goto t.newstate (gotoWalk t.goto 0 a).1 hws1
      (fun k2 v2 h2 => (hb k2 v2 h2).1)
  have hWa : gotoWalk (enterKeyword t a).goto 0 a
      = ((gotoExtend t.goto t.newstate (gotoWalk t.goto 0 a).1 (gotoWalk t.goto 0 a).2).2.2,
         []) := by
    have h5 : gotoWalk (enterKeyword t a).goto 0 a
        = gotoWalk (enterKeyword t a).goto 0 (con ++ (gotoWalk t.goto 0 a).2) :=
      congrArg (gotoWalk (enterKeyword t a).goto 0) hEq
    rw [h5, gotoWalk_append (enterKeyword t a).goto con _ 0 (gotoWalk t.goto 0 a).1 hWcon]
    exact hWrest
  constructor
  · rw [consumedB, decide_eq_true_eq, hWa]
  · rw [stOf, hWa]

/-- From a fresh state, a walk stays among the fresh states. -/
theorem extend_walk_stays_new (t : Trie) (a : List Nat) (hb : TrieBound t) :
    ∀ (u : List Nat) (s : Nat), t.newstate < s →
      t.newstate < (gotoWalk (enterKeyword t a).goto s u).1 := by
  have hws1 : (gotoWalk t.goto 0 a).1 ≤ t.newstate :=
    gotoWalk_state_le t.goto t.newstate hb a 0 (Nat.zero_le _)
  have hchar := gotoExtend_lookup (gotoWalk t.goto 0 a).2 t.goto t.newstate
    (gotoWalk t.goto 0 a).1 hws1 (fun k v h => ⟨(hb k v h).1, (hb k v h).2.1⟩)
    (fun c rest2 hr => gotoWalk_stop t.goto a 0 c rest2 hr)
  intro u
  induction u with
  | nil => intro s hs; exact hs
  | cons c r ih =>
    intro s hs
    cases he : sdFind (enterKeyword t a).goto (s, c) with
    | none =>
      simp only [gotoWalk, he]
      exact hs
    | some v =>
      simp only [gotoWalk, he]
      refine ih v ?_
      have he2 : sdFind (gotoExtend t.goto t.newstate (gotoWalk t.goto 0 a).1
          (gotoWalk t.goto 0 a).2).1 (s, c) = some v := he
      rcases (hchar (s, c) v).mp he2 with h | ⟨i, hi, hk, hv⟩
      · have := (hb (s, c) v h).1
        simp only at this
        omega
      · omega

/-- A walk through the extended trie that ends at an old state is an old
walk. -/
theorem extend_walk_old (t : Trie) (a : List Nat) (hb : TrieBound t) :
    ∀ (u : List Nat) (s : Nat), s ≤ t.newstate →
      (gotoWalk (enterKeyword t a).goto s u).1 ≤ t.newstate →
      gotoWalk (enterKeyword t a).goto s u = gotoWalk t.goto s u := by
  have hws1 : (gotoWalk t.goto 0 a).1 ≤ t.newstate :=
    gotoWalk_state_le t.goto t.newstate hb a 0 (Nat.zero_le _)
  have hchar := gotoExtend_lookup (gotoWalk t.goto 0 a).2 t.goto t.newstate
    (gotoWalk t.goto 0 a).1 hws1 (fun k v h => ⟨(hb k v h).1, (hb k v h).2.1⟩)
    (fun c rest2 hr => gotoWalk_stop t.goto a 0 c rest2 hr)
  intro u
  induction u with
  | nil => intro s _ _; rfl
  | cons c r ih =>
    intro s hs hend
    cases he : sdFind (enterKeyword t a).goto (s, c) with
    | none =>
      have hgt : sdFind t.goto (s, c) = none := by
        cases hgt2 : sdFind t.goto (s, c) with
        | none => rfl
        | some v =>
          have : sdFind (enterKeyword t a).goto (s, c) = some v :=
            (hchar (s, c) v).mpr (Or.inl hgt2)
          rw [he] at this
          exact Option.noConfusion this
      simp only [gotoWalk, he, hgt]
    | some v =>
      have he2 : sdFind (gotoExtend t.goto t.newstate (gotoWalk t.goto 0 a).1
          (gotoWalk t.goto 0 a).2).1 (s, c) = some v := he
      rcases (hchar (s, c) v).mp he2 with h | ⟨i, hi, hk, hv⟩
      · have hvle : v ≤ t.newstate := (hb (s, c) v h).2.1
        have hend2 : (gotoWalk (enterKeyword t a).goto v r).1 ≤ t.newstate := by
          have h3 : (gotoWalk (enterKeyword t a).goto s (c :: r)).1
              = (gotoWalk (enterKeyword t a).goto v r).1 := by
            simp only [gotoWalk, he]
          rw [← h3]
          exact hend
        simp only [gotoWalk, he, h]
        exact ih v hvle hend2
      · exfalso
        have hvnew : t.newstate < v := by omega
        have h3 : (gotoWalk (enterKeyword t a).goto s (c :: r)).1
            = (gotoWalk (enterKeyword t a).goto v r).1 := by
          simp only [gotoWalk, he]
        have h4 := extend_walk_stays_new t a hb r v hvnew
        rw [h3] at hend
        omega

/-- A word consumed by the extended trie but not by the old one reaches a
fresh state. -/
theorem extend_new_word (t : Trie) (a : List Nat) (hb : TrieBound t) (u : List Nat)
    (hc : consumedB (enterKeyword t a).goto u = true)
    (hnc : consumedB t.goto u = false) :
    t.newstate < stOf (enterKeyword t a).goto u := by
  by_contra h
  push_neg at h
  have heq := extend_walk_old t a hb u 0 (Nat.zero_le _) h
  rw [consumedB, decide_eq_true_eq, heq] at hc
  rw [consumedB, decide_eq_false_iff_not] at hnc
  exact hnc hc

/-- Entering one keyword preserves the Algorithm 2 output characterization:
every consumed word's state holds exactly that word if it is an entered
keyword, and nothing otherwise. -/
theorem alg2_output_step (t : Trie) (a : List Nat) (D : List (List Nat))
    (hb : TrieBound t) (hpt : ParentTotal t.goto t.newstate) (hpu : ParentUnique t.goto)
    (hout : ∀ u, consumedB t.goto u = true →
      outGet t.output (stOf t.goto u) = if u ∈ D then [u] else [])
    (hhigh : ∀ s, t.newstate < s → outGet t.output s = [])
    (hD : ∀ k ∈ D, consumedB t.goto k = true) :
    (∀ u, consumedB (enterKeyword t a).goto u = true →
      outGet (enterKeyword t a).output (stOf (enterKeyword t a).goto u)
        = if u ∈ D ++ [a] then [u] else []) ∧
    (∀ s, (enterKeyword t a).newstate < s → outGet (enterKeyword t a).output s = []) ∧
    (∀ k ∈ D ++ [a], consumedB (enterKeyword t a).goto k = true) := by
  have hb2 : TrieBound (enterKeyword t a) := TrieBound_enterKeyword t a hb
  have hpu2 : ParentUnique (enterKeyword t a).goto := (enterKeyword_struct t a hb hpt hpu).2
  obtain ⟨hacons, hast⟩ := enterKeyword_consumes t a hb
  have houteq : (enterKeyword t a).output
      = outAdd t.output
          (gotoExtend t.goto t.newstate (gotoWalk t.goto 0 a).1 (gotoWalk t.goto 0 a).2).2.2
          a := rfl
  have hnseq : (enterKeyword t a).newstate
      = t.newstate + (gotoWalk t.goto 0 a).2.length := by
    show (gotoExtend t.goto t.newstate (gotoWalk t.goto 0 a).1 (gotoWalk t.goto 0 a).2).2.1
      = _
    exact gotoExtend_newstate _ _ _ _
  have hstE : stOf (enterKeyword t a).goto a ≤ (enterKeyword t a).newstate :=
    stOf_le _ _ hb2 a
  refine ⟨?_, ?_, ?_⟩
  · intro u hu
    by_cases hkey : stOf (enterKeyword t a).goto u = stOf (enterKeyword t a).goto a
    · have hua : u = a := stOf_inj (enterKeyword t a).goto (enterKeyword t a).newstate
        hb2 hpu2 (u.length + a.length) u a (by omega) (by omega) hu hacons hkey
      subst hua
      rw [if_pos (List.mem_append_right _ (List.mem_singleton.mpr rfl))]
      rw [houteq, ← hast, hkey]
      rw [outGet_outAdd_self_eq]
      cases hrest : consumedB t.goto u with
      | true =>
        have hsame := (consumedB_mono t u hb u hrest).2
        rw [hsame, hout u hrest]
        by_cases hD2 : u ∈ D
        · rw [if_pos hD2, if_pos (List.mem_singleton.mpr rfl)]
        · rw [if_neg hD2, if_neg (List.not_mem_nil u)]
          rfl
      | false =>
        have hnew := extend_new_word t u hb u hu hrest
        rw [hhigh _ hnew]
        rw [if_neg (List.not_mem_nil u)]
        rfl
    · rw [houteq, ← hast, outGet_outAdd_of_ne _ _ _ _ hkey]
      cases hold : consumedB t.goto u with
      | true =>
        have hsame := (consumedB_mono t a hb u hold).2
        rw [hsame, hout u hold]
        have hune : u ≠ a := by
          intro he
          subst he
          exact hkey rfl
        by_cases hD2 : u ∈ D
        · rw [if_pos hD2, if_pos (List.mem_append_left _ hD2)]
        · rw [if_neg hD2, if_neg (by
            intro hmem
            rcases List.mem_append.mp hmem with h2 | h2
            · exact hD2 h2
            · exact hune (List.mem_singleton.mp h2))]
      | false =>
        have hnew := extend_new_word t a hb u hu hold
        rw [hhigh _ hnew]
        have hune : u ≠ a := by
          intro he
          subst he
          exact hkey rfl
        rw [if_neg (by
          intro hmem
          rcases List.mem_append.mp hmem with h2 | h2
          · have := hD u h2
            rw [hold] at this
            exact Bool.noConfusion this
          · exact hune (List.mem_singleton.mp h2))]
  · intro s hs
    have hstE2 : (gotoExtend t.goto t.newstate (gotoWalk t.goto 0 a).1
        (gotoWalk t.goto 0 a).2).2.2 ≤ (enterKeyword t a).newstate := by
      rw [← hast]
      exact hstE
    rw [houteq, outGet_outAdd_of_ne _ _ _ _ (by omega)]
    refine hhigh s ?_
    rw [hnseq] at hs
    omega
  · intro k hk
    rcases List.mem_append.mp hk with h2 | h2
    · exact (consumedB_mono t a hb k (hD k h2)).1
    · rw [List.mem_singleton.mp h2]
      exact hacons

/-- The Algorithm 2 output characterization over a keyword list. -/
theorem alg2_output_foldl (K : List (List Nat)) :
    ∀ (t : Trie) (D : List (List Nat)), TrieBound t →
      ParentTotal t.goto t.newstate → ParentUnique t.goto →
      (∀ u, consumedB t.goto u = true →
        outGet t.output (stOf t.goto u) = if u ∈ D then [u] else []) →
      (∀ s, t.newstate < s → outGet t.output s = []) →
      (∀ k ∈ D, consumedB t.goto k = true) →
      (∀ u, consumedB (K.foldl enterKeyword t).goto u = true →
        outGet (K.foldl enterKeyword t).output (stOf (K.foldl enterKeyword t).goto u)
          = if u ∈ D ++ K then [u] else []) ∧
      (∀ k ∈ D ++ K, consumedB (K.foldl enterKeyword t).goto k = true) := by
  induction K with
  | nil =>
    intro t D _ _ _ hout _ hD
    simp only [List.foldl_nil, List.append_nil]
    exact ⟨hout, hD⟩
  | cons a K ih =>
    intro t D hb hpt hpu hout hhigh hD
    obtain ⟨h1, h2, h3⟩ := alg2_output_step t a D hb hpt hpu hout hhigh hD
    obtain ⟨hpt2, hpu2⟩ := enterKeyword_struct t a hb hpt hpu
    have hres := ih (enterKeyword t a) (D ++ [a]) (TrieBound_enterKeyword t a hb)
      hpt2 hpu2 h1 h2 h3
    simp only [List.foldl_cons]
    rw [show D ++ a :: K = (D ++ [a]) ++ K from by rw [List.append_assoc]; rfl]
    exact hres

/-- The Algorithm 2 output of `trieOf K`: each consumed word's state holds
exactly that word when it is a keyword. -/
theorem trieOf_output (K : List (List Nat)) :
    (∀ u, consumedB (trieOf K).goto u = true →
      outGet (trieOf K).output (stOf (trieOf K).goto u) = if u ∈ K then [u] else []) ∧
    (∀ k ∈ K, consumedB (trieOf K).goto k = true) := by
  have hempty : ∀ u, consumedB ([] : StateDict) u = true → u = [] := by
    intro u hu
    cases u with
    | nil => rfl
    | cons c r =>
      rw [consumedB, decide_eq_true_eq] at hu
      simp only [gotoWalk, sdFind_nil] at hu
      exact absurd hu (List.cons_ne_nil _ _)
  have h := alg2_output_foldl K ⟨[], [], 0⟩ []
    TrieBound_empty
    (fun s hs1 hs2 => by
      have hs3 : s ≤ 0 := hs2
      omega)
    (fun p a p2 a2 s h1 _ => absurd h1 (by
      intro h2
      have h3 : (none : Option Nat) = some s := h2
      exact Option.noConfusion h3))
    (fun u hu => by
      have hu2 := hempty u hu
      subst hu2
      rw [if_neg (List.not_mem_nil [])]
      rfl)
    (fun s _ => rfl)
    (fun k hk => absurd hk (List.not_mem_nil k))
  simpa using h

/-! ### Algorithm 3 : failure function and output propagation -/

theorem fdFind_fdUpd (f : FailDict) (k k2 v : Nat) :
    fdFind (fdUpd f k v) k2 = if k2 = k then some v else fdFind f k2 := by
  unfold fdFind fdUpd
  by_cases h : k2 = k
  · subst h
    simp [List.find?_cons]
  · rw [if_neg h]
    have h2 : (decide ((k, v).1 = k2)) = false := by
      simp only [decide_eq_false_iff_not]
      exact fun h2 => h h2.symm
    simp [List.find?_cons, h2]

theorem outGet_outUnion_self (out : OutMap) (s : Nat) (other : List (List Nat)) :
    outGet (outUnion out s other) s
      = outGet out s ++ other.filter (fun k => decide (k ∉ outGet out s)) := by
  rw [outUnion, outGet_cons_self]

theorem outGet_outUnion_ne (out : OutMap) (s s2 : Nat) (other : List (List Nat))
    (h : s2 ≠ s) : outGet (outUnion out s other) s2 = outGet out s2 := by
  rw [outUnion]
  exact outGet_cons_ne out s2 s _ (fun he => h he.symm)

/-- The inner byte loop of Algorithm 3, processing the popped state of word
`u`: the children are enqueued, their failure links and outputs are set to
the reference values, and everything else is untouched. -/
theorem alg3Child_foldl_spec (K : List (List Nat)) (gt : StateDict) (ns : Nat)
    (hb : GotoBound gt ns) (hpu : ParentUnique gt) (hgb : GotoBytes gt)
    (hKcons : ∀ k ∈ K, consumedB gt k = true)
    (u : List Nat) (hu : consumedB gt u = true) (hune : u ≠ [])
    (huns : u.length ≤ ns) :
    ∀ (l : List Nat), l.Nodup →
    ∀ (st2 : Alg3St),
      (∀ x, consumedB gt x = true → x ≠ [] → x.length ≤ u.length →
        fdFind st2.fail (stOf gt x) = some (stOf gt (psufT gt x))) →
      (∀ x, consumedB gt x = true → x.length ≤ u.length →
        (outGet st2.output (stOf gt x)).Nodup ∧
        (∀ k, k ∈ outGet st2.output (stOf gt x) ↔ (k ∈ K ∧ k <:+ x))) →
      (∀ a ∈ l, ∀ s, sdFind gt (stOf gt u, a) = some s →
        outGet st2.output s = if (u ++ [a]) ∈ K then [u ++ [a]] else []) →
      ((l.foldl (alg3Child (completeRoot gt) (ns + 1) (stOf gt u)) st2).queue
          = st2.queue ++ l.filterMap (fun a => sdFind (completeRoot gt) (stOf gt u, a))) ∧
      (∀ y, (∀ a ∈ l, ∀ s, sdFind gt (stOf gt u, a) = some s → y ≠ s) →
        fdFind (l.foldl (alg3Child (completeRoot gt) (ns + 1) (stOf gt u)) st2).fail y
          = fdFind st2.fail y) ∧
      (∀ y, (∀ a ∈ l, ∀ s, sdFind gt (stOf gt u, a) = some s → y ≠ s) →
        outGet (l.foldl (alg3Child (completeRoot gt) (ns + 1) (stOf gt u)) st2).output y
          = outGet st2.output y) ∧
      (∀ a ∈ l, ∀ s, sdFind gt (stOf gt u, a) = some s →
        fdFind (l.foldl (alg3Child (completeRoot gt) (ns + 1) (stOf gt u)) st2).fail s
          = some (stOf gt (psufT gt (u ++ [a])))) ∧
      (∀ a ∈ l, ∀ s, sdFind gt (stOf gt u, a) = some s →
        (outGet (l.foldl (alg3Child (completeRoot gt) (ns + 1) (stOf gt u)) st2).output
          s).Nodup ∧
        (∀ k, k ∈ outGet
            (l.foldl (alg3Child (completeRoot gt) (ns + 1) (stOf gt u)) st2).output s
          ↔ (k ∈ K ∧ k <:+ (u ++ [a])))) := by
  have hr1 : 1 ≤ stOf gt u := stOf_pos gt ns hb u hu hune
  have hrow : ∀ a s, (sdFind (completeRoot gt) (stOf gt u, a) = some s
      ↔ sdFind gt (stOf gt u, a) = some s) := by
    intro a s
    rw [completeRoot_nonroot gt (stOf gt u, a) (by simp only; omega)]
  have hupos : 1 ≤ u.length := by
    cases u with
    | nil => exact absurd rfl hune
    | cons c r => simp
  have hinj : ∀ (x y : List Nat), consumedB gt x = true → consumedB gt y = true →
      stOf gt x = stOf gt y → x = y := by
    intro x y hx hy hxy
    exact stOf_inj gt ns hb hpu (x.length + y.length) x y (by omega) (by omega)
      hx hy hxy
  intro l
  induction l with
  | nil =>
    intro _ st2 hfailE houtE _
    refine ⟨by simp, fun y _ => rfl, fun y _ => rfl, ?_, ?_⟩
    · intro a ha
      exact absurd ha (List.not_mem_nil a)
    · intro a ha
      exact absurd ha (List.not_mem_nil a)
  | cons a0 l ih =>
    intro hnd st2 hfailE houtE houtF
    have hnd2 : l.Nodup := (List.nodup_cons.mp hnd).2
    have ha0l : a0 ∉ l := (List.nodup_cons.mp hnd).1
    simp only [List.foldl_cons]
    cases hge : sdFind (completeRoot gt) (stOf gt u, a0) with
    | none =>
      have hgtn : sdFind gt (stOf gt u, a0) = none := by
        cases h2 : sdFind gt (stOf gt u, a0) with
        | none => rfl
        | some s =>
          have h3 := (hrow a0 s).mpr h2
          rw [hge] at h3
          exact Option.noConfusion h3
      have hstep : alg3Child (completeRoot gt) (ns + 1) (stOf gt u) st2 a0 = st2 := by
        rw [alg3Child, hge]
      rw [hstep]
      obtain ⟨c1, c2, c3, c4, c5⟩ := ih hnd2 st2 hfailE houtE
        (fun a ha s hs => houtF a (List.mem_cons_of_mem _ ha) s hs)
      refine ⟨?_, ?_, ?_, ?_, ?_⟩
      · rw [c1, List.filterMap_cons, hge]
      · intro y hy
        exact c2 y (fun a ha s hs => hy a (List.mem_cons_of_mem _ ha) s hs)
      · intro y hy
        exact c3 y (fun a ha s hs => hy a (List.mem_cons_of_mem _ ha) s hs)
      · intro a ha s hs
        rcases List.mem_cons.mp ha with h2 | h2
        · subst h2
          rw [hgtn] at hs
          exact Option.noConfusion hs
        · exact c4 a h2 s hs
      · intro a ha s hs
        rcases List.mem_cons.mp ha with h2 | h2
        · subst h2
          rw [hgtn] at hs
          exact Option.noConfusion hs
        · exact c5 a h2 s hs
    | some s0 =>
      have hgt0 : sdFind gt (stOf gt u, a0) = some s0 := (hrow a0 s0).mp hge
      have ha256 : a0 < 256 := hgb _ _ hgt0
      obtain ⟨hcc, hcs⟩ := consumedB_step gt u a0 s0 hu hgt0
      have hfr := hfailE u hu hune (Nat.le_refl _)
      have hpsc : consumedB gt (psufT gt u) = true := (lsufT_suffix gt (u.drop 1)).2
      have hpsl : (psufT gt u).length ≤ u.length - 1 := by
        have h1 := (lsufT_suffix gt (u.drop 1)).1.length_le
        rw [List.length_drop] at h1
        exact h1
      have hdesc := failDescend_correct gt ns hb st2.fail a0 ha256 (ns + 1)
        (psufT gt u) hpsc (by omega)
        (fun x hx hxe hxl => hfailE x hx hxe (by omega))
      have hdrop : (u ++ [a0]).drop 1 = u.drop 1 ++ [a0] :=
        List.drop_append_of_le_length hupos
      have hfs_sem : stOf gt (lsufT gt (psufT gt u ++ [a0]))
          = stOf gt (psufT gt (u ++ [a0])) := by
        rw [psufT, psufT, hdrop, lsufT_append_lsufT gt (u.drop 1) a0]
      have hstep : alg3Child (completeRoot gt) (ns + 1) (stOf gt u) st2 a0
          = { queue := st2.queue ++ [s0]
              fail := fdUpd st2.fail s0
                ((sdFind (completeRoot gt)
                  (failDescend (completeRoot gt) st2.fail (ns + 1)
                    ((fdFind st2.fail (stOf gt u)).getD 0) a0, a0)).getD 0)
              output :=
                if outGet st2.output
                    ((sdFind (completeRoot gt)
                      (failDescend (completeRoot gt) st2.fail (ns + 1)
                        ((fdFind st2.fail (stOf gt u)).getD 0) a0, a0)).getD 0) = []
                then st2.output
                else outUnion st2.output s0
                  (outGet st2.output
                    ((sdFind (completeRoot gt)
                      (failDescend (completeRoot gt) st2.fail (ns + 1)
                        ((fdFind st2.fail (stOf gt u)).getD 0) a0, a0)).getD 0)) } := by
        rw [alg3Child, hge]
      have hfsval : (sdFind (completeRoot gt)
          (failDescend (completeRoot gt) st2.fail (ns + 1)
            ((fdFind st2.fail (stOf gt u)).getD 0) a0, a0)).getD 0
          = stOf gt (psufT gt (u ++ [a0])) := by
        rw [hfr]
        rw [show (some (stOf gt (psufT gt u))).getD 0 = stOf gt (psufT gt u) from rfl]
        rw [hdesc, hfs_sem]
      have hs0ne : ∀ x, consumedB gt x = true → x.length ≤ u.length → stOf gt x ≠ s0 := by
        intro x hx hxl he
        have h2 : x = u ++ [a0] := by
          refine hinj x (u ++ [a0]) hx hcc ?_
          rw [hcs]
          exact he
        rw [h2, List.length_append] at hxl
        simp only [List.length_singleton] at hxl
        omega
      have hchildne : ∀ a ∈ l, ∀ s, sdFind gt (stOf gt u, a) = some s → s ≠ s0 := by
        intro a ha s hs he
        obtain ⟨hcc2, hcs2⟩ := consumedB_step gt u a s hu hs
        have h2 : u ++ [a] = u ++ [a0] := by
          refine hinj _ _ hcc2 hcc ?_
          rw [hcs2, hcs, he]
        have h4 := congrArg (fun z => List.drop u.length z) h2
        simp only [List.drop_left] at h4
        injection h4 with h5 _
        subst h5
        exact ha0l ha
      have hout3 : ∀ y, y ≠ s0 →
          outGet (alg3Child (completeRoot gt) (ns + 1) (stOf gt u) st2 a0).output y
            = outGet st2.output y := by
        rw [hstep]
        intro y hy
        dsimp only
        split
        · rfl
        · exact outGet_outUnion_ne _ _ _ _ hy
      have hfail3 : ∀ y, y ≠ s0 →
          fdFind (alg3Child (completeRoot gt) (ns + 1) (stOf gt u) st2 a0).fail y
            = fdFind st2.fail y := by
        rw [hstep]
        intro y hy
        dsimp only
        rw [fdFind_fdUpd, if_neg hy]
      have hfail3self :
          fdFind (alg3Child (completeRoot gt) (ns + 1) (stOf gt u) st2 a0).fail s0
            = some (stOf gt (psufT gt (u ++ [a0]))) := by
        rw [hstep]
        dsimp only
        rw [fdFind_fdUpd, if_pos rfl, hfsval]
      have hguard := houtE (psufT gt (u ++ [a0]))
        (lsufT_suffix gt ((u ++ [a0]).drop 1)).2
        (by
          have h1 := (lsufT_suffix gt ((u ++ [a0]).drop 1)).1.length_le
          rw [List.length_drop, List.length_append] at h1
          simp only [List.length_singleton] at h1
          have h1b : (psufT gt (u ++ [a0])).length ≤ u.length + 1 - 1 := h1
          omega)
      have hmemchild : ∀ k, (k ∈ K ∧ k <:+ (u ++ [a0]))
          ↔ ((k = u ++ [a0] ∧ (u ++ [a0]) ∈ K) ∨
             (k ∈ K ∧ k <:+ psufT gt (u ++ [a0]))) := by
        intro k
        constructor
        · rintro ⟨hk, hsuf⟩
          by_cases he : k = u ++ [a0]
          · exact Or.inl ⟨he, he ▸ hk⟩
          · refine Or.inr ⟨hk, ?_⟩
            have h2 : k <:+ (u ++ [a0]).drop 1 := proper_suffix_drop_one k _ hsuf he
            exact lsufT_max gt _ k h2 (hKcons k hk)
        · rintro (⟨he, hk⟩ | ⟨hk, hsuf⟩)
          · subst he
            exact ⟨hk, List.suffix_refl _⟩
          · refine ⟨hk, ?_⟩
            refine hsuf.trans ?_
            exact ((lsufT_suffix gt ((u ++ [a0]).drop 1)).1.trans
              (List.drop_suffix 1 (u ++ [a0])))
      have hout3self :
          (outGet (alg3Child (completeRoot gt) (ns + 1) (stOf gt u) st2 a0).output
            s0).Nodup ∧
          (∀ k, k ∈ outGet (alg3Child (completeRoot gt) (ns + 1) (stOf gt u) st2
              a0).output s0 ↔ (k ∈ K ∧ k <:+ (u ++ [a0]))) := by
        have hA2 : outGet st2.output s0 = if (u ++ [a0]) ∈ K then [u ++ [a0]] else [] :=
          houtF a0 (List.mem_cons_self _ _) s0 hgt0
        rw [hstep]
        dsimp only
        rw [hfsval]
        by_cases hgd : outGet st2.output (stOf gt (psufT gt (u ++ [a0]))) = []
        · rw [if_pos hgd, hA2]
          constructor
          · by_cases hm : (u ++ [a0]) ∈ K
            · rw [if_pos hm]
              exact List.nodup_singleton _
            · rw [if_neg hm]
              exact List.nodup_nil
          · intro k
            rw [hmemchild k]
            constructor
            · intro hk
              by_cases hm : (u ++ [a0]) ∈ K
              · rw [if_pos hm] at hk
                exact Or.inl ⟨List.mem_singleton.mp hk, hm⟩
              · rw [if_neg hm] at hk
                exact absurd hk (List.not_mem_nil k)
            · rintro (⟨he, hm⟩ | ⟨hk, hsuf⟩)
              · subst he
                rw [if_pos hm]
                exact List.mem_singleton.mpr rfl
              · exfalso
                have h2 := (hguard.2 k).mpr ⟨hk, hsuf⟩
                rw [hgd] at h2
                exact List.not_mem_nil k h2
        · rw [if_neg hgd]
          rw [outGet_outUnion_self, hA2]
          constructor
          · rw [List.nodup_append]
            refine ⟨?_, List.Nodup.filter _ hguard.1, ?_⟩
            · by_cases hm : (u ++ [a0]) ∈ K
              · rw [if_pos hm]
                exact List.nodup_singleton _
              · rw [if_neg hm]
                exact List.nodup_nil
            · intro k hk1 hk2
              rw [List.mem_filter] at hk2
              have h2 := hk2.2
              rw [decide_eq_true_eq] at h2
              exact h2 hk1
          · intro k
            rw [List.mem_append, List.mem_filter, hmemchild k]
            constructor
            · rintro (hk | ⟨hk, _⟩)
              · by_cases hm : (u ++ [a0]) ∈ K
                · rw [if_pos hm] at hk
                  exact Or.inl ⟨List.mem_singleton.mp hk, hm⟩
                · rw [if_neg hm] at hk
                  exact absurd hk (List.not_mem_nil k)
              · exact Or.inr ((hguard.2 k).mp hk)
            · rintro (⟨he, hm⟩ | ⟨hk, hsuf⟩)
              · subst he
                refine Or.inl ?_
                rw [if_pos hm]
                exact List.mem_singleton.mpr rfl
              · have h2 := (hguard.2 k).mpr ⟨hk, hsuf⟩
                by_cases hold : k ∈ (if (u ++ [a0]) ∈ K then [u ++ [a0]] else [])
                · exact Or.inl hold
                · refine Or.inr ⟨h2, ?_⟩
                  rw [decide_eq_true_eq]
                  exact hold
      have hq3 : (alg3Child (completeRoot gt) (ns + 1) (stOf gt u) st2 a0).queue
          = st2.queue ++ [s0] := by
        rw [hstep]
      obtain ⟨c1, c2, c3, c4, c5⟩ := ih hnd2
        (alg3Child (completeRoot gt) (ns + 1) (stOf gt u) st2 a0)
        (fun x hx hxe hxl => by
          rw [hfail3 (stOf gt x) (hs0ne x hx hxl)]
          exact hfailE x hx hxe hxl)
        (fun x hx hxl => by
          rw [hout3 (stOf gt x) (hs0ne x hx hxl)]
          exact houtE x hx hxl)
        (fun a ha s hs => by
          rw [hout3 s (hchildne a ha s hs)]
          exact houtF a (List.mem_cons_of_mem _ ha) s hs)
      refine ⟨?_, ?_, ?_, ?_, ?_⟩
      · rw [c1, hq3, List.filterMap_cons, hge, List.append_assoc]
        rfl
      · intro y hy
        rw [c2 y (fun a ha s hs => hy a (List.mem_cons_of_mem _ ha) s hs)]
        exact hfail3 y (hy a0 (List.mem_cons_self _ _) s0 hgt0)
      · intro y hy
        rw [c3 y (fun a ha s hs => hy a (List.mem_cons_of_mem _ ha) s hs)]
        exact hout3 y (hy a0 (List.mem_cons_self _ _) s0 hgt0)
      · intro a ha s hs
        rcases List.mem_cons.mp ha with h2 | h2
        · subst h2
          have hss : s = s0 := by
            rw [hgt0] at hs
            exact Option.some.inj hs.symm
          subst hss
          rw [c2 s (fun a2 ha2 s2 hs2 => (hchildne a2 ha2 s2 hs2).symm)]
          exact hfail3self
        · exact c4 a h2 s hs
      · intro a ha s hs
        rcases List.mem_cons.mp ha with h2 | h2
        · subst h2
          have hss : s = s0 := by
            rw [hgt0] at hs
            exact Option.some.inj hs.symm
          subst hss
          rw [c3 s (fun a2 ha2 s2 hs2 => (hchildne a2 ha2 s2 hs2).symm)]
          exact hout3self
        · exact c5 a h2 s hs

/-- A relation that holds for all pairs holds pairwise. -/
theorem pairwise_of_all {R : List Nat → List Nat → Prop} :
    ∀ (l : List (List Nat)), (∀ x ∈ l, ∀ y ∈ l, R x y) → l.Pairwise R := by
  intro l
  induction l with
  | nil => intro _; exact List.Pairwise.nil
  | cons x l ih =>
    intro h
    refine List.Pairwise.cons ?_ (ih ?_)
    · intro y hy
      exact h x (List.mem_cons_self _ _) y (List.mem_cons_of_mem _ hy)
    · intro a ha b hb
      exact h a (List.mem_cons_of_mem _ ha) b (List.mem_cons_of_mem _ hb)

/-- The queue built by the initial loop of Algorithm 3. -/
theorem alg3Init_queue :
    ∀ (l : List Nat) (g : StateDict) (st : Alg3St),
      (l.foldl (alg3InitStep g) st).queue
        = st.queue ++ l.filterMap (fun a =>
            match sdFind g (0, a) with
            | some s => if s ≠ 0 then some s else none
            | none => none) := by
  intro l
  induction l with
  | nil => intro g st; simp
  | cons a l ih =>
    intro g st
    simp only [List.foldl_cons]
    rw [ih]
    cases hga : sdFind g (0, a) with
    | none =>
      have hqe : (alg3InitStep g st a).queue = st.queue := by
        rw [alg3InitStep, hga]
      rw [hqe, List.filterMap_cons, hga]
    | some s =>
      have hqe : (alg3InitStep g st a).queue
          = if s ≠ 0 then st.queue ++ [s] else st.queue := by
        rw [alg3InitStep, hga]
        dsimp only
        by_cases hs : s ≠ 0
        · rw [if_pos hs, if_pos hs]
        · rw [if_neg hs, if_neg hs]
      rw [hqe]
      simp only [List.filterMap_cons, hga]
      by_cases hs : s ≠ 0
      · rw [if_pos hs, if_pos hs]
        dsimp only
        rw [List.append_assoc]
        rfl
      · rw [if_neg hs, if_neg hs]

/-- The initial loop of Algorithm 3 does not touch the outputs. -/
theorem alg3Init_output :
    ∀ (l : List Nat) (g : StateDict) (st : Alg3St),
      (l.foldl (alg3InitStep g) st).output = st.output := by
  intro l
  induction l with
  | nil => intro g st; rfl
  | cons a l ih =>
    intro g st
    simp only [List.foldl_cons]
    rw [ih]
    cases hga : sdFind g (0, a) with
    | none => rw [show alg3InitStep g st a = st from by rw [alg3InitStep, hga]]
    | some s =>
      have h2 : (alg3InitStep g st a).output = st.output := by
        rw [alg3InitStep, hga]
        dsimp only
        by_cases hs : s ≠ 0
        · rw [if_pos hs]
        · rw [if_neg hs]
      rw [h2]

/-- The failure entries written by the initial loop of Algorithm 3. -/
theorem alg3Init_fail :
    ∀ (l : List Nat) (g : StateDict) (st : Alg3St) (y : Nat),
      fdFind (l.foldl (alg3InitStep g) st).fail y
        = if (∃ a ∈ l, sdFind g (0, a) = some y ∧ y ≠ 0) then some 0
          else fdFind st.fail y := by
  intro l
  induction l with
  | nil =>
    intro g st y
    rw [if_neg (by rintro ⟨a, ha, _⟩; exact List.not_mem_nil a ha)]
    rfl
  | cons a l ih =>
    intro g st y
    simp only [List.foldl_cons]
    rw [ih]
    by_cases hc : ∃ a2 ∈ l, sdFind g (0, a2) = some y ∧ y ≠ 0
    · rw [if_pos hc, if_pos (by
        obtain ⟨a2, ha2, h2⟩ := hc
        exact ⟨a2, List.mem_cons_of_mem _ ha2, h2⟩)]
    · rw [if_neg hc]
      cases hga : sdFind g (0, a) with
      | none =>
        rw [show alg3InitStep g st a = st from by rw [alg3InitStep, hga]]
        by_cases hc2 : ∃ a2 ∈ a :: l, sdFind g (0, a2) = some y ∧ y ≠ 0
        · exfalso
          obtain ⟨a2, ha2, h2, h3⟩ := hc2
          rcases List.mem_cons.mp ha2 with h4 | h4
          · subst h4
            rw [hga] at h2
            exact Option.noConfusion h2
          · exact hc ⟨a2, h4, h2, h3⟩
        · rw [if_neg hc2]
      | some s =>
        by_cases hs : s ≠ 0
        · have h2 : (alg3InitStep g st a).fail = fdUpd st.fail s 0 := by
            rw [alg3InitStep, hga]
            dsimp only
            rw [if_pos hs]
          rw [h2, fdFind_fdUpd]
          by_cases hy : y = s
          · subst hy
            rw [if_pos rfl, if_pos ⟨a, List.mem_cons_self _ _, hga, hs⟩]
          · rw [if_neg hy]
            by_cases hc2 : ∃ a2 ∈ a :: l, sdFind g (0, a2) = some y ∧ y ≠ 0
            · exfalso
              obtain ⟨a2, ha2, h2b, h3⟩ := hc2
              rcases List.mem_cons.mp ha2 with h4 | h4
              · subst h4
                rw [hga] at h2b
                exact hy (Option.some.inj h2b).symm
              · exact hc ⟨a2, h4, h2b, h3⟩
            · rw [if_neg hc2]
        · have h2 : alg3InitStep g st a = st := by
            rw [alg3InitStep, hga]
            dsimp only
            rw [if_neg hs]
          rw [h2]
          by_cases hc2 : ∃ a2 ∈ a :: l, sdFind g (0, a2) = some y ∧ y ≠ 0
          · exfalso
            obtain ⟨a2, ha2, h2b, h3⟩ := hc2
            rcases List.mem_cons.mp ha2 with h4 | h4
            · subst h4
              rw [hga] at h2b
              have : s = y := Option.some.inj h2b
              omega
            · exact hc ⟨a2, h4, h2b, h3⟩
          · rw [if_neg hc2]

/-- All words of length up to the queue minimum are already enqueued. -/
theorem A3Inv_enq (K : List (List Nat)) (gt : StateDict) (st : Alg3St)
    (doneW qW : List (List Nat)) (hinv : A3Inv K gt st doneW qW) :
    ∀ w, consumedB gt w = true → w ≠ [] →
      (∀ w2 ∈ qW, w.length ≤ w2.length) → w ∈ doneW ∨ w ∈ qW := by
  intro w hw hne hlen
  by_cases hp : w.dropLast = []
  · exact hinv.closure w hw hne (Or.inr hp)
  · have hwe : w.dropLast ++ [w.getLast hne] = w := List.dropLast_append_getLast hne
    have hpcons : consumedB gt w.dropLast = true := by
      refine consumedB_append_left gt _ [w.getLast hne] ?_
      rw [hwe]
      exact hw
    have hwpos : 1 ≤ w.length := by
      cases w with
      | nil => exact absurd rfl hne
      | cons c r => simp
    have hplen : ∀ w2 ∈ qW, w.dropLast.length < w2.length := by
      intro w2 hw2
      have := hlen w2 hw2
      rw [List.length_dropLast]
      omega
    have hpd : w.dropLast ∈ doneW := hinv.shallow w.dropLast hpcons hp hplen
    exact hinv.closure w hw hne (Or.inl hpd)

/-- The enqueued and popped words map to distinct live states, bounding their
number. -/
theorem A3Inv_count (K : List (List Nat)) (gt : StateDict) (ns : Nat)
    (hb : GotoBound gt ns) (hpu : ParentUnique gt) (st : Alg3St)
    (doneW qW : List (List Nat)) (hinv : A3Inv K gt st doneW qW) :
    doneW.length + qW.length ≤ ns := by
  have hall : ∀ w ∈ doneW ++ qW, consumedB gt w = true ∧ w ≠ [] := by
    intro w hw
    rcases List.mem_append.mp hw with h | h
    · exact hinv.dcons w h
    · exact hinv.qcons w h
  have hmapnd : ((doneW ++ qW).map (stOf gt)).Nodup := by
    refine List.Nodup.map_on ?_ hinv.wnodup
    intro x hx y hy hxy
    exact stOf_inj gt ns hb hpu (x.length + y.length) x y (by omega) (by omega)
      (hall x hx).1 (hall y hy).1 hxy
  have hsub : ((doneW ++ qW).map (stOf gt)).toFinset ⊆ Finset.Icc 1 ns := by
    intro x hx
    rw [List.mem_toFinset, List.mem_map] at hx
    obtain ⟨w, hw, rfl⟩ := hx
    refine Finset.mem_Icc.mpr ⟨?_, stOf_le gt ns hb w⟩
    exact stOf_pos gt ns hb w (hall w hw).1 (hall w hw).2
  have hcard := Finset.card_le_card hsub
  rw [List.toFinset_card_of_nodup hmapnd, Nat.card_Icc, List.length_map,
    List.length_append] at hcard
  omega

/-- The word list of the root children enqueued by the initial loops. -/
theorem rootChildren_spec (gt : StateDict) (ns : Nat) (hb : GotoBound gt ns)
    (hgb : GotoBytes gt) :
    (∀ w, w ∈ alphabetL.filterMap (fun a =>
        match sdFind gt (0, a) with
        | some _ => some [a]
        | none => none) ↔ ∃ a s, sdFind gt (0, a) = some s ∧ w = [a]) := by
  intro w
  rw [List.mem_filterMap]
  constructor
  · rintro ⟨a, _, hfa⟩
    cases hga : sdFind gt (0, a) with
    | none =>
      rw [hga] at hfa
      exact absurd hfa (by simp)
    | some s =>
      rw [hga] at hfa
      simp only at hfa
      exact ⟨a, s, hga, (Option.some.inj hfa).symm⟩
  · rintro ⟨a, s, hga, rfl⟩
    refine ⟨a, ?_, ?_⟩
    · rw [alphabetL, List.mem_range]
      exact hgb (0, a) s hga
    · rw [hga]

/-- The initial loops of Algorithm 3 establish the BFS invariant: the root
children are enqueued with failure link 0 and the Algorithm 2 outputs are
untouched. -/
theorem A3Inv_init (K : List (List Nat)) (gt : StateDict) (ns : Nat)
    (hb : GotoBound gt ns) (hpu : ParentUnique gt) (hgb : GotoBytes gt)
    (hKne : ∀ k ∈ K, k ≠ []) (out2 : OutMap)
    (hout2 : ∀ u, consumedB gt u = true →
      outGet out2 (stOf gt u) = if u ∈ K then [u] else []) :
    A3Inv K gt (alphabetL.foldl (alg3InitStep (completeRoot gt)) ⟨[], [], out2⟩) []
      (alphabetL.filterMap (fun a =>
        match sdFind gt (0, a) with
        | some _ => some [a]
        | none => none)) := by
  have hW0 := rootChildren_spec gt ns hb hgb
  have hchildst : ∀ a s, sdFind gt (0, a) = some s →
      (consumedB gt [a] = true ∧ stOf gt [a] = s) := by
    intro a s hga
    have he2 : sdFind gt (stOf gt [], a) = some s := hga
    exact consumedB_step gt [] a s (consumedB_nil gt) he2
  have hg0 : ∀ a, a < 256 → sdFind gt (0, a) = none →
      sdFind (completeRoot gt) (0, a) = some 0 := by
    intro a ha hga
    rw [completeRoot, completeRoot_foldl_lookup]
    rw [if_pos ⟨rfl, by rw [alphabetL, List.mem_range]; exact ha, hga⟩]
  have hg1 : ∀ a s, sdFind gt (0, a) = some s →
      sdFind (completeRoot gt) (0, a) = some s := by
    intro a s hga
    rw [completeRoot_nonzero gt (0, a) s (by
      have := (hb (0, a) s hga).2.2.1
      omega)]
    exact hga
  refine ⟨?_, ?_, ?_, ?_, ?_, ?_, ?_, ?_, ?_, ?_, ?_, ?_⟩
  · -- qrep
    rw [alg3Init_queue]
    rw [List.map_filterMap]
    rw [List.nil_append]
    refine List.filterMap_congr ?_
    intro a ha
    have ha256 : a < 256 := by
      rw [alphabetL, List.mem_range] at ha
      exact ha
    cases hga : sdFind gt (0, a) with
    | none =>
      rw [hg0 a ha256 hga]
      dsimp only
      rw [if_neg (by omega)]
      rfl
    | some s =>
      rw [hg1 a s hga]
      dsimp only
      rw [if_pos (by
        have := (hb (0, a) s hga).2.2.1
        omega)]
      rw [Option.map_some', (hchildst a s hga).2]
  · -- wnodup
    rw [List.nil_append]
    refine List.Nodup.filterMap ?_ (by rw [alphabetL]; exact List.nodup_range 256)
    intro a a2 w h1 h2
    have h1b := Option.mem_def.mp h1
    have h2b := Option.mem_def.mp h2
    cases hga : sdFind gt (0, a) with
    | none => rw [hga] at h1b; exact absurd h1b (by simp)
    | some s =>
      rw [hga] at h1b
      simp only at h1b
      cases hga2 : sdFind gt (0, a2) with
      | none => rw [hga2] at h2b; exact absurd h2b (by simp)
      | some s2 =>
        rw [hga2] at h2b
        simp only at h2b
        have h3 : [a] = ([a2] : List Nat) := by
          rw [Option.some.inj h1b, Option.some.inj h2b]
        exact (List.cons.inj h3).1
  · -- origin
    intro w hw
    rcases hw with hw | hw
    · exact absurd hw (List.not_mem_nil w)
    · obtain ⟨a, s, _, rfl⟩ := (hW0 w).mp hw
      exact Or.inr rfl
  · -- dcons
    intro w hw
    exact absurd hw (List.not_mem_nil w)
  · -- qcons
    intro w hw
    obtain ⟨a, s, hga, rfl⟩ := (hW0 w).mp hw
    exact ⟨(hchildst a s hga).1, List.cons_ne_nil a []⟩
  · -- sorted
    refine pairwise_of_all _ ?_
    intro x hx y hy
    obtain ⟨a, s, _, rfl⟩ := (hW0 x).mp hx
    obtain ⟨a2, s2, _, rfl⟩ := (hW0 y).mp hy
    simp
  · -- span
    intro w1 h1 w2 h2
    obtain ⟨a, s, _, rfl⟩ := (hW0 w1).mp h1
    obtain ⟨a2, s2, _, rfl⟩ := (hW0 w2).mp h2
    simp
  · -- shallow
    intro w hw hne hlen
    exfalso
    cases w with
    | nil => exact hne rfl
    | cons c r =>
      have hc : consumedB gt [c] = true := by
        refine consumedB_append_left gt [c] r ?_
        exact hw
      obtain ⟨_, he⟩ := consumedB_concat gt [] c (by exact hc)
      have hmem : [c] ∈ alphabetL.filterMap (fun a =>
          match sdFind gt (0, a) with
          | some _ => some [a]
          | none => none) := (hW0 [c]).mpr ⟨c, _, he, rfl⟩
      have := hlen [c] hmem
      simp at this
  · -- closure
    intro w hw hne hdl
    rcases hdl with hdl | hdl
    · exact absurd hdl (List.not_mem_nil _)
    · refine Or.inr ?_
      have hwe : w.dropLast ++ [w.getLast hne] = w := List.dropLast_append_getLast hne
      have hw2 : consumedB gt (w.dropLast ++ [w.getLast hne]) = true := by
        rw [hwe]
        exact hw
      rw [hdl] at hw2
      obtain ⟨_, he⟩ := consumedB_concat gt [] (w.getLast hne) hw2
      refine (hW0 w).mpr ⟨w.getLast hne, _, he, ?_⟩
      conv_lhs => rw [← hwe]
      rw [hdl]
      rfl
  · -- fcorr
    intro w hw
    rcases hw with hw | hw
    · exact absurd hw (List.not_mem_nil w)
    · obtain ⟨a, s, hga, rfl⟩ := (hW0 w).mp hw
      rw [alg3Init_fail]
      rw [if_pos ⟨a, by rw [alphabetL, List.mem_range]; exact hgb (0, a) s hga,
        by rw [(hchildst a s hga).2]; exact hg1 a s hga,
        by
          rw [(hchildst a s hga).2]
          have := (hb (0, a) s hga).2.2.1
          omega⟩]
      rfl
  · -- ocorr
    intro w hw
    rcases hw with hw | hw
    · exact absurd hw (List.not_mem_nil w)
    · obtain ⟨a, s, hga, rfl⟩ := (hW0 w).mp hw
      rw [alg3Init_output]
      rw [show (⟨[], [], out2⟩ : Alg3St).output = out2 from rfl]
      rw [hout2 [a] (hchildst a s hga).1]
      constructor
      · by_cases hm : [a] ∈ K
        · rw [if_pos hm]
          exact List.nodup_singleton _
        · rw [if_neg hm]
          exact List.nodup_nil
      · intro k
        constructor
        · intro hk
          by_cases hm : [a] ∈ K
          · rw [if_pos hm] at hk
            rw [List.mem_singleton.mp hk]
            exact ⟨hm, List.suffix_refl _⟩
          · rw [if_neg hm] at hk
            exact absurd hk (List.not_mem_nil k)
        · rintro ⟨hk, hsuf⟩
          rcases List.suffix_cons_iff.mp hsuf with h2 | h2
          · subst h2
            rw [if_pos hk]
            exact List.mem_singleton.mpr rfl
          · rw [List.suffix_nil.mp h2] at hk
            exact absurd rfl (hKne [] hk)
  · -- ofresh
    intro w hw _ hnq
    rw [alg3Init_output]
    rw [show (⟨[], [], out2⟩ : Alg3St).output = out2 from rfl]
    exact hout2 w hw

/-- The word list of the goto children of a popped word. -/
theorem childWords_spec (gt : StateDict) (hgb : GotoBytes gt) (u : List Nat) :
    (∀ w, w ∈ alphabetL.filterMap (fun a =>
        match sdFind gt (stOf gt u, a) with
        | some _ => some (u ++ [a])
        | none => none) ↔ ∃ a s, sdFind gt (stOf gt u, a) = some s ∧ w = u ++ [a]) := by
  intro w
  rw [List.mem_filterMap]
  constructor
  · rintro ⟨a, _, hfa⟩
    cases hga : sdFind gt (stOf gt u, a) with
    | none =>
      rw [hga] at hfa
      exact absurd hfa (by simp)
    | some s =>
      rw [hga] at hfa
      simp only at hfa
      exact ⟨a, s, hga, (Option.some.inj hfa).symm⟩
  · rintro ⟨a, s, hga, rfl⟩
    refine ⟨a, ?_, ?_⟩
    · rw [alphabetL, List.mem_range]
      exact hgb (stOf gt u, a) s hga
    · rw [hga]

/-- One pop of the Algorithm 3 BFS preserves the invariant, moving the popped
word to the done side and enqueueing its goto children. -/
theorem A3Inv_step (K : List (List Nat)) (gt : StateDict) (ns : Nat)
    (hb : GotoBound gt ns) (hpu : ParentUnique gt) (hgb : GotoBytes gt)
    (hKcons : ∀ k ∈ K, consumedB gt k = true)
    (st : Alg3St) (doneW : List (List Nat)) (u : List Nat) (qtl : List (List Nat))
    (hinv : A3Inv K gt st doneW (u :: qtl)) :
    A3Inv K gt
      (alphabetL.foldl (alg3Child (completeRoot gt) (ns + 1) (stOf gt u))
        ⟨qtl.map (stOf gt), st.fail, st.output⟩)
      (doneW ++ [u])
      (qtl ++ alphabetL.filterMap (fun a =>
        match sdFind gt (stOf gt u, a) with
        | some _ => some (u ++ [a])
        | none => none)) := by
  obtain ⟨hu, hune⟩ := hinv.qcons u (List.mem_cons_self _ _)
  have huns : u.length ≤ ns :=
    le_trans (length_le_stOf gt ns hb u hu) (stOf_le gt ns hb u)
  have hr1 : 1 ≤ stOf gt u := stOf_pos gt ns hb u hu hune
  have hupos : 1 ≤ u.length := by
    cases u with
    | nil => exact absurd rfl hune
    | cons c r => simp
  have hWc := childWords_spec gt hgb u
  have hinj : ∀ (x y : List Nat), consumedB gt x = true → consumedB gt y = true →
      stOf gt x = stOf gt y → x = y := by
    intro x y hx hy hxy
    exact stOf_inj gt ns hb hpu (x.length + y.length) x y (by omega) (by omega)
      hx hy hxy
  have hdlu : ∀ a : Nat, (u ++ [a]).dropLast = u := by
    intro a
    exact List.dropLast_concat
  have hCne : ∀ (v : List Nat) (a : Nat), v ++ [a] ≠ [] := by
    intro v a h
    have := congrArg List.length h
    simp at this
  have hnd3 := List.nodup_append.mp hinv.wnodup
  have hCfresh : ∀ w, w ∈ alphabetL.filterMap (fun a =>
      match sdFind gt (stOf gt u, a) with
      | some _ => some (u ++ [a])
      | none => none) → w ∉ doneW ∧ w ∉ u :: qtl := by
    intro w hwC
    obtain ⟨a, s, hga, rfl⟩ := (hWc _).mp hwC
    have hold : (u ++ [a]) ∈ doneW ∨ (u ++ [a]) ∈ u :: qtl → False := by
      intro hmem
      have horg := hinv.origin (u ++ [a]) hmem
      rw [hdlu a] at horg
      rcases horg with h2 | h2
      · exact hnd3.2.2 h2 (List.mem_cons_self _ _)
      · exact hune h2
    exact ⟨fun h => hold (Or.inl h), fun h => hold (Or.inr h)⟩
  have hCmem : ∀ a s, sdFind gt (stOf gt u, a) = some s →
      (u ++ [a]) ∈ alphabetL.filterMap (fun a2 =>
        match sdFind gt (stOf gt u, a2) with
        | some _ => some (u ++ [a2])
        | none => none) := by
    intro a s hga
    exact (hWc _).mpr ⟨a, s, hga, rfl⟩
  have hu_le : ∀ w2 ∈ qtl, u.length ≤ w2.length :=
    (List.pairwise_cons.mp hinv.sorted).1
  have hqtl_sorted := (List.pairwise_cons.mp hinv.sorted).2
  have henqle : ∀ x, consumedB gt x = true → x ≠ [] → x.length ≤ u.length →
      x ∈ doneW ∨ x ∈ u :: qtl := by
    intro x hx hxne hxlen
    refine A3Inv_enq K gt st doneW (u :: qtl) hinv x hx hxne ?_
    intro w2 hw2
    rcases List.mem_cons.mp hw2 with h2 | h2
    · rw [h2]
      exact hxlen
    · exact le_trans hxlen (hu_le w2 h2)
  have hfailE : ∀ x, consumedB gt x = true → x ≠ [] → x.length ≤ u.length →
      fdFind (⟨qtl.map (stOf gt), st.fail, st.output⟩ : Alg3St).fail (stOf gt x)
        = some (stOf gt (psufT gt x)) := by
    intro x hx hxne hxlen
    exact hinv.fcorr x (henqle x hx hxne hxlen)
  have houtE : ∀ x, consumedB gt x = true → x.length ≤ u.length →
      (outGet (⟨qtl.map (stOf gt), st.fail, st.output⟩ : Alg3St).output
        (stOf gt x)).Nodup ∧
      (∀ k, k ∈ outGet (⟨qtl.map (stOf gt), st.fail, st.output⟩ : Alg3St).output
        (stOf gt x) ↔ (k ∈ K ∧ k <:+ x)) := by
    intro x hx hxlen
    by_cases hxne : x = []
    · subst hxne
      have hnd1 : ([] : List Nat) ∉ doneW := fun h => (hinv.dcons [] h).2 rfl
      have hnq1 : ([] : List Nat) ∉ u :: qtl := fun h => (hinv.qcons [] h).2 rfl
      have hfr := hinv.ofresh [] (consumedB_nil gt) hnd1 hnq1
      rw [show (⟨qtl.map (stOf gt), st.fail, st.output⟩ : Alg3St).output
        = st.output from rfl, hfr]
      by_cases hk0 : ([] : List Nat) ∈ K
      · rw [if_pos hk0]
        refine ⟨List.nodup_singleton _, ?_⟩
        intro k
        constructor
        · intro hk
          rw [List.mem_singleton.mp hk]
          exact ⟨hk0, List.suffix_refl _⟩
        · rintro ⟨_, hsuf⟩
          rw [List.suffix_nil.mp hsuf]
          exact List.mem_singleton.mpr rfl
      · rw [if_neg hk0]
        refine ⟨List.nodup_nil, ?_⟩
        intro k
        constructor
        · intro hk
          exact absurd hk (List.not_mem_nil k)
        · rintro ⟨hk, hsuf⟩
          rw [List.suffix_nil.mp hsuf] at hk
          exact absurd hk hk0
    · exact hinv.ocorr x (henqle x hx hxne hxlen)
  have houtF : ∀ a ∈ alphabetL, ∀ s, sdFind gt (stOf gt u, a) = some s →
      outGet (⟨qtl.map (stOf gt), st.fail, st.output⟩ : Alg3St).output s
        = if (u ++ [a]) ∈ K then [u ++ [a]] else [] := by
    intro a _ s hga
    have hc := consumedB_step gt u a s hu hga
    have hf := hCfresh (u ++ [a]) (hCmem a s hga)
    have hfr := hinv.ofresh (u ++ [a]) hc.1 hf.1 hf.2
    rw [← hc.2]
    exact hfr
  obtain ⟨c1, c2, c3, c4, c5⟩ := alg3Child_foldl_spec K gt ns hb hpu hgb hKcons
    u hu hune huns alphabetL (by rw [alphabetL]; exact List.nodup_range 256)
    ⟨qtl.map (stOf gt), st.fail, st.output⟩ hfailE houtE houtF
  have hnotchild : ∀ w, consumedB gt w = true →
      w ∉ alphabetL.filterMap (fun a =>
        match sdFind gt (stOf gt u, a) with
        | some _ => some (u ++ [a])
        | none => none) →
      (∀ a ∈ alphabetL, ∀ s, sdFind gt (stOf gt u, a) = some s → stOf gt w ≠ s) := by
    intro w hwcons hwC a _ s hga heq
    have hc := consumedB_step gt u a s hu hga
    have hwe : w = u ++ [a] := hinj w (u ++ [a]) hwcons hc.1 (by rw [heq, hc.2])
    rw [hwe] at hwC
    exact hwC (hCmem a s hga)
  refine ⟨?_, ?_, ?_, ?_, ?_, ?_, ?_, ?_, ?_, ?_, ?_, ?_⟩
  · -- qrep
    rw [c1, List.map_append]
    rw [show (⟨qtl.map (stOf gt), st.fail, st.output⟩ : Alg3St).queue
      = qtl.map (stOf gt) from rfl]
    rw [List.map_filterMap]
    refine congrArg (qtl.map (stOf gt) ++ ·) ?_
    refine List.filterMap_congr ?_
    intro a _
    have hcrn : sdFind (completeRoot gt) (stOf gt u, a) = sdFind gt (stOf gt u, a) :=
      completeRoot_nonroot gt (stOf gt u, a) (by simp only; omega)
    rw [hcrn]
    cases hga : sdFind gt (stOf gt u, a) with
    | none =>
      dsimp only
      rfl
    | some s =>
      dsimp only
      rw [Option.map_some', (consumedB_step gt u a s hu hga).2]
  · -- wnodup
    have hre : (doneW ++ [u]) ++ (qtl ++ alphabetL.filterMap (fun a =>
        match sdFind gt (stOf gt u, a) with
        | some _ => some (u ++ [a])
        | none => none))
        = (doneW ++ u :: qtl) ++ alphabetL.filterMap (fun a =>
        match sdFind gt (stOf gt u, a) with
        | some _ => some (u ++ [a])
        | none => none) := by
      simp
    rw [hre]
    refine List.nodup_append.mpr ⟨hinv.wnodup, ?_, ?_⟩
    · refine List.Nodup.filterMap ?_ (by rw [alphabetL]; exact List.nodup_range 256)
      intro a a2 w h1 h2
      have h1b := Option.mem_def.mp h1
      have h2b := Option.mem_def.mp h2
      cases hga : sdFind gt (stOf gt u, a) with
      | none => rw [hga] at h1b; exact absurd h1b (by simp)
      | some s =>
        rw [hga] at h1b
        simp only at h1b
        cases hga2 : sdFind gt (stOf gt u, a2) with
        | none => rw [hga2] at h2b; exact absurd h2b (by simp)
        | some s2 =>
          rw [hga2] at h2b
          simp only at h2b
          have h3 : u ++ [a] = u ++ [a2] := by
            rw [Option.some.inj h1b, Option.some.inj h2b]
          exact (List.cons.inj (List.append_cancel_left h3)).1
    · intro w hw hwC
      have hf := hCfresh w hwC
      rcases List.mem_append.mp hw with h2 | h2
      · exact hf.1 h2
      · exact hf.2 h2
  · -- origin
    intro w hw
    have hold : w ∈ doneW ∨ w ∈ u :: qtl → (w.dropLast ∈ doneW ++ [u] ∨ w.dropLast = []) := by
      intro h
      exact (hinv.origin w h).imp (List.mem_append_left _) id
    rcases hw with hw | hw
    · rcases List.mem_append.mp hw with h2 | h2
      · exact hold (Or.inl h2)
      · exact hold (Or.inr (by rw [List.mem_singleton.mp h2]; exact List.mem_cons_self _ _))
    · rcases List.mem_append.mp hw with h2 | h2
      · exact hold (Or.inr (List.mem_cons_of_mem _ h2))
      · obtain ⟨a, s, hga, rfl⟩ := (hWc w).mp h2
        rw [hdlu a]
        exact Or.inl (List.mem_append_right _ (List.mem_singleton.mpr rfl))
  · -- dcons
    intro w hw
    rcases List.mem_append.mp hw with h2 | h2
    · exact hinv.dcons w h2
    · rw [List.mem_singleton.mp h2]
      exact ⟨hu, hune⟩
  · -- qcons
    intro w hw
    rcases List.mem_append.mp hw with h2 | h2
    · exact hinv.qcons w (List.mem_cons_of_mem _ h2)
    · obtain ⟨a, s, hga, rfl⟩ := (hWc w).mp h2
      exact ⟨(consumedB_step gt u a s hu hga).1, hCne u a⟩
  · -- sorted
    refine List.pairwise_append.mpr ⟨hqtl_sorted, ?_, ?_⟩
    · refine pairwise_of_all _ ?_
      intro x hx y hy
      obtain ⟨a, s, _, rfl⟩ := (hWc x).mp hx
      obtain ⟨a2, s2, _, rfl⟩ := (hWc y).mp hy
      simp
    · intro w1 h1 w2 h2
      obtain ⟨a, s, _, rfl⟩ := (hWc w2).mp h2
      have := hinv.span w1 (List.mem_cons_of_mem _ h1) u (List.mem_cons_self _ _)
      rw [List.length_append]
      simp only [List.length_singleton]
      omega
  · -- span
    intro w1 h1 w2 h2
    rcases List.mem_append.mp h1 with h1b | h1b
    · rcases List.mem_append.mp h2 with h2b | h2b
      · exact hinv.span w1 (List.mem_cons_of_mem _ h1b) w2 (List.mem_cons_of_mem _ h2b)
      · obtain ⟨a, s, _, rfl⟩ := (hWc w2).mp h2b
        have := hinv.span w1 (List.mem_cons_of_mem _ h1b) u (List.mem_cons_self _ _)
        rw [List.length_append]
        simp only [List.length_singleton]
        omega
    · obtain ⟨a, s, _, rfl⟩ := (hWc w1).mp h1b
      rcases List.mem_append.mp h2 with h2b | h2b
      · have := hu_le w2 h2b
        rw [List.length_append]
        simp only [List.length_singleton]
        omega
      · obtain ⟨a2, s2, _, rfl⟩ := (hWc w2).mp h2b
        rw [List.length_append, List.length_append]
        simp only [List.length_singleton]
        omega
  · -- shallow
    intro w hwcons hwne hlen
    by_cases hle : w.length ≤ u.length
    · rcases henqle w hwcons hwne hle with h2 | h2
      · exact List.mem_append_left _ h2
      · rcases List.mem_cons.mp h2 with h3 | h3
        · rw [h3]
          exact List.mem_append_right _ (List.mem_singleton.mpr rfl)
        · exfalso
          have := hlen w (List.mem_append_left _ h3)
          omega
    · have hq0 : qtl = [] := by
        refine List.eq_nil_iff_forall_not_mem.mpr ?_
        intro x hx
        have h1 := hlen x (List.mem_append_left _ hx)
        have h2 := hinv.span x (List.mem_cons_of_mem _ hx) u (List.mem_cons_self _ _)
        omega
      have hC0 : alphabetL.filterMap (fun a =>
          match sdFind gt (stOf gt u, a) with
          | some _ => some (u ++ [a])
          | none => none) = [] := by
        refine List.eq_nil_iff_forall_not_mem.mpr ?_
        intro x hx
        have h1 := hlen x (List.mem_append_right _ hx)
        obtain ⟨a, s, _, rfl⟩ := (hWc x).mp hx
        rw [List.length_append] at h1
        simp only [List.length_singleton] at h1
        omega
      have haux : ∀ n w2, w2.length ≤ n → consumedB gt w2 = true → w2 ≠ [] →
          w2 ∈ doneW ++ [u] := by
        intro n
        induction n with
        | zero =>
          intro w2 h2len _ h2ne
          exact absurd (List.length_eq_zero.mp (by omega)) h2ne
        | succ n ih =>
          intro w2 h2len h2c h2ne
          by_cases h2le : w2.length ≤ u.length
          · rcases henqle w2 h2c h2ne h2le with h3 | h3
            · exact List.mem_append_left _ h3
            · rcases List.mem_cons.mp h3 with h4 | h4
              · rw [h4]
                exact List.mem_append_right _ (List.mem_singleton.mpr rfl)
              · rw [hq0] at h4
                exact absurd h4 (List.not_mem_nil _)
          · have hwe : w2.dropLast ++ [w2.getLast h2ne] = w2 :=
              List.dropLast_append_getLast h2ne
            have hpc : consumedB gt w2.dropLast = true := by
              refine consumedB_append_left gt _ [w2.getLast h2ne] ?_
              rw [hwe]
              exact h2c
            have hpne : w2.dropLast ≠ [] := by
              intro h
              have := congrArg List.length h
              rw [List.length_dropLast] at this
              simp at this
              omega
            have hpmem := ih w2.dropLast (by rw [List.length_dropLast]; omega) hpc hpne
            rcases List.mem_append.mp hpmem with hpd | hpu2
            · rcases hinv.closure w2 h2c h2ne (Or.inl hpd) with h3 | h3
              · exact List.mem_append_left _ h3
              · rcases List.mem_cons.mp h3 with h4 | h4
                · rw [h4] at h2le
                  omega
                · rw [hq0] at h4
                  exact absurd h4 (List.not_mem_nil _)
            · have hpu3 : w2.dropLast = u := List.mem_singleton.mp hpu2
              obtain ⟨_, hedge⟩ := consumedB_concat gt w2.dropLast (w2.getLast h2ne)
                (by rw [hwe]; exact h2c)
              rw [hpu3] at hedge
              exfalso
              have hmem : w2 ∈ alphabetL.filterMap (fun a =>
                  match sdFind gt (stOf gt u, a) with
                  | some _ => some (u ++ [a])
                  | none => none) := by
                refine (hWc w2).mpr ⟨w2.getLast h2ne, _, hedge, ?_⟩
                conv_lhs => rw [← hwe]
                rw [hpu3]
              rw [hC0] at hmem
              exact List.not_mem_nil _ hmem
      exact haux w.length w (le_refl _) hwcons hwne
  · -- closure
    intro w hwc hwne hdl
    have hmap : w ∈ doneW ∨ w ∈ u :: qtl →
        (w ∈ doneW ++ [u] ∨ w ∈ qtl ++ alphabetL.filterMap (fun a =>
          match sdFind gt (stOf gt u, a) with
          | some _ => some (u ++ [a])
          | none => none)) := by
      intro h
      rcases h with h2 | h2
      · exact Or.inl (List.mem_append_left _ h2)
      · rcases List.mem_cons.mp h2 with h3 | h3
        · exact Or.inl (by rw [h3]; exact List.mem_append_right _ (List.mem_singleton.mpr rfl))
        · exact Or.inr (List.mem_append_left _ h3)
    rcases hdl with hdl | hdl
    · rcases List.mem_append.mp hdl with h2 | h2
      · exact hmap (hinv.closure w hwc hwne (Or.inl h2))
      · have hdu : w.dropLast = u := List.mem_singleton.mp h2
        have hwe : w.dropLast ++ [w.getLast hwne] = w :=
          List.dropLast_append_getLast hwne
        obtain ⟨_, hedge⟩ := consumedB_concat gt w.dropLast (w.getLast hwne)
          (by rw [hwe]; exact hwc)
        rw [hdu] at hedge
        refine Or.inr (List.mem_append_right _ ?_)
        refine (hWc w).mpr ⟨w.getLast hwne, _, hedge, ?_⟩
        conv_lhs => rw [← hwe]
        rw [hdu]
    · exact hmap (hinv.closure w hwc hwne (Or.inr hdl))
  · -- fcorr
    intro w hw
    have hcases : w ∈ alphabetL.filterMap (fun a =>
        match sdFind gt (stOf gt u, a) with
        | some _ => some (u ++ [a])
        | none => none) ∨ (w ∈ doneW ∨ w ∈ u :: qtl) := by
      rcases hw with h | h
      · rcases List.mem_append.mp h with h2 | h2
        · exact Or.inr (Or.inl h2)
        · exact Or.inr (Or.inr (by rw [List.mem_singleton.mp h2]; exact List.mem_cons_self _ _))
      · rcases List.mem_append.mp h with h2 | h2
        · exact Or.inr (Or.inr (List.mem_cons_of_mem _ h2))
        · exact Or.inl h2
    rcases hcases with hwC | hwold
    · obtain ⟨a, s, hga, rfl⟩ := (hWc w).mp hwC
      have hstep := consumedB_step gt u a s hu hga
      have ha : a ∈ alphabetL := by
        rw [alphabetL, List.mem_range]
        exact hgb (stOf gt u, a) s hga
      rw [hstep.2]
      exact c4 a ha s hga
    · have hwcons : consumedB gt w = true ∧ w ≠ [] := by
        rcases hwold with h | h
        · exact hinv.dcons w h
        · exact hinv.qcons w h
      have hnc : w ∉ alphabetL.filterMap (fun a =>
          match sdFind gt (stOf gt u, a) with
          | some _ => some (u ++ [a])
          | none => none) := by
        intro hwC
        have hf := hCfresh w hwC
        rcases hwold with h | h
        · exact hf.1 h
        · exact hf.2 h
      rw [c2 (stOf gt w) (hnotchild w hwcons.1 hnc)]
      exact hinv.fcorr w hwold
  · -- ocorr
    intro w hw
    have hcases : w ∈ alphabetL.filterMap (fun a =>
        match sdFind gt (stOf gt u, a) with
        | some _ => some (u ++ [a])
        | none => none) ∨ (w ∈ doneW ∨ w ∈ u :: qtl) := by
      rcases hw with h | h
      · rcases List.mem_append.mp h with h2 | h2
        · exact Or.inr (Or.inl h2)
        · exact Or.inr (Or.inr (by rw [List.mem_singleton.mp h2]; exact List.mem_cons_self _ _))
      · rcases List.mem_append.mp h with h2 | h2
        · exact Or.inr (Or.inr (List.mem_cons_of_mem _ h2))
        · exact Or.inl h2
    rcases hcases with hwC | hwold
    · obtain ⟨a, s, hga, rfl⟩ := (hWc w).mp hwC
      have hstep := consumedB_step gt u a s hu hga
      have ha : a ∈ alphabetL := by
        rw [alphabetL, List.mem_range]
        exact hgb (stOf gt u, a) s hga
      rw [hstep.2]
      exact c5 a ha s hga
    · have hwcons : consumedB gt w = true ∧ w ≠ [] := by
        rcases hwold with h | h
        · exact hinv.dcons w h
        · exact hinv.qcons w h
      have hnc : w ∉ alphabetL.filterMap (fun a =>
          match sdFind gt (stOf gt u, a) with
          | some _ => some (u ++ [a])
          | none => none) := by
        intro hwC
        have hf := hCfresh w hwC
        rcases hwold with h | h
        · exact hf.1 h
        · exact hf.2 h
      rw [c3 (stOf gt w) (hnotchild w hwcons.1 hnc)]
      exact hinv.ocorr w hwold
  · -- ofresh
    intro w hwc hnd hnq
    have hnC : w ∉ alphabetL.filterMap (fun a =>
        match sdFind gt (stOf gt u, a) with
        | some _ => some (u ++ [a])
        | none => none) := fun h => hnq (List.mem_append_right _ h)
    rw [c3 (stOf gt w) (hnotchild w hwc hnC)]
    refine hinv.ofresh w hwc (fun h => hnd (List.mem_append_left _ h)) ?_
    intro h
    rcases List.mem_cons.mp h with h2 | h2
    · exact hnd (by rw [h2]; exact List.mem_append_right _ (List.mem_singleton.mpr rfl))
    · exact hnq (List.mem_append_left _ h2)

/-- Unfolding of the Algorithm 3 loop on an empty queue. -/
theorem alg3Loop_nil (g : StateDict) (desc fuel : Nat) (st : Alg3St)
    (h : st.queue = []) : alg3Loop g desc (fuel + 1) st = (st.fail, st.output) := by
  rw [alg3Loop, h]

/-- Unfolding of the Algorithm 3 loop on a pop. -/
theorem alg3Loop_cons (g : StateDict) (desc fuel : Nat) (st : Alg3St) (r : Nat)
    (q : List Nat) (h : st.queue = r :: q) :
    alg3Loop g desc (fuel + 1) st
      = alg3Loop g desc fuel
          (alphabetL.foldl (alg3Child g desc r) ⟨q, st.fail, st.output⟩) := by
  rw [alg3Loop, h]

/-- With fuel covering the remaining states, the Algorithm 3 BFS drains the
queue and returns the fail and output maps of an invariant state. -/
theorem alg3Loop_run (K : List (List Nat)) (gt : StateDict) (ns : Nat)
    (hb : GotoBound gt ns) (hpu : ParentUnique gt) (hgb : GotoBytes gt)
    (hKcons : ∀ k ∈ K, consumedB gt k = true) :
    ∀ (fuel : Nat) (st : Alg3St) (doneW qW : List (List Nat)),
      A3Inv K gt st doneW qW → ns + 1 ≤ fuel + doneW.length →
      ∃ (st2 : Alg3St) (doneW2 : List (List Nat)),
        A3Inv K gt st2 doneW2 [] ∧
        alg3Loop (completeRoot gt) (ns + 1) fuel st = (st2.fail, st2.output) := by
  intro fuel
  induction fuel with
  | zero =>
    intro st doneW qW hinv hfuel
    have hcount := A3Inv_count K gt ns hb hpu st doneW qW hinv
    exact absurd hfuel (by omega)
  | succ fuel ih =>
    intro st doneW qW hinv hfuel
    cases qW with
    | nil =>
      refine ⟨st, doneW, hinv, ?_⟩
      exact alg3Loop_nil _ _ fuel st (by rw [hinv.qrep]; rfl)
    | cons u qtl =>
      have hstep := A3Inv_step K gt ns hb hpu hgb hKcons st doneW u qtl hinv
      have hqe : st.queue = stOf gt u :: qtl.map (stOf gt) := by
        rw [hinv.qrep]
        rfl
      rw [alg3Loop_cons (completeRoot gt) (ns + 1) fuel st (stOf gt u)
        (qtl.map (stOf gt)) hqe]
      refine ih _ (doneW ++ [u]) _ hstep ?_
      rw [List.length_append]
      simp only [List.length_singleton]
      omega

/-- The Algorithm 2 output value of the root state satisfies the output
characterization at the empty word. -/
theorem outNil_iff (K : List (List Nat)) :
    (if ([] : List Nat) ∈ K then [([] : List Nat)] else []).Nodup ∧
    (∀ k, k ∈ (if ([] : List Nat) ∈ K then [([] : List Nat)] else [])
      ↔ (k ∈ K ∧ k <:+ ([] : List Nat))) := by
  by_cases hk0 : ([] : List Nat) ∈ K
  · rw [if_pos hk0]
    refine ⟨List.nodup_singleton _, ?_⟩
    intro k
    constructor
    · intro hk
      rw [List.mem_singleton.mp hk]
      exact ⟨hk0, List.suffix_refl _⟩
    · rintro ⟨_, hsuf⟩
      rw [List.suffix_nil.mp hsuf]
      exact List.mem_singleton.mpr rfl
  · rw [if_neg hk0]
    refine ⟨List.nodup_nil, ?_⟩
    intro k
    constructor
    · intro hk
      exact absurd hk (List.not_mem_nil k)
    · rintro ⟨hk, hsuf⟩
      rw [List.suffix_nil.mp hsuf] at hk
      exact absurd hk hk0

/-- In a terminal invariant state the failure links and outputs are correct for
every consumed word. -/
theorem A3Inv_final (K : List (List Nat)) (gt : StateDict) (st : Alg3St)
    (doneW : List (List Nat)) (hinv : A3Inv K gt st doneW []) :
    (∀ w, consumedB gt w = true → w ≠ [] →
      fdFind st.fail (stOf gt w) = some (stOf gt (psufT gt w))) ∧
    (∀ w, consumedB gt w = true →
      (outGet st.output (stOf gt w)).Nodup ∧
      (∀ k, k ∈ outGet st.output (stOf gt w) ↔ (k ∈ K ∧ k <:+ w))) := by
  have hdone : ∀ w, consumedB gt w = true → w ≠ [] → w ∈ doneW := by
    intro w hw hne
    exact hinv.shallow w hw hne (fun w2 h => absurd h (List.not_mem_nil w2))
  constructor
  · intro w hw hne
    exact hinv.fcorr w (Or.inl (hdone w hw hne))
  · intro w hw
    by_cases hne : w = []
    · subst hne
      have hnd1 : ([] : List Nat) ∉ doneW := fun h => (hinv.dcons [] h).2 rfl
      have hfr := hinv.ofresh [] (consumedB_nil gt) hnd1 (List.not_mem_nil _)
      rw [hfr]
      exact outNil_iff K
    · exact hinv.ocorr w (Or.inl (hdone w hw hne))

/-- Correctness of Algorithm 3 as run by `build`: starting from the Algorithm 2
outputs, the returned fail map sends each live state to the state of the
longest proper suffix, and the returned output map holds exactly the keyword
suffixes of each state's word. -/
theorem alg3_correct (K : List (List Nat)) (gt : StateDict) (ns : Nat)
    (hb : GotoBound gt ns) (hpu : ParentUnique gt) (hgb : GotoBytes gt)
    (hKcons : ∀ k ∈ K, consumedB gt k = true) (hKne : ∀ k ∈ K, k ≠ [])
    (out2 : OutMap)
    (hout2 : ∀ u, consumedB gt u = true →
      outGet out2 (stOf gt u) = if u ∈ K then [u] else []) :
    (∀ w, consumedB gt w = true → w ≠ [] →
      fdFind (alg3Loop (completeRoot gt) (ns + 1) (ns + 1)
          (alphabetL.foldl (alg3InitStep (completeRoot gt)) ⟨[], [], out2⟩)).1
        (stOf gt w) = some (stOf gt (psufT gt w))) ∧
    (∀ w, consumedB gt w = true →
      (outGet (alg3Loop (completeRoot gt) (ns + 1) (ns + 1)
          (alphabetL.foldl (alg3InitStep (completeRoot gt)) ⟨[], [], out2⟩)).2
        (stOf gt w)).Nodup ∧
      (∀ k, k ∈ outGet (alg3Loop (completeRoot gt) (ns + 1) (ns + 1)
          (alphabetL.foldl (alg3InitStep (completeRoot gt)) ⟨[], [], out2⟩)).2
        (stOf gt w) ↔ (k ∈ K ∧ k <:+ w))) := by
  have hinit := A3Inv_init K gt ns hb hpu hgb hKne out2 hout2
  obtain ⟨st2, doneW2, hfin, heq⟩ := alg3Loop_run K gt ns hb hpu hgb hKcons (ns + 1)
    (alphabetL.foldl (alg3InitStep (completeRoot gt)) ⟨[], [], out2⟩) [] _ hinit
    (by simp)
  rw [heq]
  exact A3Inv_final K gt st2 doneW2 hfin

/-- All words of length up to the queue minimum are already enqueued
(ghost-bookkeeping version). -/
theorem GhostW_enq (gt : StateDict) (doneW qW : List (List Nat))
    (hinv : GhostW gt doneW qW) :
    ∀ w, consumedB gt w = true → w ≠ [] →
      (∀ w2 ∈ qW, w.length ≤ w2.length) → w ∈ doneW ∨ w ∈ qW := by
  intro w hw hne hlen
  by_cases hp : w.dropLast = []
  · exact hinv.closure w hw hne (Or.inr hp)
  · have hwe : w.dropLast ++ [w.getLast hne] = w := List.dropLast_append_getLast hne
    have hpcons : consumedB gt w.dropLast = true := by
      refine consumedB_append_left gt _ [w.getLast hne] ?_
      rw [hwe]
      exact hw
    have hwpos : 1 ≤ w.length := by
      cases w with
      | nil => exact absurd rfl hne
      | cons c r => simp
    have hplen : ∀ w2 ∈ qW, w.dropLast.length < w2.length := by
      intro w2 hw2
      have := hlen w2 hw2
      rw [List.length_dropLast]
      omega
    have hpd : w.dropLast ∈ doneW := hinv.shallow w.dropLast hpcons hp hplen
    exact hinv.closure w hw hne (Or.inl hpd)

/-- The done and queued ghost words map to distinct live states, bounding their
number. -/
theorem GhostW_count (gt : StateDict) (ns : Nat)
    (hb : GotoBound gt ns) (hpu : ParentUnique gt)
    (doneW qW : List (List Nat)) (hinv : GhostW gt doneW qW) :
    doneW.length + qW.length ≤ ns := by
  have hall : ∀ w ∈ doneW ++ qW, consumedB gt w = true ∧ w ≠ [] := by
    intro w hw
    rcases List.mem_append.mp hw with h | h
    · exact hinv.dcons w h
    · exact hinv.qcons w h
  have hmapnd : ((doneW ++ qW).map (stOf gt)).Nodup := by
    refine List.Nodup.map_on ?_ hinv.wnodup
    intro x hx y hy hxy
    exact stOf_inj gt ns hb hpu (x.length + y.length) x y (by omega) (by omega)
      (hall x hx).1 (hall y hy).1 hxy
  have hsub : ((doneW ++ qW).map (stOf gt)).toFinset ⊆ Finset.Icc 1 ns := by
    intro x hx
    rw [List.mem_toFinset, List.mem_map] at hx
    obtain ⟨w, hw, rfl⟩ := hx
    refine Finset.mem_Icc.mpr ⟨?_, stOf_le gt ns hb w⟩
    exact stOf_pos gt ns hb w (hall w hw).1 (hall w hw).2
  have hcard := Finset.card_le_card hsub
  rw [List.toFinset_card_of_nodup hmapnd, Nat.card_Icc, List.length_map,
    List.length_append] at hcard
  omega

/-- One BFS pop preserves the ghost bookkeeping, moving the popped word to the
done side and enqueueing its goto children. -/
theorem GhostW_step (gt : StateDict) (ns : Nat)
    (hb : GotoBound gt ns) (hpu : ParentUnique gt) (hgb : GotoBytes gt)
    (doneW : List (List Nat)) (u : List Nat) (qtl : List (List Nat))
    (hinv : GhostW gt doneW (u :: qtl)) :
    GhostW gt (doneW ++ [u])
      (qtl ++ alphabetL.filterMap (fun a =>
        match sdFind gt (stOf gt u, a) with
        | some _ => some (u ++ [a])
        | none => none)) := by
  obtain ⟨hu, hune⟩ := hinv.qcons u (List.mem_cons_self _ _)
  have hr1 : 1 ≤ stOf gt u := stOf_pos gt ns hb u hu hune
  have hupos : 1 ≤ u.length := by
    cases u with
    | nil => exact absurd rfl hune
    | cons c r => simp
  have hWc := childWords_spec gt hgb u
  have hdlu : ∀ a : Nat, (u ++ [a]).dropLast = u := by
    intro a
    exact List.dropLast_concat
  have hCne : ∀ (v : List Nat) (a : Nat), v ++ [a] ≠ [] := by
    intro v a h
    have := congrArg List.length h
    simp at this
  have hnd3 := List.nodup_append.mp hinv.wnodup
  have hCfresh : ∀ w, w ∈ alphabetL.filterMap (fun a =>
      match sdFind gt (stOf gt u, a) with
      | some _ => some (u ++ [a])
      | none => none) → w ∉ doneW ∧ w ∉ u :: qtl := by
    intro w hwC
    obtain ⟨a, s, hga, rfl⟩ := (hWc _).mp hwC
    have hold : (u ++ [a]) ∈ doneW ∨ (u ++ [a]) ∈ u :: qtl → False := by
      intro hmem
      have horg := hinv.origin (u ++ [a]) hmem
      rw [hdlu a] at horg
      rcases horg with h2 | h2
      · exact hnd3.2.2 h2 (List.mem_cons_self _ _)
      · exact hune h2
    exact ⟨fun h => hold (Or.inl h), fun h => hold (Or.inr h)⟩
  have hu_le : ∀ w2 ∈ qtl, u.length ≤ w2.length :=
    (List.pairwise_cons.mp hinv.sorted).1
  have hqtl_sorted := (List.pairwise_cons.mp hinv.sorted).2
  have henqle : ∀ x, consumedB gt x = true → x ≠ [] → x.length ≤ u.length →
      x ∈ doneW ∨ x ∈ u :: qtl := by
    intro x hx hxne hxlen
    refine GhostW_enq gt doneW (u :: qtl) hinv x hx hxne ?_
    intro w2 hw2
    rcases List.mem_cons.mp hw2 with h2 | h2
    · rw [h2]
      exact hxlen
    · exact le_trans hxlen (hu_le w2 h2)
  refine ⟨?_, ?_, ?_, ?_, ?_, ?_, ?_, ?_⟩
  · -- wnodup
    have hre : (doneW ++ [u]) ++ (qtl ++ alphabetL.filterMap (fun a =>
        match sdFind gt (stOf gt u, a) with
        | some _ => some (u ++ [a])
        | none => none))
        = (doneW ++ u :: qtl) ++ alphabetL.filterMap (fun a =>
        match sdFind gt (stOf gt u, a) with
        | some _ => some (u ++ [a])
        | none => none) := by
      simp
    rw [hre]
    refine List.nodup_append.mpr ⟨hinv.wnodup, ?_, ?_⟩
    · refine List.Nodup.filterMap ?_ (by rw [alphabetL]; exact List.nodup_range 256)
      intro a a2 w h1 h2
      have h1b := Option.mem_def.mp h1
      have h2b := Option.mem_def.mp h2
      cases hga : sdFind gt (stOf gt u, a) with
      | none => rw [hga] at h1b; exact absurd h1b (by simp)
      | some s =>
        rw [hga] at h1b
        simp only at h1b
        cases hga2 : sdFind gt (stOf gt u, a2) with
        | none => rw [hga2] at h2b; exact absurd h2b (by simp)
        | some s2 =>
          rw [hga2] at h2b
          simp only at h2b
          have h3 : u ++ [a] = u ++ [a2] := by
            rw [Option.some.inj h1b, Option.some.inj h2b]
          exact (List.cons.inj (List.append_cancel_left h3)).1
    · intro w hw hwC
      have hf := hCfresh w hwC
      rcases List.mem_append.mp hw with h2 | h2
      · exact hf.1 h2
      · exact hf.2 h2
  · -- origin
    intro w hw
    have hold : w ∈ doneW ∨ w ∈ u :: qtl →
        (w.dropLast ∈ doneW ++ [u] ∨ w.dropLast = []) := by
      intro h
      exact (hinv.origin w h).imp (List.mem_append_left _) id
    rcases hw with hw | hw
    · rcases List.mem_append.mp hw with h2 | h2
      · exact hold (Or.inl h2)
      · exact hold (Or.inr (by rw [List.mem_singleton.mp h2]; exact List.mem_cons_self _ _))
    · rcases List.mem_append.mp hw with h2 | h2
      · exact hold (Or.inr (List.mem_cons_of_mem _ h2))
      · obtain ⟨a, s, hga, rfl⟩ := (hWc w).mp h2
        rw [hdlu a]
        exact Or.inl (List.mem_append_right _ (List.mem_singleton.mpr rfl))
  · -- dcons
    intro w hw
    rcases List.mem_append.mp hw with h2 | h2
    · exact hinv.dcons w h2
    · rw [List.mem_singleton.mp h2]
      exact ⟨hu, hune⟩
  · -- qcons
    intro w hw
    rcases List.mem_append.mp hw with h2 | h2
    · exact hinv.qcons w (List.mem_cons_of_mem _ h2)
    · obtain ⟨a, s, hga, rfl⟩ := (hWc w).mp h2
      exact ⟨(consumedB_step gt u a s hu hga).1, hCne u a⟩
  · -- sorted
    refine List.pairwise_append.mpr ⟨hqtl_sorted, ?_, ?_⟩
    · refine pairwise_of_all _ ?_
      intro x hx y hy
      obtain ⟨a, s, _, rfl⟩ := (hWc x).mp hx
      obtain ⟨a2, s2, _, rfl⟩ := (hWc y).mp hy
      simp
    · intro w1 h1 w2 h2
      obtain ⟨a, s, _, rfl⟩ := (hWc w2).mp h2
      have := hinv.span w1 (List.mem_cons_of_mem _ h1) u (List.mem_cons_self _ _)
      rw [List.length_append]
      simp only [List.length_singleton]
      omega
  · -- span
    intro w1 h1 w2 h2
    rcases List.mem_append.mp h1 with h1b | h1b
    · rcases List.mem_append.mp h2 with h2b | h2b
      · exact hinv.span w1 (List.mem_cons_of_mem _ h1b) w2 (List.mem_cons_of_mem _ h2b)
      · obtain ⟨a, s, _, rfl⟩ := (hWc w2).mp h2b
        have := hinv.span w1 (List.mem_cons_of_mem _ h1b) u (List.mem_cons_self _ _)
        rw [List.length_append]
        simp only [List.length_singleton]
        omega
    · obtain ⟨a, s, _, rfl⟩ := (hWc w1).mp h1b
      rcases List.mem_append.mp h2 with h2b | h2b
      · have := hu_le w2 h2b
        rw [List.length_append]
        simp only [List.length_singleton]
        omega
      · obtain ⟨a2, s2, _, rfl⟩ := (hWc w2).mp h2b
        rw [List.length_append, List.length_append]
        simp only [List.length_singleton]
        omega
  · -- shallow
    intro w hwcons hwne hlen
    by_cases hle : w.length ≤ u.length
    · rcases henqle w hwcons hwne hle with h2 | h2
      · exact List.mem_append_left _ h2
      · rcases List.mem_cons.mp h2 with h3 | h3
        · rw [h3]
          exact List.mem_append_right _ (List.mem_singleton.mpr rfl)
        · exfalso
          have := hlen w (List.mem_append_left _ h3)
          omega
    · have hq0 : qtl = [] := by
        refine List.eq_nil_iff_forall_not_mem.mpr ?_
        intro x hx
        have h1 := hlen x (List.mem_append_left _ hx)
        have h2 := hinv.span x (List.mem_cons_of_mem _ hx) u (List.mem_cons_self _ _)
        omega
      have hC0 : alphabetL.filterMap (fun a =>
          match sdFind gt (stOf gt u, a) with
          | some _ => some (u ++ [a])
          | none => none) = [] := by
        refine List.eq_nil_iff_forall_not_mem.mpr ?_
        intro x hx
        have h1 := hlen x (List.mem_append_right _ hx)
        obtain ⟨a, s, _, rfl⟩ := (hWc x).mp hx
        rw [List.length_append] at h1
        simp only [List.length_singleton] at h1
        omega
      have haux : ∀ n w2, w2.length ≤ n → consumedB gt w2 = true → w2 ≠ [] →
          w2 ∈ doneW ++ [u] := by
        intro n
        induction n with
        | zero =>
          intro w2 h2len _ h2ne
          exact absurd (List.length_eq_zero.mp (by omega)) h2ne
        | succ n ih =>
          intro w2 h2len h2c h2ne
          by_cases h2le : w2.length ≤ u.length
          · rcases henqle w2 h2c h2ne h2le with h3 | h3
            · exact List.mem_append_left _ h3
            · rcases List.mem_cons.mp h3 with h4 | h4
              · rw [h4]
                exact List.mem_append_right _ (List.mem_singleton.mpr rfl)
              · rw [hq0] at h4
                exact absurd h4 (List.not_mem_nil _)
          · have hwe : w2.dropLast ++ [w2.getLast h2ne] = w2 :=
              List.dropLast_append_getLast h2ne
            have hpc : consumedB gt w2.dropLast = true := by
              refine consumedB_append_left gt _ [w2.getLast h2ne] ?_
              rw [hwe]
              exact h2c
            have hpne : w2.dropLast ≠ [] := by
              intro h
              have := congrArg List.length h
              rw [List.length_dropLast] at this
              simp at this
              omega
            have hpmem := ih w2.dropLast (by rw [List.length_dropLast]; omega) hpc hpne
            rcases List.mem_append.mp hpmem with hpd | hpu2
            · rcases hinv.closure w2 h2c h2ne (Or.inl hpd) with h3 | h3
              · exact List.mem_append_left _ h3
              · rcases List.mem_cons.mp h3 with h4 | h4
                · rw [h4] at h2le
                  omega
                · rw [hq0] at h4
                  exact absurd h4 (List.not_mem_nil _)
            · have hpu3 : w2.dropLast = u := List.mem_singleton.mp hpu2
              obtain ⟨_, hedge⟩ := consumedB_concat gt w2.dropLast (w2.getLast h2ne)
                (by rw [hwe]; exact h2c)
              rw [hpu3] at hedge
              exfalso
              have hmem : w2 ∈ alphabetL.filterMap (fun a =>
                  match sdFind gt (stOf gt u, a) with
                  | some _ => some (u ++ [a])
                  | none => none) := by
                refine (hWc w2).mpr ⟨w2.getLast h2ne, _, hedge, ?_⟩
                conv_lhs => rw [← hwe]
                rw [hpu3]
              rw [hC0] at hmem
              exact List.not_mem_nil _ hmem
      exact haux w.length w (le_refl _) hwcons hwne
  · -- closure
    intro w hwc hwne hdl
    have hmap : w ∈ doneW ∨ w ∈ u :: qtl →
        (w ∈ doneW ++ [u] ∨ w ∈ qtl ++ alphabetL.filterMap (fun a =>
          match sdFind gt (stOf gt u, a) with
          | some _ => some (u ++ [a])
          | none => none)) := by
      intro h
      rcases h with h2 | h2
      · exact Or.inl (List.mem_append_left _ h2)
      · rcases List.mem_cons.mp h2 with h3 | h3
        · exact Or.inl (by rw [h3]; exact List.mem_append_right _ (List.mem_singleton.mpr rfl))
        · exact Or.inr (List.mem_append_left _ h3)
    rcases hdl with hdl | hdl
    · rcases List.mem_append.mp hdl with h2 | h2
      · exact hmap (hinv.closure w hwc hwne (Or.inl h2))
      · have hdu : w.dropLast = u := List.mem_singleton.mp h2
        have hwe : w.dropLast ++ [w.getLast hwne] = w :=
          List.dropLast_append_getLast hwne
        obtain ⟨_, hedge⟩ := consumedB_concat gt w.dropLast (w.getLast hwne)
          (by rw [hwe]; exact hwc)
        rw [hdu] at hedge
        refine Or.inr (List.mem_append_right _ ?_)
        refine (hWc w).mpr ⟨w.getLast hwne, _, hedge, ?_⟩
        conv_lhs => rw [← hwe]
        rw [hdu]
    · exact hmap (hinv.closure w hwc hwne (Or.inr hdl))

/-- The initial loop of Algorithm 4 does not touch keys whose byte is outside
the processed list. -/
theorem alg4Init_keys :
    ∀ (l : List Nat) (g : StateDict) (st : Alg4St) (k : Nat × Nat), k.2 ∉ l →
      sdFind (l.foldl (alg4InitStep g) st).nextmove k = sdFind st.nextmove k := by
  intro l
  induction l with
  | nil => intro g st k _; rfl
  | cons a0 l ih =>
    intro g st k hk
    have hk1 : k.2 ≠ a0 := fun h => hk (by rw [h]; exact List.mem_cons_self _ _)
    have hk2 : k.2 ∉ l := fun h => hk (List.mem_cons_of_mem _ h)
    simp only [List.foldl_cons]
    rw [ih g _ k hk2]
    cases hga : sdFind g (0, a0) with
    | none => rw [show alg4InitStep g st a0 = st from by rw [alg4InitStep, hga]]
    | some s =>
      have h2 : (alg4InitStep g st a0).nextmove = dictUpd st.nextmove (0, a0) s := by
        rw [alg4InitStep, hga]
      rw [h2, sdFind_dictUpd]
      rw [if_neg (fun h => hk1 (by rw [h]))]

/-- The initial loop of Algorithm 4 copies the root goto row. -/
theorem alg4Init_rootrow :
    ∀ (l : List Nat), l.Nodup → ∀ (g : StateDict) (st : Alg4St) (a s : Nat),
      a ∈ l → sdFind g (0, a) = some s →
      sdFind (l.foldl (alg4InitStep g) st).nextmove (0, a) = some s := by
  intro l
  induction l with
  | nil => intro _ g st a s ha; cases ha
  | cons a0 l ih =>
    intro hnd g st a s ha hga
    have hnd2 : l.Nodup := (List.nodup_cons.mp hnd).2
    have ha0l : a0 ∉ l := (List.nodup_cons.mp hnd).1
    simp only [List.foldl_cons]
    rcases List.mem_cons.mp ha with h2 | h2
    · subst h2
      rw [alg4Init_keys l g _ (0, a) (by exact ha0l)]
      have h3 : (alg4InitStep g st a).nextmove = dictUpd st.nextmove (0, a) s := by
        rw [alg4InitStep, hga]
      rw [h3, sdFind_dictUpd, if_pos rfl]
    · exact ih hnd2 g _ a s h2 hga

/-- In the no-edge branch the inner loop of Algorithm 4 stores the value read
from the failure state's row (which no write of this loop touches). -/
theorem alg4Child_foldl_norow (g : StateDict) (fail : FailDict) (r : Nat)
    (hfr : (fdFind fail r).getD 0 ≠ r) :
    ∀ (l : List Nat), l.Nodup → ∀ (st : Alg4St) (a : Nat), a ∈ l →
      sdFind g (r, a) = none →
      sdFind (l.foldl (alg4Child g fail r) st).nextmove (r, a)
        = some ((sdFind st.nextmove ((fdFind fail r).getD 0, a)).getD 0) := by
  intro l
  induction l with
  | nil => intro _ st a ha; cases ha
  | cons a0 l ih =>
    intro hnd st a ha hga
    have hnd2 : l.Nodup := (List.nodup_cons.mp hnd).2
    have ha0l : a0 ∉ l := (List.nodup_cons.mp hnd).1
    simp only [List.foldl_cons]
    obtain ⟨w, hw⟩ := alg4Child_nextmove g fail r st a0
    rcases List.mem_cons.mp ha with h2 | h2
    · subst h2
      rw [alg4Child_foldl_keys g fail r l _ (r, a) (Or.inr ha0l)]
      have h3 : (alg4Child g fail r st a).nextmove
          = dictUpd st.nextmove (r, a)
              ((sdFind st.nextmove ((fdFind fail r).getD 0, a)).getD 0) := by
        rw [alg4Child, hga]
      rw [h3, sdFind_dictUpd, if_pos rfl]
    · rw [ih hnd2 _ a h2 hga]
      rw [hw, sdFind_dictUpd]
      rw [if_neg (fun h => hfr (congrArg Prod.fst h))]

/-- The ghost bookkeeping embedded in the Algorithm 3 invariant. -/
theorem A3Inv_ghost (K : List (List Nat)) (gt : StateDict) (st : Alg3St)
    (doneW qW : List (List Nat)) (h : A3Inv K gt st doneW qW) : GhostW gt doneW qW :=
  ⟨h.wnodup, h.origin, h.dcons, h.qcons, h.sorted, h.span, h.shallow, h.closure⟩

/-- Unfolding of the Algorithm 4 loop on an empty queue. -/
theorem alg4Loop_nil (g : StateDict) (fail : FailDict) (fuel : Nat) (st : Alg4St)
    (h : st.queue = []) : alg4Loop g fail (fuel + 1) st = st.nextmove := by
  rw [alg4Loop, h]

/-- Unfolding of the Algorithm 4 loop on a pop. -/
theorem alg4Loop_cons (g : StateDict) (fail : FailDict) (fuel : Nat) (st : Alg4St)
    (r : Nat) (q : List Nat) (h : st.queue = r :: q) :
    alg4Loop g fail (fuel + 1) st
      = alg4Loop g fail fuel (alphabetL.foldl (alg4Child g fail r) ⟨q, st.nextmove⟩) := by
  rw [alg4Loop, h]

/-- The initial loops of Algorithm 4 establish the word-level invariant: the
root row holds the longest-suffix targets and the depth-1 states are
enqueued. -/
theorem A4CInv_init (gt : StateDict) (ns : Nat)
    (hb : GotoBound gt ns) (hpu : ParentUnique gt) (hgb : GotoBytes gt) :
    A4CInv gt (alphabetL.foldl (alg4InitStep (completeRoot gt)) ⟨[], []⟩) []
      (alphabetL.filterMap (fun a =>
        match sdFind gt (0, a) with
        | some _ => some [a]
        | none => none)) := by
  have hchildst : ∀ a s, sdFind gt (0, a) = some s →
      (consumedB gt [a] = true ∧ stOf gt [a] = s) := by
    intro a s hga
    have he2 : sdFind gt (stOf gt [], a) = some s := hga
    exact consumedB_step gt [] a s (consumedB_nil gt) he2
  have hg0 : ∀ a, a < 256 → sdFind gt (0, a) = none →
      sdFind (completeRoot gt) (0, a) = some 0 := by
    intro a ha hga
    rw [completeRoot, completeRoot_foldl_lookup]
    rw [if_pos ⟨rfl, by rw [alphabetL, List.mem_range]; exact ha, hga⟩]
  have hg1 : ∀ a s, sdFind gt (0, a) = some s →
      sdFind (completeRoot gt) (0, a) = some s := by
    intro a s hga
    rw [completeRoot_nonzero gt (0, a) s (by
      have := (hb (0, a) s hga).2.2.1
      omega)]
    exact hga
  refine ⟨?_, ?_, ?_, ?_⟩
  · -- ghost
    exact A3Inv_ghost [] gt _ [] _
      (A3Inv_init [] gt ns hb hpu hgb (fun k hk => absurd hk (List.not_mem_nil k)) []
        (fun u _ => by rw [if_neg (List.not_mem_nil u)]; rfl))
  · -- qrep
    rw [alg4Init_queue]
    rw [List.map_filterMap]
    rw [List.nil_append]
    refine List.filterMap_congr ?_
    intro a ha
    have ha256 : a < 256 := by
      rw [alphabetL, List.mem_range] at ha
      exact ha
    cases hga : sdFind gt (0, a) with
    | none =>
      rw [hg0 a ha256 hga]
      dsimp only
      rw [if_neg (by omega)]
      rfl
    | some s =>
      rw [hg1 a s hga]
      dsimp only
      rw [if_pos (by
        have := (hb (0, a) s hga).2.2.1
        omega)]
      rw [Option.map_some', (hchildst a s hga).2]
  · -- rowdone
    intro w hw
    exact absurd hw (List.not_mem_nil w)
  · -- rowroot
    intro a ha
    have hamem : a ∈ alphabetL := by rw [alphabetL, List.mem_range]; exact ha
    cases hga : sdFind gt (0, a) with
    | none =>
      rw [alg4Init_rootrow alphabetL (by rw [alphabetL]; exact List.nodup_range 256)
        (completeRoot gt) _ a 0 hamem (hg0 a ha hga)]
      have hnc : consumedB gt [a] = false := by
        have he2 : sdFind gt (stOf gt [], a) = none := hga
        exact consumedB_step_none gt [] a (consumedB_nil gt) he2
      rw [lsufT_cons]
      rw [if_neg (by rw [hnc]; exact Bool.false_ne_true)]
      rfl
    | some s =>
      rw [alg4Init_rootrow alphabetL (by rw [alphabetL]; exact List.nodup_range 256)
        (completeRoot gt) _ a s hamem (hg1 a s hga)]
      rw [lsufT_of_consumed gt [a] (hchildst a s hga).1, (hchildst a s hga).2]

/-- One pop of the Algorithm 4 BFS preserves the word-level invariant: the
popped state's row is completed with the longest-suffix targets, using the
correct failure map for the no-edge bytes. -/
theorem A4CInv_step (gt : StateDict) (ns : Nat)
    (hb : GotoBound gt ns) (hpu : ParentUnique gt) (hgb : GotoBytes gt)
    (fail : FailDict)
    (hfail : ∀ x, consumedB gt x = true → x ≠ [] →
      fdFind fail (stOf gt x) = some (stOf gt (psufT gt x)))
    (st : Alg4St) (doneW : List (List Nat)) (u : List Nat) (qtl : List (List Nat))
    (hinv : A4CInv gt st doneW (u :: qtl)) :
    A4CInv gt
      (alphabetL.foldl (alg4Child (completeRoot gt) fail (stOf gt u))
        ⟨qtl.map (stOf gt), st.nextmove⟩)
      (doneW ++ [u])
      (qtl ++ alphabetL.filterMap (fun a =>
        match sdFind gt (stOf gt u, a) with
        | some _ => some (u ++ [a])
        | none => none)) := by
  obtain ⟨hu, hune⟩ := hinv.ghost.qcons u (List.mem_cons_self _ _)
  have hr1 : 1 ≤ stOf gt u := stOf_pos gt ns hb u hu hune
  have hupos : 1 ≤ u.length := by
    cases u with
    | nil => exact absurd rfl hune
    | cons c r => simp
  have hWc := childWords_spec gt hgb u
  have hinj : ∀ (x y : List Nat), consumedB gt x = true → consumedB gt y = true →
      stOf gt x = stOf gt y → x = y := by
    intro x y hx hy hxy
    exact stOf_inj gt ns hb hpu (x.length + y.length) x y (by omega) (by omega)
      hx hy hxy
  have hnd3 := List.nodup_append.mp hinv.ghost.wnodup
  have hund : u ∉ doneW := fun h => hnd3.2.2 h (List.mem_cons_self _ _)
  have hcrn : ∀ a, sdFind (completeRoot gt) (stOf gt u, a) = sdFind gt (stOf gt u, a) :=
    fun a => completeRoot_nonroot gt (stOf gt u, a) (by simp only; omega)
  have hpsc : consumedB gt (psufT gt u) = true := by
    rw [psufT]
    exact (lsufT_suffix gt (u.drop 1)).2
  have hplen : (psufT gt u).length < u.length := by
    have h1 : (psufT gt u).length ≤ (u.drop 1).length := by
      rw [psufT]
      exact (lsufT_suffix gt (u.drop 1)).1.length_le
    rw [List.length_drop] at h1
    omega
  have hfu := hfail u hu hune
  have hfgetD : (fdFind fail (stOf gt u)).getD 0 = stOf gt (psufT gt u) := by
    rw [hfu]
    rfl
  have hfr : (fdFind fail (stOf gt u)).getD 0 ≠ stOf gt u := by
    rw [hfgetD]
    intro h
    have h2 := hinj (psufT gt u) u hpsc hu h
    rw [h2] at hplen
    omega
  have hpd : psufT gt u ∈ doneW ∨ psufT gt u = [] := by
    by_cases hpe : psufT gt u = []
    · exact Or.inr hpe
    · refine Or.inl (hinv.ghost.shallow (psufT gt u) hpsc hpe ?_)
      intro w2 hw2
      rcases List.mem_cons.mp hw2 with h2 | h2
      · rw [h2]
        exact hplen
      · have := (List.pairwise_cons.mp hinv.ghost.sorted).1 w2 h2
        omega
  have hrowu : ∀ a, a < 256 →
      sdFind (alphabetL.foldl (alg4Child (completeRoot gt) fail (stOf gt u))
          ⟨qtl.map (stOf gt), st.nextmove⟩).nextmove (stOf gt u, a)
        = some (stOf gt (lsufT gt (u ++ [a]))) := by
    intro a ha
    have hamem : a ∈ alphabetL := by rw [alphabetL, List.mem_range]; exact ha
    cases hga : sdFind gt (stOf gt u, a) with
    | some s =>
      rw [alg4Child_foldl_edge (completeRoot gt) fail (stOf gt u) alphabetL _
        (by rw [alphabetL]; exact List.nodup_range 256) a hamem s
        (by rw [hcrn a]; exact hga)]
      rw [lsufT_of_consumed gt (u ++ [a]) (consumedB_step gt u a s hu hga).1,
        (consumedB_step gt u a s hu hga).2]
    | none =>
      rw [alg4Child_foldl_norow (completeRoot gt) fail (stOf gt u) hfr alphabetL
        (by rw [alphabetL]; exact List.nodup_range 256) _ a hamem
        (by rw [hcrn a]; exact hga)]
      rw [hfgetD]
      have hlsuf : lsufT gt (u ++ [a]) = lsufT gt (psufT gt u ++ [a]) :=
        lsufT_append_psufT gt u a (consumedB_step_none gt u a hu hga)
      rcases hpd with hpdone | hpnil
      · rw [show (⟨qtl.map (stOf gt), st.nextmove⟩ : Alg4St).nextmove
          = st.nextmove from rfl]
        rw [hinv.rowdone (psufT gt u) hpdone a ha]
        rw [hlsuf]
        rfl
      · rw [hpnil]
        rw [show (⟨qtl.map (stOf gt), st.nextmove⟩ : Alg4St).nextmove
          = st.nextmove from rfl]
        rw [show stOf gt [] = 0 from rfl]
        rw [hinv.rowroot a ha]
        rw [hlsuf, hpnil]
        rfl
  refine ⟨?_, ?_, ?_, ?_⟩
  · -- ghost
    exact GhostW_step gt ns hb hpu hgb doneW u qtl hinv.ghost
  · -- qrep
    rw [alg4Child_foldl_queue, List.map_append]
    rw [show (⟨qtl.map (stOf gt), st.nextmove⟩ : Alg4St).queue
      = qtl.map (stOf gt) from rfl]
    rw [List.map_filterMap]
    refine congrArg (qtl.map (stOf gt) ++ ·) ?_
    refine List.filterMap_congr ?_
    intro a _
    rw [hcrn a]
    cases hga : sdFind gt (stOf gt u, a) with
    | none =>
      dsimp only
      rfl
    | some s =>
      dsimp only
      rw [Option.map_some', (consumedB_step gt u a s hu hga).2]
  · -- rowdone
    intro w hw a ha
    rcases List.mem_append.mp hw with h2 | h2
    · have hwne : w ≠ u := fun h => hund (h ▸ h2)
      have hsne : stOf gt w ≠ stOf gt u := by
        intro h
        exact hwne (hinj w u (hinv.ghost.dcons w h2).1 hu h)
      rw [alg4Child_foldl_keys (completeRoot gt) fail (stOf gt u) alphabetL _
        (stOf gt w, a) (Or.inl hsne)]
      exact hinv.rowdone w h2 a ha
    · rw [List.mem_singleton.mp h2]
      exact hrowu a ha
  · -- rowroot
    intro a ha
    rw [alg4Child_foldl_keys (completeRoot gt) fail (stOf gt u) alphabetL _
      (0, a) (Or.inl (by omega))]
    exact hinv.rowroot a ha

/-- With fuel covering the remaining states, the Algorithm 4 BFS drains the
queue and returns the next-move table of an invariant state. -/
theorem alg4CLoop_run (gt : StateDict) (ns : Nat)
    (hb : GotoBound gt ns) (hpu : ParentUnique gt) (hgb : GotoBytes gt)
    (fail : FailDict)
    (hfail : ∀ x, consumedB gt x = true → x ≠ [] →
      fdFind fail (stOf gt x) = some (stOf gt (psufT gt x))) :
    ∀ (fuel : Nat) (st : Alg4St) (doneW qW : List (List Nat)),
      A4CInv gt st doneW qW → ns + 1 ≤ fuel + doneW.length →
      ∃ (st2 : Alg4St) (doneW2 : List (List Nat)),
        A4CInv gt st2 doneW2 [] ∧
        alg4Loop (completeRoot gt) fail fuel st = st2.nextmove := by
  intro fuel
  induction fuel with
  | zero =>
    intro st doneW qW hinv hfuel
    have hcount := GhostW_count gt ns hb hpu doneW qW hinv.ghost
    exact absurd hfuel (by omega)
  | succ fuel ih =>
    intro st doneW qW hinv hfuel
    cases qW with
    | nil =>
      refine ⟨st, doneW, hinv, ?_⟩
      exact alg4Loop_nil _ _ fuel st (by rw [hinv.qrep]; rfl)
    | cons u qtl =>
      have hstep := A4CInv_step gt ns hb hpu hgb fail hfail st doneW u qtl hinv
      have hqe : st.queue = stOf gt u :: qtl.map (stOf gt) := by
        rw [hinv.qrep]
        rfl
      rw [alg4Loop_cons (completeRoot gt) fail fuel st (stOf gt u)
        (qtl.map (stOf gt)) hqe]
      refine ih _ (doneW ++ [u]) _ hstep ?_
      rw [List.length_append]
      simp only [List.length_singleton]
      omega

/-- Correctness of Algorithm 4 as run by `build`: given a correct failure map,
the compiled next-move table sends the state of any consumed word `w` and any
byte `a` to the state of the longest consumed suffix of `w ++ [a]`. -/
theorem alg4_correct (gt : StateDict) (ns : Nat)
    (hb : GotoBound gt ns) (hpu : ParentUnique gt) (hgb : GotoBytes gt)
    (fail : FailDict)
    (hfail : ∀ x, consumedB gt x = true → x ≠ [] →
      fdFind fail (stOf gt x) = some (stOf gt (psufT gt x))) :
    ∀ w, consumedB gt w = true → ∀ a, a < 256 →
      sdFind (alg4Loop (completeRoot gt) fail (ns + 1)
          (alphabetL.foldl (alg4InitStep (completeRoot gt)) ⟨[], []⟩)) (stOf gt w, a)
        = some (stOf gt (lsufT gt (w ++ [a]))) := by
  obtain ⟨st2, doneW2, hfin, heq⟩ := alg4CLoop_run gt ns hb hpu hgb fail hfail
    (ns + 1) (alphabetL.foldl (alg4InitStep (completeRoot gt)) ⟨[], []⟩) [] _
    (A4CInv_init gt ns hb hpu hgb) (by simp)
  rw [heq]
  intro w hw a ha
  by_cases hne : w = []
  · subst hne
    exact hfin.rowroot a ha
  · have hdone : w ∈ doneW2 :=
      hfin.ghost.shallow w hw hne (fun w2 h => absurd h (List.not_mem_nil w2))
    exact hfin.rowdone w hdone a ha

/-- Counting a disjunction of two pointwise-exclusive predicates splits. -/
theorem countP_or_disjoint :
    ∀ (l : List Nat) (p q : Nat → Bool),
      (∀ i ∈ l, ¬(p i = true ∧ q i = true)) →
      l.countP (fun i => p i || q i) = l.countP p + l.countP q := by
  intro l
  induction l with
  | nil => intro p q _; rfl
  | cons a l ih =>
    intro p q h
    rw [List.countP_cons, List.countP_cons, List.countP_cons,
      ih p q (fun i hi => h i (List.mem_cons_of_mem _ hi))]
    have hsplit : ((if (p a || q a) = true then 1 else 0) : Nat)
        = (if p a = true then 1 else 0) + (if q a = true then 1 else 0) := by
      by_cases hp : p a = true
      · have hq : ¬ q a = true := fun hq => h a (List.mem_cons_self _ _) ⟨hp, hq⟩
        rw [if_pos (by rw [hp, Bool.true_or]), if_pos hp, if_neg hq]
      · by_cases hq : q a = true
        · rw [if_pos (by rw [hq, Bool.or_true]), if_neg hp, if_pos hq]
        · rw [if_neg (by
            rw [Bool.or_eq_true]
            rintro (h1 | h1)
            · exact hp h1
            · exact hq h1), if_neg hp, if_neg hq]
    omega

/-- A predicate holding at exactly one index below `n` is counted once. -/
theorem countP_unique_range :
    ∀ (n : Nat) (p : Nat → Bool) (i0 : Nat), i0 < n →
      (∀ i, i < n → (p i = true ↔ i = i0)) → (List.range n).countP p = 1 := by
  intro n
  induction n with
  | zero =>
    intro p i0 h _
    exact absurd h (by omega)
  | succ n ih =>
    intro p i0 h0 hiff
    rw [List.range_succ, List.countP_append, List.countP_singleton]
    by_cases hlast : i0 = n
    · have h1 : (List.range n).countP p = 0 := by
        rw [List.countP_eq_zero]
        intro i hi
        rw [List.mem_range] at hi
        intro hp
        have := (hiff i (by omega)).mp hp
        omega
      rw [h1, if_pos ((hiff n (by omega)).mpr hlast.symm)]
    · have h2 : ¬ p n = true := fun hp => hlast (((hiff n (by omega)).mp hp).symm)
      rw [if_neg h2, ih p i0 (by omega) (fun i hi => hiff i (by omega))]

/-- No nonempty keyword occurs in the empty string. -/
theorem countSubstr_nil (k : List Nat) (hk : k ≠ []) : countSubstr k [] = 0 := by
  rw [countSubstr]
  simp [List.prefix_nil, hk]

/-- Appending one byte adds exactly the occurrence ending at the new byte. -/
theorem countSubstr_append_singleton (k w : List Nat) (c : Nat) (hk : k ≠ []) :
    countSubstr k (w ++ [c])
      = countSubstr k w + (if k <:+ w ++ [c] then 1 else 0) := by
  rw [countSubstr, countSubstr]
  rw [← List.countP_eq_length_filter, ← List.countP_eq_length_filter]
  have hlen : (w ++ [c]).length = w.length + 1 := by simp
  rw [hlen]
  rw [List.range_succ]
  rw [List.countP_append, List.countP_singleton]
  have hdrop : (w ++ [c]).drop (w.length + 1) = [] := by
    rw [← hlen]
    exact List.drop_length _
  have hlast : ¬ ((fun i => decide (k <+: (w ++ [c]).drop i)) (w.length + 1) = true) := by
    simp only [hdrop, decide_eq_true_eq, List.prefix_nil]
    exact hk
  rw [if_neg hlast]
  have hcongr : (List.range (w.length + 1)).countP
        (fun i => decide (k <+: (w ++ [c]).drop i))
      = (List.range (w.length + 1)).countP
          (fun i => decide (k <+: w.drop i) || decide (w.drop i ++ [c] = k)) := by
    refine List.countP_congr ?_
    intro i hi
    rw [List.mem_range] at hi
    have hdi : (w ++ [c]).drop i = w.drop i ++ [c] :=
      List.drop_append_of_le_length (by omega)
    simp only [hdi, decide_eq_true_eq, Bool.or_eq_true]
    rw [List.prefix_concat_iff]
    constructor
    · rintro (h1 | h1)
      · exact Or.inr h1.symm
      · exact Or.inl h1
    · rintro (h1 | h1)
      · exact Or.inr h1
      · exact Or.inl h1.symm
  rw [hcongr]
  rw [countP_or_disjoint _ _ _ (by
    intro i hi ⟨h1, h2⟩
    rw [List.mem_range] at hi
    rw [decide_eq_true_eq] at h1 h2
    have hl1 : k.length ≤ (w.drop i).length := h1.length_le
    have hl2 := congrArg List.length h2
    rw [List.length_drop] at hl1
    rw [List.length_append, List.length_drop] at hl2
    simp only [List.length_singleton] at hl2
    omega)]
  have hE : (List.range (w.length + 1)).countP (fun i => decide (w.drop i ++ [c] = k))
      = if k <:+ w ++ [c] then 1 else 0 := by
    by_cases hs : k <:+ w ++ [c]
    · rw [if_pos hs]
      have hkd := List.suffix_iff_eq_drop.mp hs
      have hkl : k.length ≤ w.length + 1 := by
        have := hs.length_le
        rw [hlen] at this
        exact this
      have hkpos : 1 ≤ k.length := by
        cases k with
        | nil => exact absurd rfl hk
        | cons c2 r => simp
      refine countP_unique_range (w.length + 1) _ (w.length + 1 - k.length)
        (by omega) ?_
      intro i hi
      constructor
      · intro hp
        rw [decide_eq_true_eq] at hp
        have hlen2 := congrArg List.length hp
        rw [List.length_append, List.length_drop] at hlen2
        simp only [List.length_singleton] at hlen2
        omega
      · intro hieq
        subst hieq
        rw [decide_eq_true_eq]
        rw [hlen] at hkd
        rw [List.drop_append_of_le_length (by omega)] at hkd
        exact hkd.symm
    · rw [if_neg hs]
      rw [List.countP_eq_zero]
      intro i hi hp
      rw [decide_eq_true_eq] at hp
      refine hs ?_
      rw [← hp]
      exact suffix_append_same (w.drop i) w [c] (List.drop_suffix i w)
  rw [hE]
  omega

/-- Counting in a duplicate-free list is a membership test. -/
theorem nodup_count (l : List (List Nat)) (a : List Nat) (h : l.Nodup) :
    List.count a l = if a ∈ l then 1 else 0 := by
  induction l with
  | nil =>
    rw [if_neg (List.not_mem_nil a)]
    rfl
  | cons b l ih =>
    have hnd := List.nodup_cons.mp h
    rw [List.count_cons, ih hnd.2]
    by_cases hab : b = a
    · subst hab
      rw [if_pos (List.mem_cons_self _ _), if_neg (fun hm => hnd.1 hm),
        if_pos (beq_self_eq_true b)]
    · rw [if_neg (fun hbe => hab (eq_of_beq hbe))]
      by_cases hm : a ∈ l
      · rw [if_pos hm, if_pos (List.mem_cons_of_mem _ hm)]
      · rw [if_neg hm, if_neg (by
          intro hm2
          rcases List.mem_cons.mp hm2 with h2 | h2
          · exact hab h2.symm
          · exact hm h2)]

/-- The output field assigned by `build` is the Algorithm 3 output map. -/
theorem build_output_eq (K : List (List Nat)) :
    (Scanner.build K).output
      = (alg3Loop (completeRoot (trieOf K).goto) ((trieOf K).newstate + 1)
          ((trieOf K).newstate + 1)
          (alphabetL.foldl (alg3InitStep (completeRoot (trieOf K).goto))
            ⟨[], [], (trieOf K).output⟩)).2 := by
  unfold Scanner.build
  with_reducible rfl

/-- Semantics of the built scanner: the next-move rows follow the
longest-consumed-suffix transition and the output map of each state holds
exactly the keywords that are suffixes of its word. -/
theorem build_search_ctx (K : List (List Nat))
    (hbytes : ∀ k ∈ K, ∀ c ∈ k, c < 256) (hKne : ∀ k ∈ K, k ≠ []) :
    (∀ w, consumedB (trieOf K).goto w = true → ∀ a, a < 256 →
      sdFind (Scanner.build K).nextmove (stOf (trieOf K).goto w, a)
        = some (stOf (trieOf K).goto (lsufT (trieOf K).goto (w ++ [a])))) ∧
    (∀ w, consumedB (trieOf K).goto w = true →
      (outGet (Scanner.build K).output (stOf (trieOf K).goto w)).Nodup ∧
      (∀ k, k ∈ outGet (Scanner.build K).output (stOf (trieOf K).goto w)
        ↔ (k ∈ K ∧ k <:+ w))) := by
  have hb : GotoBound (trieOf K).goto (trieOf K).newstate :=
    TrieBound_foldl K ⟨[], [], 0⟩ TrieBound_empty
  have hpu := trieOf_parentUnique K
  have hgb := trieOf_bytes K hbytes
  have hout := trieOf_output K
  have halg3 := alg3_correct K (trieOf K).goto (trieOf K).newstate hb hpu hgb
    hout.2 hKne (trieOf K).output hout.1
  constructor
  · intro w hw a ha
    rw [build_nextmove_eq K]
    exact alg4_correct (trieOf K).goto (trieOf K).newstate hb hpu hgb _ halg3.1
      w hw a ha
  · intro w hw
    rw [build_output_eq K]
    exact halg3.2 w hw

/-- The flat-array cell read by `search` is the next-move dictionary entry. -/
theorem build_cell (K : List (List Nat)) (s a : Nat)
    (hs : s ≤ (trieOf K).newstate) (ha : a < 256) :
    (Scanner.build K).nm_arr.get ((s <<< 8) + a)
      = (sdFind (Scanner.build K).nextmove (s, a)).getD 0 := by
  rw [build_nm_arr_nextmove K, NmArr_get_mkNmArr]
  have hsh : s <<< 8 = s * 256 := by
    rw [Nat.shiftLeft_eq]
  rw [hsh]
  exact nmValues_getD _ _ s a hs ha

/-- The running count of the scan loop: starting from the state of the longest
consumed suffix of the processed prefix `w`, scanning `l` yields each keyword
once per occurrence ending inside `l`. -/
theorem searchFrom_count (K : List (List Nat))
    (hbytes : ∀ k ∈ K, ∀ c ∈ k, c < 256) (hKne : ∀ k ∈ K, k ≠ []) :
    ∀ (l w : List Nat), (∀ c ∈ l, c < 256) →
      ∀ k ∈ K,
        countSubstr k w
          + List.count k ((Scanner.build K).searchFrom
              (stOf (trieOf K).goto (lsufT (trieOf K).goto w)) l)
        = countSubstr k (w ++ l) := by
  have hctx := build_search_ctx K hbytes hKne
  have hb : GotoBound (trieOf K).goto (trieOf K).newstate :=
    TrieBound_foldl K ⟨[], [], 0⟩ TrieBound_empty
  have hKcons := (trieOf_output K).2
  intro l
  induction l with
  | nil =>
    intro w _ k hk
    rw [List.append_nil]
    rw [show ((Scanner.build K).searchFrom
      (stOf (trieOf K).goto (lsufT (trieOf K).goto w)) [] : List (List Nat))
      = [] from rfl]
    rw [List.count_nil]
    omega
  | cons c rest ih =>
    intro w hl k hk
    have hc : c < 256 := hl c (List.mem_cons_self _ _)
    have hrest : ∀ x ∈ rest, x < 256 := fun x hx => hl x (List.mem_cons_of_mem _ hx)
    have hs2 : (Scanner.build K).nm_arr.get
        ((stOf (trieOf K).goto (lsufT (trieOf K).goto w) <<< 8) + c)
        = stOf (trieOf K).goto (lsufT (trieOf K).goto (w ++ [c])) := by
      rw [build_cell K _ c (stOf_le _ _ hb _) hc]
      rw [hctx.1 (lsufT (trieOf K).goto w) (lsufT_suffix _ w).2 c hc]
      rw [← lsufT_append_lsufT]
      rfl
    have hunfold : (Scanner.build K).searchFrom
        (stOf (trieOf K).goto (lsufT (trieOf K).goto w)) (c :: rest)
        = outGet (Scanner.build K).output
            (stOf (trieOf K).goto (lsufT (trieOf K).goto (w ++ [c])))
          ++ (Scanner.build K).searchFrom
            (stOf (trieOf K).goto (lsufT (trieOf K).goto (w ++ [c]))) rest := by
      rw [Scanner.searchFrom]
      simp only [hs2]
    rw [hunfold, List.count_append]
    have hocc := hctx.2 (lsufT (trieOf K).goto (w ++ [c])) (lsufT_suffix _ _).2
    have hcnt : List.count k (outGet (Scanner.build K).output
        (stOf (trieOf K).goto (lsufT (trieOf K).goto (w ++ [c]))))
        = if k <:+ w ++ [c] then 1 else 0 := by
      rw [nodup_count _ _ hocc.1]
      by_cases hm : k <:+ w ++ [c]
      · rw [if_pos hm, if_pos ((hocc.2 k).mpr
          ⟨hk, lsufT_max _ (w ++ [c]) k hm (hKcons k hk)⟩)]
      · rw [if_neg (fun hmem =>
          hm (((hocc.2 k).mp hmem).2.trans (lsufT_suffix _ (w ++ [c])).1)),
          if_neg hm]
    rw [hcnt]
    have hih := ih (w ++ [c]) hrest k hk
    have happ : (w ++ [c]) ++ rest = w ++ (c :: rest) := by simp
    rw [happ] at hih
    have hsplit := countSubstr_append_singleton k w c (hKne k hk)
    omega

/-- `search` over a byte string counts every keyword occurrence. -/
theorem search_count (K : List (List Nat)) (B : List Nat)
    (hbytes : ∀ k ∈ K, ∀ c ∈ k, c < 256) (hKne : ∀ k ∈ K, k ≠ [])
    (hB : ∀ c ∈ B, c < 256) :
    ∀ k ∈ K, List.count k ((Scanner.build K).search B) = countSubstr k B := by
  intro k hk
  have h := searchFrom_count K hbytes hKne B [] hB k hk
  rw [countSubstr_nil k (hKne k hk), List.nil_append] at h
  have h2 : (Scanner.build K).searchFrom 0 B
      = (Scanner.build K).searchFrom
          (stOf (trieOf K).goto (lsufT (trieOf K).goto [])) B := rfl
  rw [Scanner.search, h2]
  omega

/-- **C1.** For every set of (nonempty) byte-sequence keywords `K` and every
byte string `B`, building a `Scanner` over `K` and running its `search` on `B`
yields each keyword `k` of `K` exactly as many times as `k` occurs as a
(possibly overlapping) substring of `B`; in particular for keywords
`{ab, bc, abc}` scanned against `"ababc"`, `ab` is yielded 2 times, `bc` 1
time, and `abc` 1 time. -/
theorem search_yield_counts (K : List (List Nat)) (B : List Nat)
    (hbytes : ∀ k ∈ K, ∀ c ∈ k, c < 256) (hKne : ∀ k ∈ K, k ≠ [])
    (hB : ∀ c ∈ B, c < 256) :
    (∀ k ∈ K, List.count k ((Scanner.build K).search B) = countSubstr k B) ∧
    (List.count [97, 98] ((Scanner.build [[97, 98], [98, 99], [97, 98, 99]]).search
        [97, 98, 97, 98, 99]) = 2
      ∧ List.count [98, 99] ((Scanner.build [[97, 98], [98, 99], [97, 98, 99]]).search
        [97, 98, 97, 98, 99]) = 1
      ∧ List.count [97, 98, 99] ((Scanner.build [[97, 98], [98, 99], [97, 98, 99]]).search
        [97, 98, 97, 98, 99]) = 1) := by
  refine ⟨search_count K B hbytes hKne hB, ?_, ?_, ?_⟩
  · rw [search_count [[97, 98], [98, 99], [97, 98, 99]] [97, 98, 97, 98, 99]
      (by decide) (by decide) (by decide) [97, 98] (by decide)]
    decide
  · rw [search_count [[97, 98], [98, 99], [97, 98, 99]] [97, 98, 97, 98, 99]
      (by decide) (by decide) (by decide) [98, 99] (by decide)]
    decide
  · rw [search_count [[97, 98], [98, 99], [97, 98, 99]] [97, 98, 97, 98, 99]
      (by decide) (by decide) (by decide) [97, 98, 99] (by decide)]
    decide

/-- Witness for C1 at the S3 keyword set and input. -/
theorem search_yield_counts_witness :
    ((∀ k ∈ ([[97, 98], [98, 99], [97, 98, 99]] : List (List Nat)), ∀ c ∈ k, c < 256)
      ∧ (∀ k ∈ ([[97, 98], [98, 99], [97, 98, 99]] : List (List Nat)), k ≠ [])
      ∧ (∀ c ∈ ([97, 98, 97, 98, 99] : List Nat), c < 256))
    ∧ ((∀ k ∈ ([[97, 98], [98, 99], [97, 98, 99]] : List (List Nat)),
        List.count k ((Scanner.build [[97, 98], [98, 99], [97, 98, 99]]).search
          [97, 98, 97, 98, 99]) = countSubstr k [97, 98, 97, 98, 99]) ∧
      (List.count [97, 98] ((Scanner.build [[97, 98], [98, 99], [97, 98, 99]]).search
          [97, 98, 97, 98, 99]) = 2
        ∧ List.count [98, 99] ((Scanner.build [[97, 98], [98, 99], [97, 98, 99]]).search
          [97, 98, 97, 98, 99]) = 1
        ∧ List.count [97, 98, 99] ((Scanner.build [[97, 98], [98, 99], [97, 98, 99]]).search
          [97, 98, 97, 98, 99]) = 1)) :=
  ⟨⟨by decide, by decide, by decide⟩,
   search_yield_counts [[97, 98], [98, 99], [97, 98, 99]] [97, 98, 97, 98, 99]
     (by decide) (by decide) (by decide)⟩

end PyLangid
